import Mathlib

/-!
# SpriteTool Super Delux: table layout, manifest slots, address conversion, legacy cleanup

A shallow embedding of `src/sprite.cpp`.  C `int` values are modelled as `Int`
(no claim below depends on 32-bit wrap-around), bytes as `Nat`, pointers into
an array as the index they designate, and a null pointer as `none`.
-/

namespace SpriteTool

/-! ## Definitions -/

/-- Number of records of the full table: `MAX_SPRITE_COUNT`. -/
def MAX_SPRITE_COUNT : Int := 0x20F0

/-- Index designated by `from_table(table, level, number)` relative to `table`;
`none` stands for the `nullptr` result. -/
def from_table (level number : Int) : Option Int :=
  if level > 0x200 ∨ number > 0xFF then none
  else if level = 0x200 then
    if number < 0xB0 then some (0x2000 + number)
    else if number ≥ 0xB0 ∧ number < 0xC0 then none
    else some (0x2000 + number - 0x10)
  else if number ≥ 0xB0 ∧ number < 0xC0 then some ((level * 0x10) + (number - 0xB0))
  else none

/-- Slot coordinates the specification calls valid: the id is a byte, ids
`B0..BF` carry a concrete level `000..1FF`, every other id carries level `0x200`. -/
def valid_slot (level number : Int) : Prop :=
  0 ≤ number ∧ number ≤ 0xFF ∧
    (if 0xB0 ≤ number ∧ number ≤ 0xBF then 0 ≤ level ∧ level ≤ 0x1FF else level = 0x200)

instance (level number : Int) : Decidable (valid_slot level number) := by
  unfold valid_slot; infer_instance

/-- Inverse of the slot arithmetic on table indices (the specification's
"reverse-locate"): the coordinate whose record sits at index `k`. -/
def reverse_locate (k : Int) : Int × Int :=
  if k < 0x2000 then (k / 0x10, 0xB0 + k % 0x10)
  else if k < 0x20B0 then (0x200, k - 0x2000)
  else (0x200, k - 0x2000 + 0x10)

/-- Base of the per-level window holding level `L`, as the specification words it:
four windows of `0x800` records, `0x80` levels each. -/
def window_base (L : Int) : Int := 0x800 * (L / 0x80)

/-- The specification's piecewise slot formula (section 4.2 together with the
end-to-end example), written from the specification's words. -/
def spec_locate (level id : Int) : Int :=
  if level = 0x200 then
    if id < 0xB0 then 0x2000 + id else 0x2000 + id - 0x10
  else window_base level + (id - 0xB0) + (level % 0x80) * 0x10

/-- Domain on which the specification's formula is stated. -/
def spec_domain (level id : Int) : Prop :=
  (level = 0x200 ∧ id < 0xB0) ∨ (level = 0x200 ∧ 0xC0 ≤ id ∧ id ≤ 0xFF) ∨
    (0 ≤ level ∧ level ≤ 0x1FF ∧ 0xB0 ≤ id ∧ id ≤ 0xBF)

instance (level id : Int) : Decidable (spec_domain level id) := by
  unfold spec_domain; infer_instance

/-- Reasons for which manifest processing does not go on to the next line.
The first eight are the line-numbered fatal messages of `populate_sprite_list`
and the failure to read the descriptor; the next two are the undefined accesses
the loop body can perform; `never_returns` is no stop of the program at all:
the call `read_cfg_file` of the line does not return, because the line loop of
`read_cfg_file` finds no source line in the descriptor and keeps running. -/
inductive Abort
  | invalid_line_start
  | number_too_large
  | level_required
  | level_out_of_range
  | level_not_allowed
  | already_used
  | missing_filename
  | missing_separator
  | descriptor_unreadable
  | null_dereference
  | out_of_table
  | never_returns
  deriving DecidableEq, Repr

/-- Outcome of the part of the loop body that follows the slot bookkeeping
(separator test, file name, descriptor file): it depends on the text after the
slot prefix and on the file system, which are inputs of the model.  The call
`read_cfg_file` returns (`completes`), fails to read the file, or never returns
(a descriptor without a source line after its fields). -/
inductive Remainder
  | completes
  | missing_filename
  | missing_separator
  | descriptor_unreadable
  | never_returns
  deriving DecidableEq, Repr

/-- Reason for which a non-completing remainder does not reach the next line:
its fatal message, or `never_returns` when `read_cfg_file` keeps running. -/
def Remainder.abort : Remainder → Abort
  | .completes => .descriptor_unreadable
  | .missing_filename => .missing_filename
  | .missing_separator => .missing_separator
  | .descriptor_unreadable => .descriptor_unreadable
  | .never_returns => .never_returns

/-- One manifest line as the two `sscanf` calls of `populate_sprite_list` see it:
blank, without a hexadecimal start, `<id> ...`, or `<level>:<id> ...`. -/
inductive ManifestLine
  | blank
  | unparsable
  | plain (sprite_id : Int) (rest : Remainder)
  | leveled (level sprite_id : Int) (rest : Remainder)
  deriving DecidableEq, Repr

/-- Values of `level` and `sprite_id` when `from_table` is called for the line:
`level` keeps its reset value `0x200` unless the line has the `:` form. -/
def ManifestLine.coordinate : ManifestLine → Option (Int × Int)
  | .blank => none
  | .unparsable => none
  | .plain sprite_id _ => some (0x200, sprite_id)
  | .leveled level sprite_id _ => some (level, sprite_id)

/-- Table index the line resolves to, when `from_table` accepts its coordinate. -/
def ManifestLine.slot (l : ManifestLine) : Option Int :=
  match l.coordinate with
  | none => none
  | some (level, sprite_id) => from_table level sprite_id

/-- Bookkeeping fields of `struct sprite` written by `populate_sprite_list`. -/
structure sprite where
  line : Nat := 0
  number : Int := 0
  level : Int := 0x200
  deriving DecidableEq, Repr

/-- Body of the `if(!spr)` block in `populate_sprite_list`: the four tests in
source order; when none fires, control falls through to `spr->line` with
`spr == nullptr`. -/
def null_slot_outcome (level sprite_id : Int) : Abort :=
  if sprite_id ≥ 0x100 then .number_too_large
  else if level = 0x200 ∧ sprite_id ≥ 0xB0 ∧ sprite_id < 0xC0 then .level_required
  else if level > 0x200 then .level_out_of_range
  else if sprite_id ≥ 0xB0 ∧ sprite_id < 0xC0 then .level_not_allowed
  else .null_dereference

/-- Slot bookkeeping of one non-blank, parsable line (source lines 563-602):
look the slot up, report a null slot, refuse a slot whose `line` is already
non-zero, otherwise record line number, level and number. -/
def claim_slot (line_number : Nat) (sprite_list : Int → sprite) (level sprite_id : Int)
    (rest : Remainder) : Except (Nat × Abort) (Int → sprite) :=
  match from_table level sprite_id with
  | none => .error (line_number, null_slot_outcome level sprite_id)
  | some k =>
    if k < 0 ∨ MAX_SPRITE_COUNT ≤ k then .error (line_number, .out_of_table)
    else if (sprite_list k).line ≠ 0 then .error (line_number, .already_used)
    else if rest = .completes then
      .ok (Function.update sprite_list k ⟨line_number, sprite_id, level⟩)
    else .error (line_number, rest.abort)

/-- One iteration of the `do ... while` loop of `populate_sprite_list`, after
`line_number++`. -/
def populate_line (line_number : Nat) (sprite_list : Int → sprite) :
    ManifestLine → Except (Nat × Abort) (Int → sprite)
  | .blank => .ok sprite_list
  | .unparsable => .error (line_number, .invalid_line_start)
  | .plain sprite_id rest => claim_slot line_number sprite_list 0x200 sprite_id rest
  | .leveled level sprite_id rest => claim_slot line_number sprite_list level sprite_id rest

/-- The loop of `populate_sprite_list` over the remaining lines; `line_number`
is the number of lines already read. -/
def populate_from (line_number : Nat) (sprite_list : Int → sprite) :
    List ManifestLine → Except (Nat × Abort) (Int → sprite)
  | [] => .ok sprite_list
  | l :: ls =>
    match populate_line (line_number + 1) sprite_list l with
    | .error e => .error e
    | .ok s => populate_from (line_number + 1) s ls

/-- The function `populate_sprite_list` on a manifest, starting from the default-constructed
sprite list (`line = 0` everywhere) and `line_number = 0`. -/
def populate_sprite_list (lines : List ManifestLine) : Except (Nat × Abort) (Int → sprite) :=
  populate_from 0 (fun _ => {}) lines

/-- Low byte of the return stub every unassigned pointer designates: `RTL_LOW`. -/
def RTL_LOW : Nat := 0x21

/-- High byte of the return stub: `RTL_HIGH`. -/
def RTL_HIGH : Nat := 0x80

/-- Bank byte of the return stub: `RTL_BANK`. -/
def RTL_BANK : Nat := 0x01

/-- The conversion `(unsigned char)` applied to an `int`. -/
def to_uchar (v : Int) : Nat := (v % 256).toNat

/-- The three bytes of `struct pointer`; the default value is the return stub. -/
structure pointer where
  lowbyte : Nat := RTL_LOW
  highbyte : Nat := RTL_HIGH
  bankbyte : Nat := RTL_BANK
  deriving DecidableEq, Repr

/-- The constructor `pointer(int snes)`. -/
def pointer.from_snes (snes : Int) : pointer where
  lowbyte := to_uchar (Int.land snes 0xFF)
  highbyte := to_uchar (Int.land (snes >>> (8 : Nat)) 0xFF)
  bankbyte := to_uchar (Int.land (snes >>> (16 : Nat)) 0xFF)

/-- The method `pointer::is_empty`. -/
def pointer.is_empty (p : pointer) : Bool :=
  p.lowbyte == RTL_LOW && p.highbyte == RTL_HIGH && p.bankbyte == RTL_BANK

/-- The method `pointer::addr`. -/
def pointer.addr (p : pointer) : Int :=
  ((p.bankbyte : Int) <<< (16 : Int)) + ((p.highbyte : Int) <<< (8 : Int)) + (p.lowbyte : Int)

/-- The fields of `struct ROM` the address conversion and the cleaner use:
`real_data` is the image after the header, byte by byte, `size` its length
without the header. -/
structure ROM where
  real_data : Nat → Nat
  size : Nat
  header_size : Nat

/-- The method `ROM::pc_to_snes`. -/
def ROM.pc_to_snes (rom : ROM) (address : Int) : Int :=
  let address := address - rom.header_size
  Int.lor (Int.lor (Int.land (address <<< (1 : Int)) 0x7F0000) (Int.land address 0x7FFF)) 0x8000

/-- The method `ROM::snes_to_pc`. -/
def ROM.snes_to_pc (rom : ROM) (address : Int) : Int :=
  Int.lor ((Int.land address 0x7F0000) >>> (1 : Nat)) (Int.land address 0x7FFF) + rom.header_size

/-- An image of sixteen zero-filled banks behind a header of the given size. -/
def zero_rom (header_size : Nat) : ROM := ⟨fun _ => 0, 0x80000, header_size⟩

/-- The C string `"MDK"`: characters at positions 0..2, the terminator after them. -/
def mdk (j : Nat) : Nat :=
  match j with
  | 0 => 0x4D
  | 1 => 0x44
  | 2 => 0x4B
  | _ => 0

/-- The inner `for` loop of the legacy scan: `fuel` is the number of offsets left
before `0x8000`, `j` the number of marker characters matched so far. -/
def mdk_scan (bank : Nat → Nat) : Nat → Nat → Nat → Nat
  | 0, offset, _ => offset
  | fuel + 1, offset, j =>
    let j1 := if bank offset ≠ mdk j then 0 else j + 1
    if j1 = 3 then offset - 2 else mdk_scan bank fuel (offset + 1) j1

/-- Value of `offset` after the inner loop started at `bank_offset`. -/
def find_mdk (mem : Nat → Nat) (base bank_offset : Nat) : Nat :=
  mdk_scan (fun o => mem (base + o)) (0x8000 - bank_offset) bank_offset 0

/-- The test `strncmp(p, "STAR", 4) == 0`. -/
def has_star (mem : Nat → Nat) (p : Nat) : Bool :=
  mem p == 0x53 && mem (p + 1) == 0x54 && mem (p + 2) == 0x41 && mem (p + 3) == 0x52

/-- The call `memset(p, 0, size)`. -/
def memset_zero (mem : Nat → Nat) (p size : Nat) : Nat → Nat :=
  fun a => if p ≤ a ∧ a < p + size then 0 else mem a

/-- The operator's reply counts as a confirmation when it is `Y` or `y`. -/
def is_yes (c : Nat) : Bool := c == 0x59 || c == 0x79

/-- The `while(1)` loop of the legacy branch of `clean_hack` for the bank that
starts at `base` in `real_data`: `mem` is the image, `asked` the number of
confirmation prompts answered so far (the next reply is `answers asked`),
`bank_offset` the restart point of the search.  Returns the image and the
number of prompts. -/
def clean_bank (answers : Nat → Nat) (base : Nat) (mem : Nat → Nat) (asked bank_offset : Nat) :
    (Nat → Nat) × Nat :=
  let offset := find_mdk mem base bank_offset
  if h : 0x8000 ≤ offset then (mem, asked)
  else if hs : has_star mem (base + offset - 8) = false then
    clean_bank answers base mem asked (offset + 3)
  else
    let size := ((mem (base + offset - 3) % 256) <<< 8) + mem (base + offset - 4) % 256 + 8
    let inverted := ((mem (base + offset - 1) % 256) <<< 8) + mem (base + offset - 2) % 256
    if size - 8 + inverted = 0xFFFF then
      clean_bank answers base (memset_zero mem (base + offset - 8) (size + 1)) asked
        (offset + (size + 1) - 8)
    else if size - 8 + inverted ≠ 0x10000 then
      if is_yes (answers asked) = false then
        clean_bank answers base mem (asked + 1) (offset + 3)
      else
        clean_bank answers base (memset_zero mem (base + offset - 8) size) (asked + 1)
          (offset + size - 8)
    else
      clean_bank answers base (memset_zero mem (base + offset - 8) size) asked
        (offset + size - 8)
termination_by 2 * (0x8000 - bank_offset) + (if has_star mem (base + bank_offset - 8) then 1 else 0)
decreasing_by
  all_goals simp_wf
  all_goals
    have _ : find_mdk mem base bank_offset < 0x8000 := Nat.lt_of_not_le h
    have hge : bank_offset ≤ find_mdk mem base bank_offset := by
      have key : ∀ (bank : Nat → Nat) (fuel offset j : Nat), j ≤ 2 →
          offset ≤ mdk_scan bank fuel offset j + j := by
        intro bank fuel
        induction fuel with
        | zero => intro offset j _; simp [mdk_scan]
        | succ n ih =>
          intro offset j hj
          simp only [mdk_scan]
          by_cases hm : bank offset ≠ mdk j
          · rw [if_pos hm, if_neg (by decide)]
            have := ih (offset + 1) 0 (by omega)
            omega
          · rw [if_neg hm]
            by_cases h3 : j + 1 = 3
            · rw [if_pos h3]; omega
            · rw [if_neg h3]
              have := ih (offset + 1) (j + 1) (by omega)
              omega
      exact key _ _ bank_offset 0 (by omega)
    have cleared : ∀ sz : Nat, 8 ≤ sz →
        has_star mem (base + find_mdk mem base bank_offset - 8) = true →
        (2 * (32768 - (find_mdk mem base bank_offset + sz - 8)) +
          if has_star (memset_zero mem (base + find_mdk mem base bank_offset - 8) sz)
            (base + (find_mdk mem base bank_offset + sz - 8) - 8) = true then 1 else 0) <
        2 * (32768 - bank_offset) + if has_star mem (base + bank_offset - 8) = true then 1 else 0 := by
      intro sz hsz hstar0
      by_cases hb : find_mdk mem base bank_offset + sz - 8 = bank_offset
      · have e1 : find_mdk mem base bank_offset = bank_offset := by omega
        have e2 : sz = 8 := by omega
        have hstar : has_star mem (base + bank_offset - 8) = true := by
          rw [e1] at hstar0
          exact hstar0
        have hzero : has_star (memset_zero mem (base + bank_offset - 8) 8)
            (base + bank_offset - 8) = false := by
          simp [has_star, memset_zero]
        rw [e1, e2, Nat.add_sub_cancel, hzero, hstar]
        simp
      · split_ifs <;> omega
    first
      | (split_ifs <;> omega)
      | exact cleared _ (by omega) (eq_true_of_ne_false hs)

/-- What one iteration of the `while(1)` loop does once the marker is found at
`offset`: go on scanning after the marker (`skip`), or zero-fill `size` bytes
from the guard tag and go on after them (`clear`); each with the number of
prompts answered so far. -/
inductive Verdict
  | skip (asked : Nat)
  | clear (size asked : Nat)
  deriving DecidableEq, Repr

/-- The verdict of the loop body of `clean_bank` at a found marker, read off its branches. -/
def verdict (answers : Nat → Nat) (base : Nat) (mem : Nat → Nat) (asked offset : Nat) :
    Verdict :=
  if has_star mem (base + offset - 8) = false then .skip asked
  else
    let size := ((mem (base + offset - 3) % 256) <<< 8) + mem (base + offset - 4) % 256 + 8
    let inverted := ((mem (base + offset - 1) % 256) <<< 8) + mem (base + offset - 2) % 256
    if size - 8 + inverted = 0xFFFF then .clear (size + 1) asked
    else if size - 8 + inverted ≠ 0x10000 then
      if is_yes (answers asked) = false then .skip (asked + 1) else .clear size (asked + 1)
    else .clear size asked

/-- Two restart points are interchangeable when the search gives the same result
from both, or runs off the bank from both. -/
def same_search (mem : Nat → Nat) (base b e : Nat) : Prop :=
  find_mdk mem base b = find_mdk mem base e ∨
    (0x8000 ≤ find_mdk mem base b ∧ 0x8000 ≤ find_mdk mem base e)

/-- The `for` loop over the banks `i, i + 1, ...` (`count` of them) of the legacy
branch of `clean_hack`. -/
def clean_banks (answers : Nat → Nat) : Nat → Nat → (Nat → Nat) → Nat → (Nat → Nat) × Nat
  | 0, _, mem, asked => (mem, asked)
  | count + 1, i, mem, asked =>
    let r := clean_bank answers (i * 0x8000) mem asked 8
    clean_banks answers count (i + 1) r.1 r.2

/-- Offset in `real_data` of the signature `clean_hack` looks for:
`snes_to_pc(0x02FFE2)` without the header. -/
def signature_offset : Nat := 0x17FE2

/-- The test `!strncmp(rom.data + rom.snes_to_pc(0x02FFE2), "STSD", 4)`. -/
def has_signature (rom : ROM) : Bool :=
  rom.real_data signature_offset == 0x53 && rom.real_data (signature_offset + 1) == 0x54 &&
    rom.real_data (signature_offset + 2) == 0x53 && rom.real_data (signature_offset + 3) == 0x44

/-- The `else` branch of `clean_hack` (no signature: remove what an old
sprite tool left): every bank from `0x10` up to `rom.size / 0x8000` is scanned.
Returns the image and the number of confirmation prompts shown. -/
def clean_legacy (answers : Nat → Nat) (rom : ROM) : ROM × Nat :=
  let number_of_banks := rom.size / 0x8000
  let r := clean_banks answers (number_of_banks - 0x10) 0x10 rom.real_data 0
  ({ rom with real_data := r.1 }, r.2)

/-- Bytes of a 1 MiB image whose bank `0x10` holds, from in-bank offset 8, the
guard tag `STAR`, size `0xB2FF`, inverted size `0x4D00` and the marker `MDK`;
every other byte is zero. -/
def missed_tag_image (a : Nat) : Nat :=
  if a = 0x80008 then 0x53 else if a = 0x80009 then 0x54 else if a = 0x8000A then 0x41
  else if a = 0x8000B then 0x52 else if a = 0x8000C then 0xFF else if a = 0x8000D then 0xB2
  else if a = 0x8000E then 0x00 else if a = 0x8000F then 0x4D else if a = 0x80010 then 0x4D
  else if a = 0x80011 then 0x44 else if a = 0x80012 then 0x4B else 0

/-- The headerless 1 MiB image with those bytes. -/
def missed_tag_rom : ROM := ⟨missed_tag_image, 0x100000, 0⟩

/-- Bytes of an image whose bank `0x10` holds, from in-bank offset 8, the guard
tag `STAR`, size `0x0003`, inverted size `0xFFFC`, the marker `MDK` and one more
byte `0xAA`; every other byte is zero. -/
def small_tag_image (a : Nat) : Nat :=
  if a = 0x80008 then 0x53 else if a = 0x80009 then 0x54 else if a = 0x8000A then 0x41
  else if a = 0x8000B then 0x52 else if a = 0x8000C then 0x03 else if a = 0x8000D then 0x00
  else if a = 0x8000E then 0xFC else if a = 0x8000F then 0xFF else if a = 0x80010 then 0x4D
  else if a = 0x80011 then 0x44 else if a = 0x80012 then 0x4B else if a = 0x80013 then 0xAA
  else 0

/-- The headerless 1 MiB image with those bytes. -/
def small_tag_rom : ROM := ⟨small_tag_image, 0x100000, 0⟩

/-- A legacy tag hit at in-bank offset `o`: the guard tag `STAR` eight bytes
before the marker `MDK`. -/
def legacy_hit (mem : Nat → Nat) (base o : Nat) : Prop :=
  has_star mem (base + o - 8) = true ∧ mem (base + o) = mdk 0 ∧ mem (base + o + 1) = mdk 1 ∧
    mem (base + o + 2) = mdk 2

/-- The 16-bit size stored little-endian four bytes before the marker. -/
def tag_size (mem : Nat → Nat) (base o : Nat) : Nat :=
  ((mem (base + o - 3) % 256) <<< 8) + mem (base + o - 4) % 256

/-- The 16-bit inverted size stored little-endian two bytes before the marker. -/
def tag_inverted (mem : Nat → Nat) (base o : Nat) : Nat :=
  ((mem (base + o - 1) % 256) <<< 8) + mem (base + o - 2) % 256

/-- Bytes of an image whose bank `0x10` holds, from in-bank offset 8, the guard
tag `STAR`, size `0x0003`, inverted size `0x0000` (a bad pair) and the marker
`MDK`; every other byte is zero. -/
def bad_tag_image (a : Nat) : Nat :=
  if a = 0x80008 then 0x53 else if a = 0x80009 then 0x54 else if a = 0x8000A then 0x41
  else if a = 0x8000B then 0x52 else if a = 0x8000C then 0x03 else if a = 0x80010 then 0x4D
  else if a = 0x80011 then 0x44 else if a = 0x80012 then 0x4B else 0

/-- The headerless 1 MiB image with those bytes. -/
def bad_tag_rom : ROM := ⟨bad_tag_image, 0x100000, 0⟩

/-- The test `!strcmp(".asm", name + strlen(name) - 4)` on a directory entry
name.  For a name shorter than four characters the C pointer lies before the
name; the model compares the whole name instead. -/
def ends_with_asm (name : List Char) : Bool :=
  name.drop (name.length - 4) == ['.', 'a', 's', 'm']

/-- What `create_shared_patch` has registered so far: for every routine its
name (without `.asm`) and the offset argument written into its
`include_once` call, which is printed from `routine_count*3`. -/
structure SharedPatch where
  routine_count : Nat := 0
  routines : List (List Char × Nat) := []
  deriving DecidableEq, Repr

/-- One pass of the `readdir` loop of `create_shared_patch`; `none` is the fatal
error `More than 100 routines located`. -/
def register_routine (st : SharedPatch) (name : List Char) : Option SharedPatch :=
  if ends_with_asm name then
    if st.routine_count > 100 then none
    else
      some { routine_count := st.routine_count + 1,
             routines := st.routines ++ [(name.take (name.length - 4), st.routine_count * 3)] }
  else some st

/-- The `readdir` loop of `create_shared_patch` over a directory listing. -/
def register_routines (st : SharedPatch) : List (List Char) → Option SharedPatch
  | [] => some st
  | name :: names =>
    match register_routine st name with
    | none => none
    | some st1 => register_routines st1 names

/-- The routine registration of `create_shared_patch` on a directory listing. -/
def create_shared_patch (listing : List (List Char)) : Option SharedPatch :=
  register_routines {} listing

/-- Address the emitted macro `include_once` reads and writes for the offset
argument it is given: `<offset>*3+$03E05C`. -/
def include_once_address (offset : Nat) : Nat := offset * 3 + 0x03E05C

/-- Address of entry `i` of the shared-routine pointer table as the known-format
cleanup of `clean_hack` scans it: `0x03E05C + i * 3`. -/
def shared_table_entry (i : Nat) : Nat := 0x03E05C + i * 3

/-- Number of entries of the shared-routine pointer table the cleanup scans. -/
def shared_table_entries : Nat := 100

/-- Size of `struct sprite_table` in bytes: sixteen one-byte members. -/
def sprite_table_size : Nat := 16

/-! ### Text handling

A C string is modelled by the list of its characters before the terminating
NUL.  A pointer into a buffer is the buffer together with an offset. -/

/-- The NUL character. -/
def NUL : Char := Char.ofNat 0

/-- The test `isspace` of the C locale: space, `\t`, `\n`, `\v`, `\f`, `\r`. -/
def isspace (c : Char) : Bool := c.toNat == 32 || (9 ≤ c.toNat && c.toNat ≤ 13)

/-- Character `text[i]` of a buffer whose bytes from the end of the string on
are NUL (`new char[n]()` and `read_all` zero-fill their buffers). -/
def char_at (text : List Char) (i : Nat) : Char := text.getD i NUL

/-- Number of leading whitespace characters: the steps of the front loop
`while(isspace(*text)) text++` of `trim`. -/
def skip_space : List Char → Nat
  | [] => 0
  | c :: cs => if isspace c then skip_space cs + 1 else 0

/-- Back loop of `trim`, `for(i = strlen(text); isspace(text[i-1]); i--) text[i] = 0`,
with `p` the index of `text[i]` in the buffer.  Storing NUL at `p` cuts the
string held by the buffer to its first `p` characters.  At `p = 0` the read
`text[i-1]` lies before the buffer; the model stops there. -/
def trim_back (buf : List Char) : Nat → List Char
  | 0 => buf
  | p + 1 => if isspace (char_at buf p) then trim_back (buf.take (p + 1)) p else buf

/-- Function `trim` called on `buf + off`: the buffer after the call and the
offset of the pointer it returns. -/
def trim (buf : List Char) (off : Nat) : List Char × Nat :=
  (trim_back buf buf.length, off + skip_space (buf.drop off))

/-- The string `trim(buf + off)` returns, read after the call. -/
def trimmed (buf : List Char) (off : Nat) : List Char :=
  (trim buf off).1.drop (trim buf off).2

/-- Modelled from the spec: the string without its leading and trailing whitespace. -/
def spec_trim (s : List Char) : List Char :=
  ((s.dropWhile isspace).reverse.dropWhile isspace).reverse

/-- The call `strcspn(s, "\r\n")`. -/
def strcspn_eol (s : List Char) : Nat :=
  (s.takeWhile (fun c => !(c == '\r' || c == '\n'))).length

/-- Function `get_line`: the `length` and `data` of the `simple_string` it
returns.  `length` is 0 at the end of the text and otherwise one more than the
number of characters of the line. -/
def get_line (text : List Char) (offset : Nat) : Nat × List Char :=
  if char_at text offset = NUL then (0, [])
  else (strcspn_eol (text.drop offset) + 1,
        (text.drop offset).take (strcspn_eol (text.drop offset)))

/-- The file-name part of the loop body of `populate_sprite_list` (the
`isspace(current_line.data[bytes_read])` test and its two branches): the
`cfg_file` it stores, or the fatal error. -/
def file_name_check (dir data : List Char) (bytes_read : Nat) : Except Abort (List Char) :=
  if isspace (char_at data bytes_read) then
    if char_at (dir ++ trimmed data bytes_read) 0 = NUL then .error .missing_filename
    else .ok (dir ++ trimmed data bytes_read)
  else .error .missing_separator

/-- The rest of the loop body for a line whose buffer is `data` (as the blank
test `trim(current_line.data)` left it) and whose slot prefix ends at
`bytes_read`; `readable` says which descriptor files can be read. -/
def scan_remainder (readable : List Char → Bool) (dir data : List Char) (bytes_read : Nat) :
    Remainder :=
  match file_name_check dir data bytes_read with
  | .error .missing_separator => .missing_separator
  | .error _ => .missing_filename
  | .ok cfg_file => if readable cfg_file then .completes else .descriptor_unreadable

/-- One pass of the `do ... while(!spr->asm_file)` loop of `read_cfg_file`:
the new `bytes_read` and the `asm_file` stored, if any. -/
def cfg_line_step (dir cfg : List Char) (bytes_read : Nat) : Nat × Option (List Char) :=
  if (get_line cfg bytes_read).1 = 0 ∨
      char_at (trimmed (get_line cfg bytes_read).2 0) 0 = NUL then
    (bytes_read + (get_line cfg bytes_read).1, none)
  else
    (bytes_read + (get_line cfg bytes_read).1,
      some (dir ++ (trim (get_line cfg bytes_read).2 0).1))

/-- The line loop of `read_cfg_file` run for at most `fuel` passes: the
`asm_file` it leaves with, or `none` when it is still looping. -/
def cfg_line_loop (dir cfg : List Char) : Nat → Nat → Option (List Char)
  | 0, _ => none
  | fuel + 1, bytes_read =>
    match cfg_line_step dir cfg bytes_read with
    | (b, none) => cfg_line_loop dir cfg fuel b
    | (_, some asm_file) => some asm_file

/-! ### Print harvesting and the compile loop -/

/-- Function `set_pointer`, as the pointer it leaves in `*p`. -/
def set_pointer (address : Int) : pointer where
  lowbyte := to_uchar (Int.land address 0xFF)
  highbyte := to_uchar (Int.land (address >>> (8 : Nat)) 0xFF)
  bankbyte := to_uchar (Int.land (address >>> (16 : Nat)) 0xFF)

/-- The conversion `%4s` of `sscanf`: whitespace is skipped, then at most four
characters that are not whitespace are stored.  The result is the word stored
and the rest of the input, or `none` when the input ends before a word starts
(nothing is stored then and `sscanf` returns). -/
def scan_word (s : List Char) : Option (List Char × List Char) :=
  match s.dropWhile isspace with
  | [] => none
  | c :: cs =>
    some (((c :: cs).takeWhile (fun x => !isspace x)).take 4,
      (c :: cs).drop (((c :: cs).takeWhile (fun x => !isspace x)).take 4).length)

/-- Value of a hexadecimal digit. -/
def hex_digit (c : Char) : Option Nat :=
  if 48 ≤ c.toNat ∧ c.toNat ≤ 57 then some (c.toNat - 48)
  else if 97 ≤ c.toNat ∧ c.toNat ≤ 102 then some (c.toNat - 87)
  else if 65 ≤ c.toNat ∧ c.toNat ≤ 70 then some (c.toNat - 55)
  else none

/-- The hexadecimal digits a string starts with. -/
def hex_run : List Char → List Nat
  | [] => []
  | c :: cs =>
    match hex_digit c with
    | some d => d :: hex_run cs
    | none => []

/-- Number written by a list of hexadecimal digits. -/
def hex_number (ds : List Nat) : Nat := ds.foldl (fun v d => v * 16 + d) 0

/-- An `unsigned int` read as the `int` it is stored in. -/
def to_int32 (v : Int) : Int := (v + 2 ^ 31) % 2 ^ 32 - 2 ^ 31

/-- Value `strtoul` (with a 64-bit `unsigned long`) gives for digits that
write the number `n`, with or without a minus sign in front, as an integer
modulo `2^64`: `ULONG_MAX` when `n` does not fit 64 bits, whatever the sign. -/
def strtoul_value (negative : Bool) (n : Nat) : Int :=
  if 2 ^ 64 ≤ n then 2 ^ 64 - 1 else if negative then -(n : Int) else n

/-- The conversion `%x` of `sscanf` storing into an `int`, as the C library
performs it (glibc on x86-64): whitespace is skipped, then an optional sign and
the hexadecimal digits are read; a `0` followed by `x` or `X` is read as the
digit `0` and the `x` is skipped, so a bare `0x` converts to 0.  `none` is a
matching failure (no digit), which leaves the `int` as it was.  The digits are
converted by `strtoul` and the result is cut to 32 bits. -/
def scan_hex (s : List Char) : Option Int :=
  let t := s.dropWhile isspace
  let negative := t.head? == some '-'
  let t1 := if t.head? == some '-' || t.head? == some '+' then t.drop 1 else t
  match (if t1.take 2 == ['0', 'x'] || t1.take 2 == ['0', 'X'] then 0 :: hex_run (t1.drop 2)
      else hex_run t1) with
  | [] => none
  | d :: ds => some (to_int32 (strtoul_value negative (hex_number (d :: ds))))

/-- The locals `buf` and `addr` of the print loop of `patch_sprites` and the
fields of the entry it writes. -/
structure Harvest where
  buf : List Char
  addr : Int
  init : pointer
  main : pointer
  description : Option (List Char)
  deriving DecidableEq, Repr

/-- The call `sscanf(prints[i], "%4s%x", buf, &addr)`: the new `buf` and `addr`. -/
def scan_print (buf : List Char) (addr : Int) (print : List Char) : List Char × Int :=
  match scan_word print with
  | none => (buf, addr)
  | some (word, rest) =>
    match scan_hex rest with
    | none => (word, addr)
    | some v => (word, v)

/-- One pass of the print loop of `patch_sprites`. -/
def harvest_step (h : Harvest) (print : List Char) : Harvest :=
  if (scan_print h.buf h.addr print).1 = ['I', 'N', 'I', 'T'] then
    { buf := (scan_print h.buf h.addr print).1, addr := (scan_print h.buf h.addr print).2,
      init := set_pointer (scan_print h.buf h.addr print).2, main := h.main,
      description := h.description }
  else if (scan_print h.buf h.addr print).1 = ['M', 'A', 'I', 'N'] then
    { buf := (scan_print h.buf h.addr print).1, addr := (scan_print h.buf h.addr print).2,
      init := h.init, main := set_pointer (scan_print h.buf h.addr print).2,
      description := h.description }
  else
    { buf := (scan_print h.buf h.addr print).1, addr := (scan_print h.buf h.addr print).2,
      init := h.init, main := h.main, description := some print }

/-- The print loop of `patch_sprites` for one entry.  `junk` is the content of
the uninitialised `buf`; `addr` starts at `0xFFFFFF`. -/
def harvest (junk : List Char) (init main : pointer) (description : Option (List Char))
    (prints : List (List Char)) : Harvest :=
  prints.foldl harvest_step ⟨junk, 0xFFFFFF, init, main, description⟩

/-- Modelled from the spec: the first word of a printed string, cut to four
characters. -/
def print_word (print : List Char) : List Char :=
  ((print.dropWhile isspace).takeWhile (fun x => !isspace x)).take 4

/-- Modelled from the spec: what follows the first four characters of the
first word of a printed string. -/
def print_rest (print : List Char) : List Char :=
  (print.dropWhile isspace).drop (print_word print).length

/-- Modelled from the spec: the hexadecimal number a text starts with, after
optional whitespace and an optional `0x` or `0X` in front of its digits;
`none` when no digit is there.  The number is the one the digits write, of any
size. -/
def spec_hex_number (s : List Char) : Option Nat :=
  if ((s.dropWhile isspace).take 2 == ['0', 'x'] || (s.dropWhile isspace).take 2 == ['0', 'X'])
      && !(hex_run ((s.dropWhile isspace).drop 2)).isEmpty then
    some (hex_number (hex_run ((s.dropWhile isspace).drop 2)))
  else if (hex_run (s.dropWhile isspace)).isEmpty then none
  else some (hex_number (hex_run (s.dropWhile isspace)))

/-- Modelled from the spec: the pointer made of the low three bytes of a number. -/
def spec_pointer (n : Nat) : pointer := ⟨n % 256, n / 256 % 256, n / 65536 % 256⟩

/-- Modelled from the spec: a printed string the amended reading covers.  It
has a word, and when that word (cut to four characters) is `INIT` or `MAIN` a
hexadecimal number below `2^32` follows it. -/
def regular_print (print : List Char) : Bool :=
  !(print_word print).isEmpty &&
    (if print_word print = ['I', 'N', 'I', 'T'] ∨ print_word print = ['M', 'A', 'I', 'N'] then
      match spec_hex_number (print_rest print) with
      | none => false
      | some n => decide (n < 2 ^ 32)
    else true)

/-- Modelled from the spec: what one printed string does to the init pointer,
the main pointer and the description, decided by the string alone. -/
def spec_harvest_step (r : pointer × pointer × Option (List Char)) (print : List Char) :
    pointer × pointer × Option (List Char) :=
  if print_word print = ['I', 'N', 'I', 'T'] then
    match spec_hex_number (print_rest print) with
    | none => r
    | some n => (spec_pointer n, r.2.1, r.2.2)
  else if print_word print = ['M', 'A', 'I', 'N'] then
    match spec_hex_number (print_rest print) with
    | none => r
    | some n => (r.1, spec_pointer n, r.2.2)
  else (r.1, r.2.1, some print)

/-- The state `patch_sprites` works on: the init and main pointers of every
table record, the description of every entry, and the sources handed to the
assembler so far. -/
structure PatchState where
  table : Nat → pointer × pointer
  description : Nat → Option (List Char)
  assembled : List (List Char)

/-- The inner loop `for(int j = i - 1; j >= 0; j--)` of `patch_sprites`: the
nearest earlier entry with the same `asm_file`. -/
def find_duplicate (asm_file : Nat → Option (List Char)) (file : List Char) : Nat → Option Nat
  | 0 => none
  | j + 1 => if asm_file j = some file then some j else find_duplicate asm_file file j

/-- One pass of the outer loop of `patch_sprites`, for entry `i`.  The
assembler is an oracle: given the sources assembled before and the source to
assemble it fails (`none`, the program exits) or returns the printed strings. -/
def patch_entry (asm_file : Nat → Option (List Char))
    (assemble : List (List Char) → List Char → Option (List (List Char)))
    (junk : Nat → List Char) (i : Nat) (st : PatchState) : Option PatchState :=
  match asm_file i with
  | none => some st
  | some file =>
    match find_duplicate asm_file file i with
    | some j =>
      some { table := Function.update st.table i (st.table j),
             description := Function.update st.description i (st.description j),
             assembled := st.assembled }
    | none =>
      match assemble st.assembled file with
      | none => none
      | some prints =>
        some { table := Function.update st.table i
                 ((harvest (junk i) (st.table i).1 (st.table i).2 (st.description i) prints).init,
                  (harvest (junk i) (st.table i).1 (st.table i).2 (st.description i) prints).main),
               description := Function.update st.description i
                 (harvest (junk i) (st.table i).1 (st.table i).2 (st.description i)
                   prints).description,
               assembled := st.assembled ++ [file] }

/-- The outer loop of `patch_sprites` from entry `i` on, `todo` entries to go. -/
def patch_from (asm_file : Nat → Option (List Char))
    (assemble : List (List Char) → List Char → Option (List (List Char)))
    (junk : Nat → List Char) : Nat → Nat → PatchState → Option PatchState
  | 0, _, st => some st
  | todo + 1, i, st =>
    match patch_entry asm_file assemble junk i st with
    | none => none
    | some st1 => patch_from asm_file assemble junk todo (i + 1) st1

/-- Function `patch_sprites` on a sprite list of `count` entries (the program
passes `MAX_SPRITE_COUNT`), starting from the given table and descriptions. -/
def patch_sprites (asm_file : Nat → Option (List Char))
    (assemble : List (List Char) → List Char → Option (List (List Char)))
    (junk : Nat → List Char) (count : Nat) (table : Nat → pointer × pointer)
    (description : Nat → Option (List Char)) : Option PatchState :=
  patch_from asm_file assemble junk count 0 ⟨table, description, []⟩

/-- What holds of the state before entry `i` is processed: entries below `i`
with the same source have the same pointers, and each source of an entry below
`i` has been handed to the assembler once, no other source at all. -/
def PatchInvariant (asm_file : Nat → Option (List Char)) (i : Nat) (st : PatchState) : Prop :=
  (∀ a b file, a < i → b < i → asm_file a = some file → asm_file b = some file →
      st.table a = st.table b) ∧
    (∀ file, (∃ a, a < i ∧ asm_file a = some file) → st.assembled.count file = 1) ∧
    (∀ file, (¬ ∃ a, a < i ∧ asm_file a = some file) → st.assembled.count file = 0)

/-! ### Descriptor fields

The table is modelled byte by byte: address `a` is the byte at offset `a` from
the start of `full_table`, so record `k` occupies the addresses
`k * sprite_table_size` to `k * sprite_table_size + 15`, and the addresses from
`MAX_SPRITE_COUNT * sprite_table_size` on are what follows the array in
`struct sprite_data`. -/

/-- The `unsigned int` with the bits of an `int`. -/
def to_uint32 (v : Int) : Nat := (v % 2 ^ 32).toNat

/-- The conversion `%x` of `sscanf` as `scan_hex` models it, together with the
input left after the digits. -/
def scan_hex_item (s : List Char) : Option (Int × List Char) :=
  let t := s.dropWhile isspace
  let negative := t.head? == some '-'
  let t1 := if t.head? == some '-' || t.head? == some '+' then t.drop 1 else t
  match (if t1.take 2 == ['0', 'x'] || t1.take 2 == ['0', 'X'] then 0 :: hex_run (t1.drop 2)
      else hex_run t1) with
  | [] => none
  | d :: ds =>
    some (to_int32 (strtoul_value negative (hex_number (d :: ds))),
      if t1.take 2 == ['0', 'x'] || t1.take 2 == ['0', 'X'] then
        (t1.drop 2).drop (hex_run (t1.drop 2)).length
      else t1.drop (hex_run t1).length)

/-- The first `n` conversions of the format `"%x %x ... %x"`: the values
converted, in order, and the input left.  The scan stops at the first matching
failure; the blanks of the format skip whitespace, as each `%x` does. -/
def scan_fields : Nat → List Char → List Int × List Char
  | 0, s => ([], s)
  | n + 1, s =>
    match scan_hex_item s with
    | none => ([], s)
    | some (v, rest) => (v :: (scan_fields n rest).1, (scan_fields n rest).2)

/-- The value `%n` stores into `bytes_read` in `read_cfg_file`: the number of
characters consumed by the ten conversions; `bytes_read` keeps its initial 0
when one of them fails. -/
def cfg_bytes_read (cfg : List Char) : Nat :=
  if (scan_fields 10 cfg).1.length = 10 then cfg.length - (scan_fields 10 cfg).2.length else 0

/-- Byte offsets in `struct sprite_table` of the ten addresses `read_cfg_file`
passes to `sscanf`, in argument order: `type`, `actlike`, `tweak[0..5]`,
`extra[0..1]`. -/
def cfg_field_offsets : List Nat := [0, 1, 2, 3, 4, 5, 6, 7, 14, 15]

/-- Byte offset of the member `init` in `struct sprite_table`. -/
def init_offset : Nat := 8

/-- Byte offset of the member `main` in `struct sprite_table`. -/
def main_offset : Nat := 11

/-- The store a `%x` conversion makes through the pointer it is given: an
`unsigned int` of four bytes, least significant byte first, whatever the type
of the object the pointer was taken from. -/
def store_uint (mem : Nat → Nat) (p v : Nat) : Nat → Nat :=
  fun a =>
    if a = p then v % 256
    else if a = p + 1 then v / 256 % 256
    else if a = p + 2 then v / 65536 % 256
    else if a = p + 3 then v / 16777216 % 256
    else mem a

/-- The stores of successive conversions into the members at the given offsets
of the record at address `base`. -/
def store_fields (mem : Nat → Nat) (base : Nat) : List Nat → List Nat → Nat → Nat
  | off :: offs, v :: vs => store_fields (store_uint mem (base + off) v) base offs vs
  | _, _ => mem

/-- The `struct pointer` held at address `p`. -/
def read_pointer (mem : Nat → Nat) (p : Nat) : pointer := ⟨mem p, mem (p + 1), mem (p + 2)⟩

/-- The call `sscanf(cfg, "%x %x %x %x %x %x %x %x %x %x%n", ...)` of
`read_cfg_file` for the entry whose record is `full_table[k]`: the table
memory after it. -/
def read_cfg_fields (mem : Nat → Nat) (k : Nat) (cfg : List Char) : Nat → Nat :=
  store_fields mem (k * sprite_table_size) cfg_field_offsets
    ((scan_fields 10 cfg).1.map to_uint32)

/-- The bytes of a table of default-constructed records: zero everywhere but
the two pointers, which are the return stub. -/
def default_table_memory : Nat → Nat :=
  fun a =>
    if a % 16 = 8 ∨ a % 16 = 11 then RTL_LOW
    else if a % 16 = 9 ∨ a % 16 = 12 then RTL_HIGH
    else if a % 16 = 10 ∨ a % 16 = 13 then RTL_BANK
    else 0

/-! ### The serialized windows

The object `data` of `main` is the memory of the descriptor scan: the array
`full_table` from offset 0 and, behind it, the five pointer members of
`struct sprite_data` in declaration order, eight bytes each (x86-64), least
significant byte first.  The blobs are written from the addresses these
members hold when `main` calls `write_all`. -/

/-- Size of a pointer member of `struct sprite_data`. -/
def pointer_size : Nat := 8

/-- Offset from the start of `full_table` of pointer member `i` of
`struct sprite_data`: 0 is `default_table`, 1 to 4 are `level_table_t1` to
`level_table_t4`.  The members follow the array without padding. -/
def member_offset (i : Nat) : Nat := MAX_SPRITE_COUNT.toNat * sprite_table_size + i * pointer_size

/-- Index in `full_table` the initialiser of pointer member `i` designates:
`full_table + 0x2000`, `full_table`, `full_table + 0x800`, `full_table + 0x1000`,
`full_table + 0x1800`. -/
def member_index : Nat → Nat
  | 0 => 0x2000
  | 1 => 0
  | 2 => 0x800
  | 3 => 0x1000
  | _ => 0x1800

/-- Byte `j` of an address, least significant byte first. -/
def address_byte (p j : Nat) : Nat := p / 256 ^ j % 256

/-- The address held by the eight bytes at an offset. -/
def load_pointer (mem : Nat → Nat) (off : Nat) : Nat :=
  mem off + 256 * (mem (off + 1) + 256 * (mem (off + 2) + 256 * (mem (off + 3) +
    256 * (mem (off + 4) + 256 * (mem (off + 5) + 256 * (mem (off + 6) +
      256 * mem (off + 7)))))))

/-- The object `data` of `main` as it is constructed when `full_table` lies at
address `base`: default-constructed records, then the five pointer members
with the values of their initialisers. -/
def sprite_data (base : Nat) : Nat → Nat :=
  fun a =>
    if a < member_offset 0 then default_table_memory a
    else if a < member_offset 5 then
      address_byte (base + member_index ((a - member_offset 0) / pointer_size) * sprite_table_size)
        ((a - member_offset 0) % pointer_size)
    else 0

/-- The descriptor scans of a run in manifest order; an entry is the index of
the record of a manifest line and the text of its descriptor. -/
def read_descriptors (mem : Nat → Nat) (entries : List (Nat × List Char)) : Nat → Nat :=
  entries.foldl (fun m e => read_cfg_fields m e.1 e.2) mem

/-- One blob written by `main`: the address passed to `write_all` and the
number of bytes. -/
structure Window where
  start : Nat
  bytes : Nat
  deriving DecidableEq, Repr

/-- Number of records in a blob. -/
def Window.records (w : Window) : Nat := w.bytes / sprite_table_size

/-- Whether the blob contains record `k` of the table at address `base`, as
one of its 16-byte records. -/
def Window.holds (w : Window) (base k : Nat) : Bool :=
  decide (w.start ≤ base + k * sprite_table_size ∧
    base + (k + 1) * sprite_table_size ≤ w.start + w.bytes ∧
    (base + k * sprite_table_size - w.start) % sprite_table_size = 0)

/-- The five blobs `main` writes, in source order, from the memory of `data` at
that time: `0xF00` bytes from `data.default_table` and `0x8000` bytes from each
of `data.level_table_t1` to `data.level_table_t4`. -/
def serialized_windows (mem : Nat → Nat) : List Window :=
  [⟨load_pointer mem (member_offset 0), 0xF00⟩, ⟨load_pointer mem (member_offset 1), 0x8000⟩,
    ⟨load_pointer mem (member_offset 2), 0x8000⟩, ⟨load_pointer mem (member_offset 3), 0x8000⟩,
    ⟨load_pointer mem (member_offset 4), 0x8000⟩]

/-! ## Theorems -/

/-- C1: every valid slot coordinate is located at an index inside the table,
`reverse_locate` recovers the coordinate from that index, and two valid
coordinates with the same index are equal. -/
theorem from_table_valid_injective (l1 n1 l2 n2 : Int)
    (h1 : valid_slot l1 n1) (h2 : valid_slot l2 n2) :
    (∃ k, from_table l1 n1 = some k ∧ 0 ≤ k ∧ k < MAX_SPRITE_COUNT ∧
        reverse_locate k = (l1, n1)) ∧
      (from_table l1 n1 = from_table l2 n2 → l1 = l2 ∧ n1 = n2) := by
  obtain ⟨h1a, h1b, h1c⟩ := h1
  obtain ⟨h2a, h2b, h2c⟩ := h2
  constructor
  · by_cases hb : 0xB0 ≤ n1 ∧ n1 ≤ 0xBF
    · rw [if_pos hb] at h1c
      refine ⟨(l1 * 0x10) + (n1 - 0xB0), ?_, ?_, ?_, ?_⟩
      · unfold from_table
        rw [if_neg (by omega), if_neg (by omega), if_pos (by omega)]
      · omega
      · unfold MAX_SPRITE_COUNT; omega
      · unfold reverse_locate
        rw [if_pos (by omega)]
        refine Prod.ext ?_ ?_ <;> (simp only; try omega)
    · rw [if_neg hb] at h1c
      subst h1c
      by_cases hlt : n1 < 0xB0
      · refine ⟨0x2000 + n1, ?_, ?_, ?_, ?_⟩
        · unfold from_table
          rw [if_neg (by omega), if_pos rfl, if_pos hlt]
        · omega
        · unfold MAX_SPRITE_COUNT; omega
        · unfold reverse_locate
          rw [if_neg (by omega), if_pos (by omega)]
          refine Prod.ext ?_ ?_ <;> (simp only; try omega)
      · refine ⟨0x2000 + n1 - 0x10, ?_, ?_, ?_, ?_⟩
        · unfold from_table
          rw [if_neg (by omega), if_pos rfl, if_neg hlt, if_neg (by omega)]
        · omega
        · unfold MAX_SPRITE_COUNT; omega
        · unfold reverse_locate
          rw [if_neg (by omega), if_neg (by omega)]
          refine Prod.ext ?_ ?_ <;> (simp only; try omega)
  · unfold from_table
    intro h
    split_ifs at h h1c h2c <;> simp only [Option.some.injEq, reduceCtorEq] at h <;> omega

/-- Witness for C1 at the per-level slot `105:B2` and the global slot `05`. -/
theorem from_table_valid_injective_witness :
    (valid_slot 0x105 0xB2 ∧ valid_slot 0x200 0x05) ∧
      ((∃ k, from_table 0x105 0xB2 = some k ∧ 0 ≤ k ∧ k < MAX_SPRITE_COUNT ∧
          reverse_locate k = (0x105, 0xB2)) ∧
        (from_table 0x105 0xB2 = from_table 0x200 0x05 → (0x105 : Int) = 0x200 ∧ (0xB2 : Int) = 0x05)) :=
  ⟨by decide, from_table_valid_injective 0x105 0xB2 0x200 0x05 (by decide) (by decide)⟩

/-- C2 (evaluation at the failing input): the pair `(0x200, -1)` is not a valid
slot coordinate, yet `from_table` accepts it and returns index `0x1FFF`, the index
of the valid coordinate `(0x1FF, 0xBF)`; a negative level likewise yields an
index before the start of the table instead of a null result. -/
theorem from_table_negative_aliases :
    ¬ valid_slot 0x200 (-1) ∧ valid_slot 0x1FF 0xBF ∧
      from_table 0x200 (-1) = some 0x1FFF ∧ from_table 0x1FF 0xBF = some 0x1FFF ∧
      ¬ valid_slot (-1) 0xB0 ∧ from_table (-1) 0xB0 = some (-0x10) := by
  decide

/-- Among the pairs that are not valid slot coordinates, `from_table` accepts
exactly those with level `0x200` and a negative id and those with a negative
level and an id in `B0..BF`; every other invalid pair gets the null result. -/
theorem from_table_accepts_invalid_iff (level number : Int) (h : ¬ valid_slot level number) :
    from_table level number ≠ none ↔
      (level = 0x200 ∧ number < 0) ∨ (level < 0 ∧ 0xB0 ≤ number ∧ number ≤ 0xBF) := by
  unfold valid_slot at h
  unfold from_table
  split_ifs at h ⊢ <;> simp only [ne_eq, not_true_eq_false, reduceCtorEq, not_false_eq_true,
    false_iff, true_iff] <;> omega

/-- C3: on the domain of the specification's piecewise formula, `from_table`
returns exactly the index the formula gives. -/
theorem from_table_eq_spec_locate (level id : Int) (h : spec_domain level id) :
    from_table level id = some (spec_locate level id) := by
  unfold spec_locate window_base from_table
  rcases h with ⟨h1, h2⟩ | ⟨h1, h2, h3⟩ | ⟨h1, h2, h3, h4⟩
  · subst h1
    rw [if_neg (by omega), if_pos rfl, if_pos h2, if_pos rfl, if_pos h2]
  · subst h1
    rw [if_neg (by omega), if_pos rfl, if_neg (by omega), if_neg (by omega), if_pos rfl,
      if_neg (by omega)]
  · rw [if_neg (by omega), if_neg (by omega), if_pos (by omega), if_neg (by omega)]
    congr 1
    omega

/-- Witness for C3 at the two manifest lines of the end-to-end example:
`05 ...` lands at `0x2005` and `105:B2 ...` at `0x1052`. -/
theorem from_table_eq_spec_locate_witness :
    (spec_domain 0x105 0xB2 ∧ from_table 0x105 0xB2 = some (spec_locate 0x105 0xB2)) ∧
      spec_locate 0x105 0xB2 = 0x1052 ∧ from_table 0x200 0x05 = some 0x2005 :=
  ⟨⟨by decide, from_table_eq_spec_locate 0x105 0xB2 (by decide)⟩, by decide, by decide⟩

/-- C4 (evaluation at the failing input): for the line `105:05 foo.cfg` the
lookup returns null, none of the four slot errors fires, and the loop body goes
on to read `spr->line` through the null pointer. -/
theorem leveled_plain_id_not_rejected :
    from_table 0x105 0x05 = none ∧
      null_slot_outcome 0x105 0x05 = Abort.null_dereference ∧
      populate_sprite_list [ManifestLine.leveled 0x105 0x05 Remainder.completes] =
        Except.error (1, Abort.null_dereference) := by
  refine ⟨by decide, by decide, ?_⟩
  rfl

/-- A coordinate that `from_table` rejects gets none of the four slot errors
exactly when it has a concrete level (below `0x200`) and an id below `0x100`
outside `B0..BF`. -/
theorem null_slot_falls_through_iff (level sprite_id : Int)
    (h : from_table level sprite_id = none) :
    null_slot_outcome level sprite_id = Abort.null_dereference ↔
      level < 0x200 ∧ sprite_id < 0x100 ∧ ¬ (0xB0 ≤ sprite_id ∧ sprite_id < 0xC0) := by
  unfold from_table at h
  unfold null_slot_outcome
  split_ifs at h ⊢ <;> simp only [reduceCtorEq, false_iff, true_iff] <;> omega

/-- A successful slot claim leaves every other record alone, and in particular
every record that was already claimed. -/
theorem claim_slot_keeps (n : Nat) (s s1 : Int → sprite) (level sprite_id : Int)
    (rest : Remainder) (k : Int) (h : claim_slot n s level sprite_id rest = .ok s1)
    (hk : (s k).line ≠ 0) : s1 k = s k := by
  unfold claim_slot at h
  split at h
  · exact absurd h (by simp)
  · rename_i k1 hft
    split_ifs at h with h1 h2 h3
    simp only [Except.ok.injEq] at h
    subst h
    have hne : k ≠ k1 := by
      rintro rfl
      exact hk (by simpa using h2)
    exact Function.update_noteq hne _ _

/-- A successful slot claim records the current line number in the slot that
`from_table` designates. -/
theorem claim_slot_records (n : Nat) (s s1 : Int → sprite) (level sprite_id : Int)
    (rest : Remainder) (k : Int) (h : claim_slot n s level sprite_id rest = .ok s1)
    (hk : from_table level sprite_id = some k) : (s1 k).line = n := by
  unfold claim_slot at h
  rw [hk] at h
  simp only at h
  split_ifs at h with h1 h2 h3
  simp only [Except.ok.injEq] at h
  subst h
  simp

/-- Once the slot's `line` is non-zero, a claim on it stops with the duplicate error. -/
theorem claim_slot_duplicate (n : Nat) (s : Int → sprite) (level sprite_id : Int)
    (rest : Remainder) (k : Int) (hk : from_table level sprite_id = some k)
    (h0 : 0 ≤ k) (h1 : k < MAX_SPRITE_COUNT) (hl : (s k).line ≠ 0) :
    claim_slot n s level sprite_id rest = .error (n, .already_used) := by
  unfold claim_slot
  rw [hk]
  simp only
  rw [if_neg (by omega), if_pos hl]

/-- A slot that is claimed stays exactly as it is over any run that completes. -/
theorem populate_line_keeps (n : Nat) (s s1 : Int → sprite) (l : ManifestLine) (k : Int)
    (h : populate_line n s l = .ok s1) (hk : (s k).line ≠ 0) : s1 k = s k := by
  cases l with
  | blank => simp only [populate_line, Except.ok.injEq] at h; rw [← h]
  | unparsable => simp [populate_line] at h
  | plain sprite_id rest => exact claim_slot_keeps n s s1 _ _ rest k h hk
  | leveled level sprite_id rest => exact claim_slot_keeps n s s1 _ _ rest k h hk

theorem populate_from_keeps (ls : List ManifestLine) (n : Nat) (s s1 : Int → sprite) (k : Int)
    (h : populate_from n s ls = .ok s1) (hk : (s k).line ≠ 0) : s1 k = s k := by
  induction ls generalizing n s with
  | nil => simp only [populate_from, Except.ok.injEq] at h; rw [← h]
  | cons l ls ih =>
    simp only [populate_from] at h
    split at h
    · exact absurd h (by simp)
    · rename_i s2 h2
      have e2 := populate_line_keeps _ _ _ _ k h2 hk
      rw [ih _ _ h (by rw [e2]; exact hk), e2]

/-- Running the loop over a concatenation: the first part runs first, and the
second part continues from its state and line count. -/
theorem populate_from_append (xs ys : List ManifestLine) (n : Nat) (s : Int → sprite) :
    populate_from n s (xs ++ ys) =
      match populate_from n s xs with
      | .error e => .error e
      | .ok s1 => populate_from (n + xs.length) s1 ys := by
  induction xs generalizing n s with
  | nil => simp [populate_from]
  | cons x xs ih =>
    show populate_from n s (x :: (xs ++ ys)) = _
    rw [populate_from, populate_from]
    cases hx : populate_line (n + 1) s x with
    | error e => rfl
    | ok s2 =>
      simp only
      rw [ih, List.length_cons]
      have : n + 1 + xs.length = n + (xs.length + 1) := by omega
      rw [this]

/-- A line that resolves to slot `k` and is processed without abort leaves
`line = line_number` in slot `k`, inside the table. -/
theorem populate_line_records (n : Nat) (s s1 : Int → sprite) (l : ManifestLine) (k : Int)
    (h : populate_line n s l = .ok s1) (hk : l.slot = some k) :
    (s1 k).line = n ∧ 0 ≤ k ∧ k < MAX_SPRITE_COUNT := by
  have key : ∀ level sprite_id rest, claim_slot n s level sprite_id rest = .ok s1 →
      from_table level sprite_id = some k → (s1 k).line = n ∧ 0 ≤ k ∧ k < MAX_SPRITE_COUNT := by
    intro level sprite_id rest hc hf
    refine ⟨claim_slot_records n s s1 _ _ rest k hc hf, ?_⟩
    unfold claim_slot at hc
    rw [hf] at hc
    simp only at hc
    split_ifs at hc with h1
    omega
  cases l with
  | blank => simp [ManifestLine.slot, ManifestLine.coordinate] at hk
  | unparsable => simp [ManifestLine.slot, ManifestLine.coordinate] at hk
  | plain sprite_id rest => exact key _ _ rest h hk
  | leveled level sprite_id rest => exact key _ _ rest h hk

/-- A line that resolves to an already claimed slot of the table stops the run
with the duplicate-slot error, whichever of the two forms it has. -/
theorem populate_line_duplicate (n : Nat) (s : Int → sprite) (l : ManifestLine) (k : Int)
    (hk : l.slot = some k) (h0 : 0 ≤ k) (h1 : k < MAX_SPRITE_COUNT) (hl : (s k).line ≠ 0) :
    populate_line n s l = .error (n, .already_used) := by
  cases l with
  | blank => simp [ManifestLine.slot, ManifestLine.coordinate] at hk
  | unparsable => simp [ManifestLine.slot, ManifestLine.coordinate] at hk
  | plain sprite_id rest => exact claim_slot_duplicate n s _ _ rest k hk h0 h1 hl
  | leveled level sprite_id rest => exact claim_slot_duplicate n s _ _ rest k hk h0 h1 hl

/-- A slot claim that stops reports the line number it was given. -/
theorem claim_slot_error_line (n : Nat) (s : Int → sprite) (level sprite_id : Int)
    (rest : Remainder) (m : Nat) (e : Abort)
    (h : claim_slot n s level sprite_id rest = .error (m, e)) : m = n := by
  unfold claim_slot at h
  split at h
  · simp only [Except.error.injEq, Prod.mk.injEq] at h
    exact h.1.symm
  · split_ifs at h <;> simp only [Except.error.injEq, Prod.mk.injEq, reduceCtorEq] at h <;>
      exact h.1.symm

theorem populate_line_error_line (n : Nat) (s : Int → sprite) (l : ManifestLine) (m : Nat)
    (e : Abort) (h : populate_line n s l = .error (m, e)) : m = n := by
  cases l with
  | blank => simp [populate_line] at h
  | unparsable =>
    simp only [populate_line, Except.error.injEq, Prod.mk.injEq] at h
    exact h.1.symm
  | plain sprite_id rest => exact claim_slot_error_line n s _ _ rest m e h
  | leveled level sprite_id rest => exact claim_slot_error_line n s _ _ rest m e h

/-- A run that stops does so at one of the lines it was given. -/
theorem populate_from_error_line (ls : List ManifestLine) (n : Nat) (s : Int → sprite) (m : Nat)
    (e : Abort) (h : populate_from n s ls = .error (m, e)) : n < m ∧ m ≤ n + ls.length := by
  induction ls generalizing n s with
  | nil => simp [populate_from] at h
  | cons l ls ih =>
    simp only [populate_from] at h
    cases hl : populate_line (n + 1) s l with
    | error e1 =>
      rw [hl] at h
      simp only [Except.error.injEq] at h
      subst h
      have := populate_line_error_line _ _ _ _ _ hl
      simp only [List.length_cons]
      omega
    | ok s1 =>
      rw [hl] at h
      have := ih _ _ h
      simp only [List.length_cons]
      omega

/-- When two lines of a manifest resolve to the same slot index the run never
gets past the later line: it does not go on at the later line or at a line
before it (with a fatal message, an undefined access or a descriptor read that
never returns), and what stops it at the later line is the duplicate-slot
error. -/
theorem duplicate_slot_not_passed (pre mid post : List ManifestLine) (a b : ManifestLine)
    (k : Int) (ha : a.slot = some k) (hb : b.slot = some k) :
    ∃ n e, populate_sprite_list (pre ++ a :: mid ++ b :: post) = .error (n, e) ∧
      n ≤ pre.length + mid.length + 2 ∧
      (n = pre.length + mid.length + 2 → e = .already_used) ∧
      ∀ s, populate_sprite_list (pre ++ a :: mid) = .ok s →
        n = pre.length + mid.length + 2 ∧ (s k).line = pre.length + 1 ∧ 1 ≤ (s k).line := by
  unfold populate_sprite_list
  have e1 : pre ++ a :: mid ++ b :: post = (pre ++ a :: mid) ++ (b :: post) := by simp
  rw [e1, populate_from_append, populate_from_append]
  cases hpre : populate_from 0 (fun _ => {}) pre with
  | error x =>
    obtain ⟨m, e⟩ := x
    have := populate_from_error_line _ _ _ _ _ hpre
    exact ⟨m, e, rfl, by omega, fun h => by omega, fun s hs => absurd hs (by simp)⟩
  | ok s0 =>
    simp only [populate_from]
    cases hline : populate_line (0 + pre.length + 1) s0 a with
    | error x =>
      obtain ⟨m, e⟩ := x
      have := populate_line_error_line _ _ _ _ _ hline
      exact ⟨m, e, rfl, by omega, fun h => by omega, fun s hs => absurd hs (by simp)⟩
    | ok s1 =>
      simp only
      obtain ⟨hrec, h0, h1⟩ := populate_line_records _ _ _ _ k hline ha
      have hne : (s1 k).line ≠ 0 := by rw [hrec]; omega
      cases hmid : populate_from (0 + pre.length + 1) s1 mid with
      | error x =>
        obtain ⟨m, e⟩ := x
        have := populate_from_error_line _ _ _ _ _ hmid
        exact ⟨m, e, rfl, by omega, fun h => by omega, fun s hs => absurd hs (by simp)⟩
      | ok s2 =>
        simp only
        have hs : s2 k = s1 k := populate_from_keeps mid _ _ _ k hmid hne
        have hline2 : (s2 k).line = pre.length + 1 := by rw [hs, hrec]; omega
        rw [populate_line_duplicate _ s2 b k hb h0 h1 (by rw [hline2]; omega)]
        refine ⟨_, _, rfl, ?_, fun _ => rfl, ?_⟩
        · simp only [List.length_append, List.length_cons]
          omega
        · intro s hs2
          simp only [Except.ok.injEq] at hs2
          subst hs2
          refine ⟨?_, hline2, by omega⟩
          simp only [List.length_append, List.length_cons]
          omega

/-- C5 (the claim as stated fails): the lines `05` and `05 b.cfg` resolve to
the same slot, but the run stops at line 1, which has no separator after the
slot prefix; of three lines `05 a.cfg` the third is never reached, the run
stops at line 2; and when the descriptor of the first line has no source line,
`read_cfg_file` never returns and no error is reported at all. -/
theorem earlier_line_stops_first :
    (ManifestLine.plain 0x05 Remainder.missing_separator).slot = some 0x2005 ∧
      (ManifestLine.plain 0x05 Remainder.completes).slot = some 0x2005 ∧
      populate_sprite_list [ManifestLine.plain 0x05 Remainder.missing_separator,
          ManifestLine.plain 0x05 Remainder.completes] =
        Except.error (1, Abort.missing_separator) ∧
      populate_sprite_list [ManifestLine.plain 0x05 Remainder.completes,
          ManifestLine.plain 0x05 Remainder.completes,
          ManifestLine.plain 0x05 Remainder.completes] =
        Except.error (2, Abort.already_used) ∧
      populate_sprite_list [ManifestLine.plain 0x05 Remainder.never_returns,
          ManifestLine.plain 0x05 Remainder.completes] =
        Except.error (1, Abort.never_returns) := by
  refine ⟨by decide, by decide, rfl, rfl, rfl⟩

/-- C5 (amended): when two lines of a manifest resolve to the same slot index,
whichever syntax each of them uses, and the lines before the later one are all
processed to their end (no fatal message, and every call of `read_cfg_file`
returns), the run stops at the later line with the duplicate-slot error; the
slot then carries the first line's number, which is at least 1. -/
theorem duplicate_slot_rejected (pre mid post : List ManifestLine) (a b : ManifestLine)
    (k : Int) (s : Int → sprite) (ha : a.slot = some k) (hb : b.slot = some k)
    (hrun : populate_sprite_list (pre ++ a :: mid) = .ok s) :
    populate_sprite_list (pre ++ a :: mid ++ b :: post) =
        .error (pre.length + mid.length + 2, .already_used) ∧
      (s k).line = pre.length + 1 ∧ 1 ≤ (s k).line := by
  unfold populate_sprite_list at hrun ⊢
  have e1 : pre ++ a :: mid ++ b :: post = (pre ++ a :: mid) ++ (b :: post) := by simp
  rw [e1, populate_from_append, hrun]
  rw [populate_from_append] at hrun
  cases hpre : populate_from 0 (fun _ => {}) pre with
  | error x =>
    rw [hpre] at hrun
    exact absurd hrun (by simp)
  | ok s0 =>
    rw [hpre] at hrun
    simp only [populate_from] at hrun ⊢
    cases hline : populate_line (0 + pre.length + 1) s0 a with
    | error x =>
      rw [hline] at hrun
      exact absurd hrun (by simp)
    | ok s1 =>
      rw [hline] at hrun
      simp only at hrun
      obtain ⟨hrec, h0, h1⟩ := populate_line_records _ _ _ _ k hline ha
      have hne : (s1 k).line ≠ 0 := by rw [hrec]; omega
      have hs : s k = s1 k := populate_from_keeps mid _ _ _ k hrun hne
      have hline2 : (s k).line = pre.length + 1 := by rw [hs, hrec]; omega
      rw [populate_line_duplicate _ s b k hb h0 h1 (by rw [hline2]; omega)]
      refine ⟨?_, hline2, by omega⟩
      simp only [List.length_append, List.length_cons]
      have e2 : 0 + (pre.length + (mid.length + 1)) + 1 = pre.length + mid.length + 2 := by
        omega
      rw [e2]

/-- Witness for C5: `1FF:BF a.cfg`, a blank line, then `1FF:BF b.cfg`: the run
stops at line 3 with the duplicate-slot error. -/
theorem duplicate_slot_rejected_witness :
    populate_sprite_list
        ([] ++ ManifestLine.leveled 0x1FF 0xBF Remainder.completes :: [ManifestLine.blank] ++
          ManifestLine.leveled 0x1FF 0xBF Remainder.completes :: []) =
      Except.error (3, Abort.already_used) :=
  (duplicate_slot_rejected [] [ManifestLine.blank] []
    (ManifestLine.leveled 0x1FF 0xBF Remainder.completes)
    (ManifestLine.leveled 0x1FF 0xBF Remainder.completes) 0x1FFF
    (Function.update (fun _ => {}) 0x1FFF ⟨1, 0xBF, 0x1FF⟩) (by decide) (by decide) rfl).1

/-! ### Bit masks as arithmetic -/

theorem nat_mod_and_of_lt (n m K : Nat) (hm : m < 2 ^ K) : (n % 2 ^ K) &&& m = n &&& m := by
  apply Nat.eq_of_testBit_eq
  intro i
  rw [Nat.testBit_and, Nat.testBit_and, Nat.testBit_mod_two_pow]
  by_cases h : i < K
  · simp [h]
  · have : m.testBit i = false :=
      Nat.testBit_lt_two_pow (lt_of_lt_of_le hm (Nat.pow_le_pow_right (by norm_num) (by omega)))
    simp [this]

theorem nat_ldiff_eq_and (n m K : Nat) (hm : m < 2 ^ K) :
    Nat.ldiff m n = (2 ^ K - 1 - n % 2 ^ K) &&& m := by
  apply Nat.eq_of_testBit_eq
  intro i
  have hlt : n % 2 ^ K < 2 ^ K := Nat.mod_lt _ (by positivity)
  have e : 2 ^ K - 1 - n % 2 ^ K = 2 ^ K - (n % 2 ^ K + 1) := by omega
  rw [e, Nat.testBit_and, Nat.testBit_two_pow_sub_succ hlt, Nat.testBit_ldiff,
    Nat.testBit_mod_two_pow]
  by_cases h : i < K
  · simp [h, Bool.and_comm]
  · have : m.testBit i = false :=
      Nat.testBit_lt_two_pow (lt_of_lt_of_le hm (Nat.pow_le_pow_right (by norm_num) (by omega)))
    simp [this]

theorem int_negSucc_emod (n K : Nat) :
    (Int.negSucc n) % (2 ^ K : Int) = ((2 ^ K - 1 - n % 2 ^ K : Nat) : Int) := by
  have hlt : n % 2 ^ K < 2 ^ K := Nat.mod_lt _ (by positivity)
  rw [Int.negSucc_eq]
  have h1 : (-((n : Int) + 1)) % (2 ^ K : Int) = (2 ^ K - 1 - (n : Int) % 2 ^ K) := by
    have : (-((n : Int) + 1)) =
        (2 ^ K - 1 - (n : Int) % 2 ^ K) + (2 ^ K : Int) * (-(n / 2 ^ K) - 1) := by
      have := Int.emod_add_ediv (n : Int) (2 ^ K)
      linarith
    rw [this, Int.add_mul_emod_self_left]
    apply Int.emod_eq_of_lt
    · have : (n : Int) % 2 ^ K < 2 ^ K := Int.emod_lt_of_pos _ (by positivity)
      omega
    · have : 0 ≤ (n : Int) % 2 ^ K := Int.emod_nonneg _ (by positivity)
      omega
  rw [h1, show 2 ^ K - 1 - n % 2 ^ K = 2 ^ K - (n % 2 ^ K + 1) by omega,
    Nat.cast_sub (by omega)]
  push_cast
  ring

/-- Bitwise and of a two's-complement integer with a non-negative mask below `2^K`
only looks at the residue of the integer modulo `2^K`. -/
theorem int_land_nat (v : Int) (m K : Nat) (hm : m < 2 ^ K) :
    Int.land v (m : Int) = (((v % 2 ^ K).toNat &&& m : Nat) : Int) := by
  cases v with
  | ofNat n =>
    show ((n &&& m : Nat) : Int) = _
    have : ((Int.ofNat n) % (2 ^ K : Int)).toNat = n % 2 ^ K := by
      have : (Int.ofNat n) % (2 ^ K : Int) = ((n % 2 ^ K : Nat) : Int) := by
        push_cast; rfl
      rw [this, Int.toNat_natCast]
    rw [this, nat_mod_and_of_lt n m K hm]
  | negSucc n =>
    show ((Nat.ldiff m n : Nat) : Int) = _
    rw [int_negSucc_emod, Int.toNat_natCast, nat_ldiff_eq_and n m K hm]

theorem nat_and_bank_mask (x : Nat) : x &&& 0x7F0000 = 0x10000 * (x / 0x10000 % 0x80) := by
  apply Nat.eq_of_testBit_eq
  intro i
  have e1 : (0x7F0000 : Nat) = 2 ^ 16 * (2 ^ 7 - 1) := by norm_num
  have e2 : (0x10000 : Nat) = 2 ^ 16 := by norm_num
  have e3 : (0x80 : Nat) = 2 ^ 7 := by norm_num
  rw [e1, e2, e3, Nat.testBit_and, Nat.testBit_mul_pow_two, Nat.testBit_mul_pow_two,
    Nat.testBit_two_pow_sub_one, Nat.testBit_mod_two_pow, ← Nat.shiftRight_eq_div_pow,
    Nat.testBit_shiftRight]
  by_cases h : 16 ≤ i
  · have : 16 + (i - 16) = i := by omega
    simp [h, this, Bool.and_comm]
  · simp [h]

theorem nat_and_bit15 (x : Nat) : x &&& 0x8000 = 0x8000 * (x / 0x8000 % 2) := by
  have e := Nat.and_two_pow x 15
  rw [Nat.testBit_to_div_mod] at e
  norm_num at e
  rw [e]
  rcases Nat.mod_two_eq_zero_or_one (x / 32768) with h | h <;> simp [h]

theorem nat_assemble (X Y : Nat) :
    ((X &&& 0x7F0000) ||| (Y &&& 0x7FFF)) ||| 0x8000 =
      0x10000 * (X / 0x10000 % 0x80) + 0x8000 + Y % 0x8000 := by
  rw [nat_and_bank_mask, Nat.and_pow_two_sub_one_eq_mod Y 15, Nat.lor_assoc]
  have hr : Y % 2 ^ 15 < 2 ^ 15 := Nat.mod_lt _ (by norm_num)
  have e1 : Y % 2 ^ 15 ||| 0x8000 = 0x8000 + Y % 2 ^ 15 := by
    rw [Nat.lor_comm]
    have := Nat.mul_add_lt_is_or hr 1
    simpa using this.symm
  rw [e1]
  have h2 : 0x8000 + Y % 2 ^ 15 < 2 ^ 16 := by omega
  have := Nat.mul_add_lt_is_or h2 (X / 0x10000 % 0x80)
  norm_num at this ⊢
  omega

theorem nat_join (S : Nat) :
    ((S &&& 0x7F0000) >>> 1) ||| (S &&& 0x7FFF) = 0x8000 * (S / 0x10000 % 0x80) + S % 0x8000 := by
  rw [nat_and_bank_mask, Nat.and_pow_two_sub_one_eq_mod S 15, Nat.shiftRight_eq_div_pow]
  have hr : S % 2 ^ 15 < 2 ^ 15 := Nat.mod_lt _ (by norm_num)
  have := Nat.mul_add_lt_is_or hr (S / 0x10000 % 0x80)
  have hq : 0x10000 * (S / 0x10000 % 0x80) / 2 ^ 1 = 2 ^ 15 * (S / 0x10000 % 0x80) := by omega
  rw [hq, ← this]
  norm_num

theorem int_land_byte (v : Int) : Int.land v 0xFF = v % 256 := by
  have h : Int.land v 0xFF = (((v % 2 ^ 8).toNat &&& 0xFF : Nat) : Int) :=
    int_land_nat v 0xFF 8 (by norm_num)
  have h0 : 0 ≤ v % 2 ^ 8 := Int.emod_nonneg _ (by norm_num)
  have h1 : v % 2 ^ 8 < 2 ^ 8 := Int.emod_lt_of_pos _ (by norm_num)
  have e : (v % 2 ^ 8).toNat &&& 0xFF = (v % 2 ^ 8).toNat := by
    rw [Nat.and_pow_two_sub_one_eq_mod _ 8]
    apply Nat.mod_eq_of_lt
    omega
  rw [e, Int.toNat_of_nonneg h0] at h
  norm_num at h
  exact h

theorem to_uchar_land_byte (v : Int) : ((to_uchar (Int.land v 0xFF) : Nat) : Int) = v % 256 := by
  unfold to_uchar
  rw [int_land_byte, Int.toNat_of_nonneg (by omega)]
  omega

/-- The method `pc_to_snes` as arithmetic on the header-relative offset (floor
division and remainder): bank number in bits 16..22, the fixed bit 15, the
in-bank offset in bits 0..14. -/
theorem pc_to_snes_eq (rom : ROM) (x : Int) :
    rom.pc_to_snes x =
      0x10000 * ((x - rom.header_size) / 0x8000 % 0x80) + 0x8000 +
        (x - rom.header_size) % 0x8000 := by
  unfold ROM.pc_to_snes
  simp only
  generalize x - (rom.header_size : Int) = a
  have hs : a <<< (1 : Int) = a * ((2 ^ 1 : Nat) : Int) := Int.shiftLeft_eq_mul_pow a 1
  have e1 : ∀ v : Int, Int.land v 0x7F0000 = (((v % 2 ^ 23).toNat &&& 0x7F0000 : Nat) : Int) :=
    fun v => int_land_nat v 0x7F0000 23 (by norm_num)
  have e2 : ∀ v : Int, Int.land v 0x7FFF = (((v % 2 ^ 15).toNat &&& 0x7FFF : Nat) : Int) :=
    fun v => int_land_nat v 0x7FFF 15 (by norm_num)
  rw [hs, e1, e2]
  show ((((((a * ((2 ^ 1 : Nat) : Int)) % 2 ^ 23).toNat &&& 0x7F0000) |||
      ((a % 2 ^ 15).toNat &&& 0x7FFF)) ||| 0x8000 : Nat) : Int) = _
  rw [nat_assemble]
  push_cast
  omega

/-- The method `snes_to_pc` as arithmetic on the banked address. -/
theorem snes_to_pc_eq (rom : ROM) (s : Int) :
    rom.snes_to_pc s = 0x8000 * (s / 0x10000 % 0x80) + s % 0x8000 + rom.header_size := by
  unfold ROM.snes_to_pc
  have e1 : ∀ v : Int, Int.land v 0x7F0000 = (((v % 2 ^ 23).toNat &&& 0x7F0000 : Nat) : Int) :=
    fun v => int_land_nat v 0x7F0000 23 (by norm_num)
  have e2 : ∀ v : Int, Int.land v 0x7FFF = (((v % 2 ^ 23).toNat &&& 0x7FFF : Nat) : Int) :=
    fun v => int_land_nat v 0x7FFF 23 (by norm_num)
  rw [e1, e2]
  show (((((s % 2 ^ 23).toNat &&& 0x7F0000) >>> 1 ||| ((s % 2 ^ 23).toNat &&& 0x7FFF) : Nat) :
      Int)) + _ = _
  rw [nat_join]
  push_cast
  omega

/-- The banked address `pc_to_snes` returns always carries bit 15 and fits 23 bits. -/
theorem pc_to_snes_range (rom : ROM) (x : Int) :
    Int.land (rom.pc_to_snes x) 0x8000 = 0x8000 ∧ 0 ≤ rom.pc_to_snes x ∧
      rom.pc_to_snes x < 0x800000 := by
  have e := pc_to_snes_eq rom x
  have hpos : 0 ≤ rom.pc_to_snes x := by omega
  obtain ⟨n, hn⟩ := Int.eq_ofNat_of_zero_le hpos
  refine ⟨?_, by omega, by omega⟩
  rw [hn]
  show ((n &&& 0x8000 : Nat) : Int) = _
  rw [nat_and_bit15]
  omega

theorem snes_to_pc_pc_to_snes_aux (rom : ROM) (x : Int) (h0 : 0 ≤ x - rom.header_size)
    (h1 : x - rom.header_size < 0x400000) : rom.snes_to_pc (rom.pc_to_snes x) = x := by
  rw [snes_to_pc_eq, pc_to_snes_eq]
  omega

theorem pc_to_snes_snes_to_pc_aux (rom : ROM) (s : Int) (h0 : 0 ≤ s) (h1 : s < 0x800000)
    (h15 : Int.land s 0x8000 = 0x8000) :
    rom.pc_to_snes (rom.snes_to_pc s) = s ∧ (rom.header_size : Int) ≤ rom.snes_to_pc s ∧
      rom.snes_to_pc s < rom.header_size + 0x400000 := by
  obtain ⟨n, hn⟩ := Int.eq_ofNat_of_zero_le h0
  subst hn
  have hb : n / 0x8000 % 2 = 1 := by
    have h : ((n &&& 0x8000 : Nat) : Int) = 0x8000 := h15
    rw [nat_and_bit15] at h
    omega
  rw [pc_to_snes_eq, snes_to_pc_eq]
  omega

/-- C6: for every header size and every linear offset `x` whose header-relative
part lies in `[0, 0x400000)`, `snes_to_pc (pc_to_snes x) = x`; and for every
offset `y` at all the banked address `pc_to_snes y` has bit 15 (`0x8000`) set
and lies in `[0, 0x800000)`. -/
theorem snes_to_pc_pc_to_snes (rom : ROM) (x : Int) (h0 : 0 ≤ x - rom.header_size)
    (h1 : x - rom.header_size < 0x400000) :
    rom.snes_to_pc (rom.pc_to_snes x) = x ∧
      ∀ y : Int, Int.land (rom.pc_to_snes y) 0x8000 = 0x8000 ∧ 0 ≤ rom.pc_to_snes y ∧
        rom.pc_to_snes y < 0x800000 :=
  ⟨snes_to_pc_pc_to_snes_aux rom x h0 h1, pc_to_snes_range rom⟩

/-- C7: for every header size and every banked address `s` in `[0, 0x800000)`
with bit 15 set, `pc_to_snes (snes_to_pc s) = s`; and `pc_to_snes` is a bijection
from the linear offsets `h .. h + 0x3FFFFF` onto these banked addresses. -/
theorem pc_to_snes_snes_to_pc (rom : ROM) (s : Int) (h0 : 0 ≤ s) (h1 : s < 0x800000)
    (h15 : Int.land s 0x8000 = 0x8000) :
    rom.pc_to_snes (rom.snes_to_pc s) = s ∧
      Set.BijOn rom.pc_to_snes
        {x : Int | (rom.header_size : Int) ≤ x ∧ x < rom.header_size + 0x400000}
        {t : Int | 0 ≤ t ∧ t < 0x800000 ∧ Int.land t 0x8000 = 0x8000} := by
  refine ⟨(pc_to_snes_snes_to_pc_aux rom s h0 h1 h15).1, ?_, ?_, ?_⟩
  · intro x hx
    obtain ⟨ha, hb, hc⟩ := pc_to_snes_range rom x
    exact ⟨hb, hc, ha⟩
  · intro x hx y hy hxy
    have ex := snes_to_pc_pc_to_snes_aux rom x (by have := hx.1; omega) (by have := hx.2; omega)
    have ey := snes_to_pc_pc_to_snes_aux rom y (by have := hy.1; omega) (by have := hy.2; omega)
    rw [← ex, ← ey, hxy]
  · intro t ht
    obtain ⟨e, hlo, hhi⟩ := pc_to_snes_snes_to_pc_aux rom t ht.1 ht.2.1 ht.2.2
    exact ⟨rom.snes_to_pc t, ⟨hlo, hhi⟩, e⟩

/-- Witness for C6: with a 512-byte header, linear offset `0x12545` converts to
a banked address and back. -/
theorem snes_to_pc_pc_to_snes_witness :
    (zero_rom 0x200).snes_to_pc ((zero_rom 0x200).pc_to_snes 0x12545) = 0x12545 :=
  (snes_to_pc_pc_to_snes (zero_rom 0x200) 0x12545 (by decide) (by decide)).1

/-- Witness for C7: with a 512-byte header, banked address `0x02FFE2` converts
to a linear offset and back. -/
theorem pc_to_snes_snes_to_pc_witness :
    (zero_rom 0x200).pc_to_snes ((zero_rom 0x200).snes_to_pc 0x02FFE2) = 0x02FFE2 :=
  (pc_to_snes_snes_to_pc (zero_rom 0x200) 0x02FFE2 (by decide) (by decide) (by decide)).1

/-- The signature of an earlier run is looked for at `snes_to_pc(0x02FFE2)`, which
is `signature_offset` bytes after the header. -/
theorem snes_to_pc_signature (rom : ROM) :
    rom.snes_to_pc 0x02FFE2 = (signature_offset : Int) + rom.header_size := by
  rw [snes_to_pc_eq]
  unfold signature_offset
  norm_num

theorem pointer_bytes (v : Int) :
    (((pointer.from_snes v).lowbyte : Nat) : Int) = v % 256 ∧
      (((pointer.from_snes v).highbyte : Nat) : Int) = v / 256 % 256 ∧
      (((pointer.from_snes v).bankbyte : Nat) : Int) = v / 65536 % 256 := by
  unfold pointer.from_snes
  simp only [to_uchar_land_byte, Int.shiftRight_eq_div_pow]
  norm_num

/-- C8: a default-constructed pointer is empty; `pointer(v)` is empty exactly
when the low 24 bits of `v` are `0x018021`, so `pointer(0)` is not empty; and
`pointer(v).addr()` is `v` modulo `2^24`. -/
theorem pointer_sentinel (v : Int) :
    pointer.is_empty {} = true ∧
      ((pointer.from_snes v).is_empty = true ↔ v % 0x1000000 = 0x018021) ∧
      (pointer.from_snes 0).is_empty = false ∧
      (pointer.from_snes v).addr = v % 0x1000000 := by
  obtain ⟨hl, hh, hb⟩ := pointer_bytes v
  refine ⟨by decide, ?_, by decide, ?_⟩
  · unfold pointer.is_empty RTL_LOW RTL_HIGH RTL_BANK
    simp only [Bool.and_eq_true, beq_iff_eq]
    constructor
    · rintro ⟨⟨h1, h2⟩, h3⟩
      rw [h1] at hl
      rw [h2] at hh
      rw [h3] at hb
      omega
    · intro h
      refine ⟨⟨?_, ?_⟩, ?_⟩ <;> omega
  · unfold pointer.addr
    have e1 : (((pointer.from_snes v).bankbyte : Int) <<< (16 : Int)) =
        (((pointer.from_snes v).bankbyte <<< 16 : Nat) : Int) := Int.shiftLeft_coe_nat _ 16
    have e2 : (((pointer.from_snes v).highbyte : Int) <<< (8 : Int)) =
        (((pointer.from_snes v).highbyte <<< 8 : Nat) : Int) := Int.shiftLeft_coe_nat _ 8
    rw [e1, e2, Nat.shiftLeft_eq, Nat.shiftLeft_eq]
    push_cast
    omega

/-! ### The legacy cleaner -/

theorem clean_bank_unfold (answers : Nat → Nat) (base : Nat) (mem : Nat → Nat)
    (asked bank_offset : Nat) :
    clean_bank answers base mem asked bank_offset =
      if 0x8000 ≤ find_mdk mem base bank_offset then (mem, asked)
      else
        match verdict answers base mem asked (find_mdk mem base bank_offset) with
        | .skip a => clean_bank answers base mem a (find_mdk mem base bank_offset + 3)
        | .clear sz a =>
          clean_bank answers base (memset_zero mem (base + find_mdk mem base bank_offset - 8) sz) a
            (find_mdk mem base bank_offset + sz - 8) := by
  rw [clean_bank]
  unfold verdict
  simp only
  split_ifs <;> rfl

theorem clean_bank_cases (answers : Nat → Nat) (base : Nat)
    (motive : (Nat → Nat) → Nat → Nat → Prop)
    (stop : ∀ mem asked b, 0x8000 ≤ find_mdk mem base b → motive mem asked b)
    (skip : ∀ mem asked b a, find_mdk mem base b < 0x8000 →
      verdict answers base mem asked (find_mdk mem base b) = .skip a →
      motive mem a (find_mdk mem base b + 3) → motive mem asked b)
    (clear : ∀ mem asked b sz a, find_mdk mem base b < 0x8000 →
      verdict answers base mem asked (find_mdk mem base b) = .clear sz a →
      motive (memset_zero mem (base + find_mdk mem base b - 8) sz) a
        (find_mdk mem base b + sz - 8) → motive mem asked b) :
    ∀ mem asked b, motive mem asked b := by
  intro mem asked b
  induction mem, asked, b using clean_bank.induct answers base with
  | case1 mem asked b offset h => exact stop mem asked b h
  | case2 mem asked b offset h hs ih =>
    refine skip mem asked b asked (Nat.lt_of_not_le h) ?_ ih
    unfold verdict
    rw [if_pos hs]
  | case3 mem asked b offset h hs size inverted h1 ih =>
    refine clear mem asked b (size + 1) asked (Nat.lt_of_not_le h) ?_ ih
    unfold verdict
    rw [if_neg hs]
    simp only
    rw [if_pos h1]
  | case4 mem asked b offset h hs size inverted h1 h2 h3 ih =>
    refine skip mem asked b (asked + 1) (Nat.lt_of_not_le h) ?_ ih
    unfold verdict
    rw [if_neg hs]
    simp only
    rw [if_neg h1, if_pos h2, if_pos h3]
  | case5 mem asked b offset h hs size inverted h1 h2 h3 ih =>
    refine clear mem asked b size (asked + 1) (Nat.lt_of_not_le h) ?_ ih
    unfold verdict
    rw [if_neg hs]
    simp only
    rw [if_neg h1, if_pos h2, if_neg h3]
  | case6 mem asked b offset h hs size inverted h1 h2 ih =>
    refine clear mem asked b size asked (Nat.lt_of_not_le h) ?_ ih
    unfold verdict
    rw [if_neg hs]
    simp only
    rw [if_neg h1, if_neg h2]

/-! ### The marker search -/

theorem mdk_ne_zero (j : Nat) (hj : j ≤ 2) : (0 : Nat) ≠ mdk j := by
  interval_cases j <;> simp [mdk]

theorem mdk_scan_ge (bank : Nat → Nat) (fuel offset j : Nat) (hj : j ≤ 2) :
    offset ≤ mdk_scan bank fuel offset j + j := by
  induction fuel generalizing offset j with
  | zero => simp [mdk_scan]
  | succ n ih =>
    simp only [mdk_scan]
    by_cases hm : bank offset ≠ mdk j
    · rw [if_pos hm, if_neg (by decide)]
      have := ih (offset + 1) 0 (by omega)
      omega
    · rw [if_neg hm]
      by_cases h3 : j + 1 = 3
      · rw [if_pos h3]; omega
      · rw [if_neg h3]
        have := ih (offset + 1) (j + 1) (by omega)
        omega

theorem find_mdk_ge (mem : Nat → Nat) (base b : Nat) : b ≤ find_mdk mem base b :=
  mdk_scan_ge _ _ b 0 (by omega)

/-- The search only reads the bytes from its start up to the end of the marker it finds. -/
theorem mdk_scan_congr (bank bank1 : Nat → Nat) (fuel offset j : Nat) (hj : j ≤ 2)
    (h : ∀ p, offset ≤ p → p < mdk_scan bank fuel offset j + 3 → bank1 p = bank p) :
    mdk_scan bank1 fuel offset j = mdk_scan bank fuel offset j := by
  induction fuel generalizing offset j with
  | zero => simp [mdk_scan]
  | succ n ih =>
    have hge := mdk_scan_ge bank (n + 1) offset j hj
    have h0 : bank1 offset = bank offset := h offset (le_refl _) (by omega)
    simp only [mdk_scan] at h ⊢
    rw [h0]
    by_cases hm : bank offset ≠ mdk j
    · rw [if_pos hm, if_neg (by decide)] at h ⊢
      exact ih (offset + 1) 0 (by omega) (fun p hp hp1 => h p (by omega) hp1)
    · rw [if_neg hm] at h ⊢
      by_cases h3 : j + 1 = 3
      · simp only [if_pos h3]
      · simp only [if_neg h3] at h ⊢
        exact ih (offset + 1) (j + 1) (by omega) (fun p hp hp1 => h p (by omega) hp1)

/-- Over a stretch of zero bytes the search matches nothing and leaves it with no
character matched. -/
theorem mdk_scan_zeros (bank : Nat → Nat) (e fuel o j : Nat) (hj : j ≤ 2) (hoe : o < e)
    (hz : ∀ q, o ≤ q → q < e → bank q = 0) :
    mdk_scan bank fuel o j =
      if e - o ≤ fuel then mdk_scan bank (fuel - (e - o)) e 0 else o + fuel := by
  induction fuel generalizing o j with
  | zero =>
    rw [if_neg (by omega)]
    simp [mdk_scan]
  | succ n ih =>
    have h0 : bank o = 0 := hz o (le_refl _) hoe
    simp only [mdk_scan]
    rw [h0, if_pos (mdk_ne_zero j hj), if_neg (by decide)]
    by_cases h1 : o + 1 = e
    · subst h1
      rw [if_pos (by omega)]
      congr 1
      omega
    · rw [ih (o + 1) 0 (by omega) (by omega) (fun q hq hq1 => hz q (by omega) hq1)]
      by_cases h2 : e - o ≤ n + 1
      · rw [if_pos h2, if_pos (by omega)]
        congr 1
        omega
      · rw [if_neg h2, if_neg (by omega)]
        omega

/-- If a second memory agrees with the first up to `p`, is zero from `p` up to `e`,
and the search on the first memory completes no marker before `p`, then the
search on the second memory reaches `e` with no character matched. -/
theorem mdk_scan_skip (bank bank1 : Nat → Nat) (p e fuel o j : Nat) (hj : j ≤ 2)
    (hjo : j ≤ o) (hop : o ≤ p) (hpe : p < e)
    (hagree : ∀ q, o ≤ q → q < p → bank1 q = bank q)
    (hz : ∀ q, p ≤ q → q < e → bank1 q = 0)
    (hr : p ≤ mdk_scan bank fuel o j + 2) :
    mdk_scan bank1 fuel o j =
      if e - o ≤ fuel then mdk_scan bank1 (fuel - (e - o)) e 0 else o + fuel := by
  induction fuel generalizing o j with
  | zero =>
    rw [if_neg (by omega)]
    simp [mdk_scan]
  | succ n ih =>
    by_cases hp : o = p
    · subst hp
      exact mdk_scan_zeros bank1 e (n + 1) o j hj hpe hz
    · have h0 : bank1 o = bank o := hagree o (le_refl _) (by omega)
      simp only [mdk_scan] at hr ⊢
      rw [h0]
      by_cases hm : bank o ≠ mdk j
      · rw [if_pos hm, if_neg (by decide)] at hr ⊢
        rw [ih (o + 1) 0 (by omega) (by omega) (by omega)
          (fun q hq hq1 => hagree q (by omega) hq1) hr]
        by_cases h2 : e - o ≤ n + 1
        · rw [if_pos h2, if_pos (by omega)]
          congr 1
          omega
        · rw [if_neg h2, if_neg (by omega)]
          omega
      · rw [if_neg hm] at hr ⊢
        by_cases h3 : j + 1 = 3
        · rw [if_pos h3] at hr
          omega
        · rw [if_neg h3] at hr ⊢
          rw [ih (o + 1) (j + 1) (by omega) (by omega) (by omega)
            (fun q hq hq1 => hagree q (by omega) hq1) hr]
          by_cases h2 : e - o ≤ n + 1
          · rw [if_pos h2, if_pos (by omega)]
            congr 1
            omega
          · rw [if_neg h2, if_neg (by omega)]
            omega

theorem find_mdk_skip (m n : Nat → Nat) (base b p e : Nat) (hbp : b ≤ p) (hpe : p < e)
    (hagree : ∀ q, b ≤ q → q < p → n (base + q) = m (base + q))
    (hz : ∀ q, p ≤ q → q < e → n (base + q) = 0)
    (hr : p ≤ find_mdk m base b + 2) (hb : b ≤ 0x8000) :
    same_search n base b e := by
  unfold same_search
  have h := mdk_scan_skip (fun o => m (base + o)) (fun o => n (base + o)) p e (0x8000 - b) b 0
    (by omega) (by omega) hbp hpe hagree hz hr
  unfold find_mdk
  rw [h]
  by_cases h2 : e - b ≤ 0x8000 - b
  · left
    rw [if_pos h2]
    congr 1
    omega
  · right
    rw [if_neg h2]
    refine ⟨by omega, ?_⟩
    have := mdk_scan_ge (fun o => n (base + o)) (0x8000 - e) e 0 (by omega)
    omega

theorem clean_bank_same_search (answers : Nat → Nat) (base : Nat) (mem : Nat → Nat)
    (asked b e : Nat) (h : same_search mem base b e) :
    clean_bank answers base mem asked b = clean_bank answers base mem asked e := by
  rw [clean_bank_unfold answers base mem asked b, clean_bank_unfold answers base mem asked e]
  rcases h with h | ⟨h1, h2⟩
  · rw [h]
  · rw [if_pos h1, if_pos h2]

theorem mdk_scan_congr_range (bank bank1 : Nat → Nat) (fuel offset j : Nat)
    (h : ∀ p, offset ≤ p → p < offset + fuel → bank1 p = bank p) :
    mdk_scan bank1 fuel offset j = mdk_scan bank fuel offset j := by
  induction fuel generalizing offset j with
  | zero => simp [mdk_scan]
  | succ n ih =>
    have h0 : bank1 offset = bank offset := h offset (le_refl _) (by omega)
    simp only [mdk_scan]
    rw [h0, ih (offset + 1) _ (fun p hp hp1 => h p (by omega) (by omega))]

/-- The search in a bank depends on the bytes of that bank only. -/
theorem find_mdk_local (m n : Nat → Nat) (base b : Nat)
    (h : ∀ q, base + b ≤ q → q < base + 0x8000 → n q = m q) :
    find_mdk n base b = find_mdk m base b :=
  mdk_scan_congr_range _ _ _ _ _ (fun p hp hp1 => h (base + p) (by omega) (by omega))

/-- The search gives the same result on a memory that agrees up to the end of
the marker found. -/
theorem find_mdk_congr (m n : Nat → Nat) (base b : Nat)
    (h : ∀ p, b ≤ p → p < find_mdk m base b + 3 → n (base + p) = m (base + p)) :
    find_mdk n base b = find_mdk m base b :=
  mdk_scan_congr _ _ _ _ _ (by omega) h

/-! ### One loop iteration -/

theorem memset_zero_inside (mem : Nat → Nat) (p size q : Nat) (h1 : p ≤ q) (h2 : q < p + size) :
    memset_zero mem p size q = 0 := by
  unfold memset_zero
  rw [if_pos ⟨h1, h2⟩]

theorem memset_zero_below (mem : Nat → Nat) (p size q : Nat) (h : q < p) :
    memset_zero mem p size q = mem q := by
  unfold memset_zero
  rw [if_neg (by omega)]

theorem memset_zero_keeps_zero (mem : Nat → Nat) (p size q : Nat) (h : mem q = 0) :
    memset_zero mem p size q = 0 := by
  unfold memset_zero
  split_ifs
  · rfl
  · exact h

/-- A region is only cleared behind a guard tag, and at least the eight bytes
of tag, size and inverted size are cleared. -/
theorem verdict_clear (answers : Nat → Nat) (base : Nat) (mem : Nat → Nat)
    (asked offset sz a : Nat) (h : verdict answers base mem asked offset = .clear sz a) :
    has_star mem (base + offset - 8) = true ∧ 8 ≤ sz := by
  unfold verdict at h
  by_cases h1 : has_star mem (base + offset - 8) = false
  · rw [if_pos h1] at h
    exact absurd h (by simp)
  · rw [if_neg h1] at h
    refine ⟨eq_true_of_ne_false h1, ?_⟩
    simp only at h
    split_ifs at h
    all_goals simp only [Verdict.clear.injEq, reduceCtorEq] at h
    all_goals omega

/-- The verdict depends on the eight bytes before the marker and on whether the
operator confirms. -/
theorem verdict_congr (A A2 : Nat → Nat) (base : Nat) (m n : Nat → Nat) (a1 a2 offset : Nat)
    (h8 : 8 ≤ offset) (hagree : ∀ q, base + offset - 8 ≤ q → q < base + offset → n q = m q)
    (hyes : is_yes (A2 a2) = is_yes (A a1)) :
    (∀ x, verdict A base m a1 offset = .skip x → ∃ y, verdict A2 base n a2 offset = .skip y) ∧
      (∀ sz x, verdict A base m a1 offset = .clear sz x →
        ∃ y, verdict A2 base n a2 offset = .clear sz y) := by
  have hstar : has_star n (base + offset - 8) = has_star m (base + offset - 8) := by
    unfold has_star
    rw [hagree (base + offset - 8) (by omega) (by omega),
      hagree (base + offset - 8 + 1) (by omega) (by omega),
      hagree (base + offset - 8 + 2) (by omega) (by omega),
      hagree (base + offset - 8 + 3) (by omega) (by omega)]
  have e1 := hagree (base + offset - 1) (by omega) (by omega)
  have e2 := hagree (base + offset - 2) (by omega) (by omega)
  have e3 := hagree (base + offset - 3) (by omega) (by omega)
  have e4 := hagree (base + offset - 4) (by omega) (by omega)
  unfold verdict
  rw [hstar, e1, e2, e3, e4, hyes]
  by_cases h1 : has_star m (base + offset - 8) = false
  · simp only [if_pos h1]
    exact ⟨fun x _ => ⟨_, rfl⟩, fun sz x hx => absurd hx (by simp)⟩
  · simp only [if_neg h1]
    by_cases h2 : (m (base + offset - 3) % 256) <<< 8 + m (base + offset - 4) % 256 + 8 - 8 +
        ((m (base + offset - 1) % 256) <<< 8 + m (base + offset - 2) % 256) = 0xFFFF
    · simp only [if_pos h2]
      refine ⟨fun x hx => absurd hx (by simp), fun sz x hx => ⟨a2, ?_⟩⟩
      simp only [Verdict.clear.injEq] at hx
      rw [hx.1]
    · simp only [if_neg h2]
      by_cases h3 : (m (base + offset - 3) % 256) <<< 8 + m (base + offset - 4) % 256 + 8 - 8 +
          ((m (base + offset - 1) % 256) <<< 8 + m (base + offset - 2) % 256) ≠ 0x10000
      · simp only [if_pos h3]
        by_cases h4 : is_yes (A a1) = false
        · simp only [if_pos h4]
          exact ⟨fun x _ => ⟨_, rfl⟩, fun sz x hx => absurd hx (by simp)⟩
        · simp only [if_neg h4]
          refine ⟨fun x hx => absurd hx (by simp), fun sz x hx => ⟨a2 + 1, ?_⟩⟩
          simp only [Verdict.clear.injEq] at hx
          rw [hx.1]
      · simp only [if_neg h3]
        refine ⟨fun x hx => absurd hx (by simp), fun sz x hx => ⟨a2, ?_⟩⟩
        simp only [Verdict.clear.injEq] at hx
        rw [hx.1]

/-! ### What a run over one bank changes -/

/-- A run over one bank from restart point `b` leaves every byte below some
threshold `P` no lower than eight bytes before `b` as it was, has zeroed every
byte from `P` up to `b`, and never turns a zero byte into something else. -/
theorem clean_bank_frame (A : Nat → Nat) (base : Nat) :
    ∀ mem asked b, ∃ P, base + b ≤ P + 8 ∧ P ≤ base + b ∧
      (∀ q, q < P → (clean_bank A base mem asked b).1 q = mem q) ∧
      (∀ q, P ≤ q → q < base + b → (clean_bank A base mem asked b).1 q = 0) ∧
      (∀ q, mem q = 0 → (clean_bank A base mem asked b).1 q = 0) := by
  apply clean_bank_cases A base
  · intro mem asked b h
    rw [clean_bank_unfold, if_pos h]
    exact ⟨base + b, by omega, le_refl _, fun q _ => rfl, fun q h1 h2 => by omega,
      fun q hq => hq⟩
  · intro mem asked b a hlt hv ih
    have hge := find_mdk_ge mem base b
    rw [clean_bank_unfold, if_neg (by omega), hv]
    simp only
    obtain ⟨P, h1, h2, h3, h4, h5⟩ := ih
    refine ⟨min P (base + b), by omega, by omega, fun q hq => h3 q (by omega),
      fun q hq1 hq2 => h4 q (by omega) (by omega), h5⟩
  · intro mem asked b sz a hlt hv ih
    have hge := find_mdk_ge mem base b
    obtain ⟨_, hsz⟩ := verdict_clear A base mem asked _ sz a hv
    rw [clean_bank_unfold, if_neg (by omega), hv]
    simp only
    obtain ⟨P, h1, h2, h3, h4, h5⟩ := ih
    refine ⟨min (base + find_mdk mem base b - 8) (base + b), by omega, by omega, ?_, ?_, ?_⟩
    · intro q hq
      rw [h3 q (by omega), memset_zero_below _ _ _ _ (by omega)]
    · intro q hq1 hq2
      exact h5 q (memset_zero_inside _ _ _ _ (by omega) (by omega))
    · intro q hq
      exact h5 q (memset_zero_keeps_zero _ _ _ _ hq)

theorem has_star_first (mem : Nat → Nat) (p : Nat) (h : has_star mem p = true) :
    mem p = 0x53 := by
  unfold has_star at h
  simp only [Bool.and_eq_true, beq_iff_eq] at h
  exact h.1.1.1

/-- Running the loop over a bank it has already cleaned, from the same restart
point and with the same kind of answers, changes nothing. -/
theorem clean_bank_idem (A A2 : Nat → Nat) (c : Bool) (hA : ∀ k, is_yes (A k) = c)
    (hA2 : ∀ k, is_yes (A2 k) = c) (base : Nat) :
    ∀ mem asked b, 8 ≤ b → ∀ k,
      (clean_bank A2 base (clean_bank A base mem asked b).1 k b).1 =
        (clean_bank A base mem asked b).1 := by
  apply clean_bank_cases A base
  · intro mem asked b h _ k
    rw [clean_bank_unfold A, if_pos h]
    simp only
    rw [clean_bank_unfold A2, if_pos h]
  · intro mem asked b a hlt hv ih hb k
    have hge := find_mdk_ge mem base b
    have e0 : clean_bank A base mem asked b =
        clean_bank A base mem a (find_mdk mem base b + 3) := by
      rw [clean_bank_unfold A, if_neg (by omega), hv]
    rw [e0]
    have ih1 := ih (by omega)
    obtain ⟨P, hP1, hP2, hlow, hzero, _⟩ :=
      clean_bank_frame A base mem a (find_mdk mem base b + 3)
    generalize (clean_bank A base mem a (find_mdk mem base b + 3)).1 = r at ih1 hlow hzero ⊢
    by_cases hc : base + find_mdk mem base b + 3 ≤ P
    · have hfind : find_mdk r base b = find_mdk mem base b :=
        find_mdk_congr mem r base b (fun p _ hp => hlow _ (by omega))
      obtain ⟨y, hy⟩ := (verdict_congr A A2 base mem r asked k (find_mdk mem base b) (by omega)
        (fun q _ hq => hlow q (by omega)) (by rw [hA, hA2])).1 a hv
      rw [clean_bank_unfold A2 base r k b, hfind, if_neg (by omega), hy]
      exact ih1 y
    · have hss : same_search r base b (find_mdk mem base b + 3) :=
        find_mdk_skip mem r base b (max P (base + b) - base) (find_mdk mem base b + 3)
          (by omega) (by omega) (fun q _ hq => hlow _ (by omega))
          (fun q hq1 hq2 => hzero _ (by omega) (by omega)) (by omega) (by omega)
      rw [clean_bank_same_search A2 base r k b _ hss]
      exact ih1 k
  · intro mem asked b sz a hlt hv ih hb k
    have hge := find_mdk_ge mem base b
    obtain ⟨_, hsz⟩ := verdict_clear A base mem asked _ sz a hv
    have e0 : clean_bank A base mem asked b =
        clean_bank A base (memset_zero mem (base + find_mdk mem base b - 8) sz) a
          (find_mdk mem base b + sz - 8) := by
      rw [clean_bank_unfold A, if_neg (by omega), hv]
    rw [e0]
    have ih1 := ih (by omega)
    obtain ⟨P, hP1, hP2, hlow, hzero, hkeep⟩ :=
      clean_bank_frame A base (memset_zero mem (base + find_mdk mem base b - 8) sz) a
        (find_mdk mem base b + sz - 8)
    generalize (clean_bank A base (memset_zero mem (base + find_mdk mem base b - 8) sz) a
      (find_mdk mem base b + sz - 8)).1 = r at ih1 hlow hzero hkeep ⊢
    have hz : ∀ q, base + find_mdk mem base b - 8 ≤ q →
        q < base + (find_mdk mem base b + sz - 8) → r q = 0 := by
      intro q hq1 hq2
      exact hkeep q (memset_zero_inside _ _ _ _ hq1 (by omega))
    have hl : ∀ q, q < base + find_mdk mem base b - 8 → r q = mem q := by
      intro q hq
      rw [hlow q (by omega), memset_zero_below _ _ _ _ hq]
    by_cases hbE : b = find_mdk mem base b + sz - 8
    · have e1 : clean_bank A2 base r k b =
          clean_bank A2 base r k (find_mdk mem base b + sz - 8) := by
        congr 1
      rw [e1]
      exact ih1 k
    · have hss : same_search r base b (find_mdk mem base b + sz - 8) :=
        find_mdk_skip mem r base b (max (find_mdk mem base b - 8) b)
          (find_mdk mem base b + sz - 8) (by omega) (by omega)
          (fun q _ hq => hl _ (by omega))
          (fun q hq1 hq2 => hz _ (by omega) (by omega)) (by omega) (by omega)
      rw [clean_bank_same_search A2 base r k b _ hss]
      exact ih1 k

/-- A run that changes nothing on one memory changes nothing on any memory with
the same bytes in that bank. -/
theorem clean_bank_noop_local (A : Nat → Nat) (c : Bool) (hA : ∀ k, is_yes (A k) = c)
    (base : Nat) :
    ∀ mem asked b, 8 ≤ b → (clean_bank A base mem asked b).1 = mem →
      ∀ (n : Nat → Nat) (k : Nat), (∀ q, base ≤ q → q < base + 0x8000 → n q = mem q) →
        (clean_bank A base n k b).1 = n := by
  apply clean_bank_cases A base
  · intro mem asked b h _ _ n k hn
    have hfind : find_mdk n base b = find_mdk mem base b :=
      find_mdk_local mem n base b (fun q hq1 hq2 => hn q (by omega) hq2)
    rw [clean_bank_unfold A, hfind, if_pos h]
  · intro mem asked b a hlt hv ih hb hnoop n k hn
    have hge := find_mdk_ge mem base b
    have e0 : clean_bank A base mem asked b =
        clean_bank A base mem a (find_mdk mem base b + 3) := by
      rw [clean_bank_unfold A, if_neg (by omega), hv]
    rw [e0] at hnoop
    have hfind : find_mdk n base b = find_mdk mem base b :=
      find_mdk_local mem n base b (fun q hq1 hq2 => hn q (by omega) hq2)
    obtain ⟨y, hy⟩ := (verdict_congr A A base mem n asked k (find_mdk mem base b) (by omega)
      (fun q hq1 hq2 => hn q (by omega) (by omega)) (by rw [hA, hA])).1 a hv
    rw [clean_bank_unfold A base n k b, hfind, if_neg (by omega), hy]
    exact ih (by omega) hnoop n y hn
  · intro mem asked b sz a hlt hv ih hb hnoop n k hn
    exfalso
    have hge := find_mdk_ge mem base b
    obtain ⟨hstar, hsz⟩ := verdict_clear A base mem asked _ sz a hv
    have e0 : clean_bank A base mem asked b =
        clean_bank A base (memset_zero mem (base + find_mdk mem base b - 8) sz) a
          (find_mdk mem base b + sz - 8) := by
      rw [clean_bank_unfold A, if_neg (by omega), hv]
    rw [e0] at hnoop
    obtain ⟨P, _, _, _, _, hkeep⟩ :=
      clean_bank_frame A base (memset_zero mem (base + find_mdk mem base b - 8) sz) a
        (find_mdk mem base b + sz - 8)
    have h0 := hkeep (base + find_mdk mem base b - 8)
      (memset_zero_inside _ _ _ _ (le_refl _) (by omega))
    rw [hnoop, has_star_first mem _ hstar] at h0
    exact absurd h0 (by decide)

/-! ### All banks -/

/-- The loop over the banks from `i` on leaves everything below bank `i` untouched. -/
theorem clean_banks_below (A : Nat → Nat) (count i : Nat) (mem : Nat → Nat) (asked q : Nat)
    (hq : q < i * 0x8000) : (clean_banks A count i mem asked).1 q = mem q := by
  induction count generalizing i mem asked with
  | zero => rfl
  | succ n ih =>
    simp only [clean_banks]
    rw [ih (i + 1) _ _ (by omega)]
    obtain ⟨P, h1, _, h3, _, _⟩ := clean_bank_frame A (i * 0x8000) mem asked 8
    exact h3 q (by omega)

/-- After the loop over the banks, running the loop body again over any of
these banks changes nothing. -/
theorem clean_banks_settled (A A2 : Nat → Nat) (c : Bool) (hA : ∀ k, is_yes (A k) = c)
    (hA2 : ∀ k, is_yes (A2 k) = c) (count i : Nat) (mem : Nat → Nat) (asked j : Nat)
    (hij : i ≤ j) (hj : j < i + count) (k : Nat) :
    (clean_bank A2 (j * 0x8000) (clean_banks A count i mem asked).1 k 8).1 =
      (clean_banks A count i mem asked).1 := by
  induction count generalizing i mem asked with
  | zero => omega
  | succ n ih =>
    simp only [clean_banks]
    by_cases hji : j = i
    · subst hji
      have hidem := clean_bank_idem A A2 c hA hA2 (j * 0x8000) mem asked 8 (le_refl _) k
      exact clean_bank_noop_local A2 c hA2 (j * 0x8000) _ k 8 (le_refl _) hidem _ k
        (fun q _ hq2 => clean_banks_below A n (j + 1) _ _ q (by omega))
    · exact ih (i + 1) _ _ (by omega) (by omega)

/-- If the loop body changes nothing on any of the banks, the loop over the
banks changes nothing. -/
theorem clean_banks_noop (A : Nat → Nat) (count i : Nat) (M : Nat → Nat) (k : Nat)
    (h : ∀ j, i ≤ j → j < i + count → ∀ k, (clean_bank A (j * 0x8000) M k 8).1 = M) :
    (clean_banks A count i M k).1 = M := by
  induction count generalizing i k with
  | zero => rfl
  | succ n ih =>
    simp only [clean_banks]
    rw [h i (le_refl _) (by omega) k]
    exact ih (i + 1) _ (fun j h1 h2 => h j (by omega) (by omega))

/-- C10: on an image without the signature, with the operator answering every
prompt the same way (`c`: always yes or always no) in both runs, the legacy
branch of `clean_hack` run on the image it produced returns that image
unchanged; the produced image still has no signature, so the second call of
`clean_hack` takes the legacy branch again. -/
theorem clean_legacy_idempotent (answers answers2 : Nat → Nat) (c : Bool) (rom : ROM)
    (hsig : has_signature rom = false) (h1 : ∀ k, is_yes (answers k) = c)
    (h2 : ∀ k, is_yes (answers2 k) = c) :
    (clean_legacy answers2 (clean_legacy answers rom).1).1 = (clean_legacy answers rom).1 ∧
      has_signature (clean_legacy answers rom).1 = false := by
  constructor
  · unfold clean_legacy
    simp only
    congr 1
    exact clean_banks_noop answers2 _ _ _ _
      (fun j hj1 hj2 k => clean_banks_settled answers answers2 c h1 h2 _ _ _ _ j hj1 hj2 k)
  · unfold clean_legacy has_signature signature_offset at *
    simp only
    rw [clean_banks_below _ _ _ _ _ _ (by norm_num), clean_banks_below _ _ _ _ _ _ (by norm_num),
      clean_banks_below _ _ _ _ _ _ (by norm_num), clean_banks_below _ _ _ _ _ _ (by norm_num)]
    exact hsig

/-- Witness for C10: the image with one small well-formed tag, the operator
answering `n` to everything. -/
theorem clean_legacy_idempotent_witness :
    (clean_legacy (fun _ => 0x6E) (clean_legacy (fun _ => 0x6E) small_tag_rom).1).1 =
      (clean_legacy (fun _ => 0x6E) small_tag_rom).1 :=
  (clean_legacy_idempotent (fun _ => 0x6E) (fun _ => 0x6E) false small_tag_rom (by decide)
    (fun _ => rfl) (fun _ => rfl)).1

/-! ### The cleaner on two concrete images -/

theorem mdk_scan_mismatch (bank : Nat → Nat) (n offset j : Nat) (h : bank offset ≠ mdk j) :
    mdk_scan bank (n + 1) offset j = mdk_scan bank n (offset + 1) 0 := by
  simp only [mdk_scan]
  rw [if_pos h, if_neg (by decide)]

theorem mdk_scan_match (bank : Nat → Nat) (n offset j : Nat) (h : bank offset = mdk j)
    (hj : j + 1 ≠ 3) : mdk_scan bank (n + 1) offset j = mdk_scan bank n (offset + 1) (j + 1) := by
  have e : (if bank offset ≠ mdk j then 0 else j + 1) = j + 1 := if_neg (not_not.mpr h)
  simp only [mdk_scan, e, if_neg hj]

theorem mdk_scan_found (bank : Nat → Nat) (n offset : Nat) (h : bank offset = mdk 2) :
    mdk_scan bank (n + 1) offset 2 = offset - 2 := by
  have e : (if bank offset ≠ mdk 2 then 0 else 2 + 1) = 3 := if_neg (not_not.mpr h)
  simp only [mdk_scan, e, if_true]

/-- In a bank that is zero from offset `b` on, the search from `b` finds nothing. -/
theorem find_mdk_zero_bank (mem : Nat → Nat) (base b : Nat) (hb : b < 0x8000)
    (h : ∀ q, b ≤ q → q < 0x8000 → mem (base + q) = 0) : find_mdk mem base b = 0x8000 := by
  unfold find_mdk
  rw [mdk_scan_zeros (fun o => mem (base + o)) 0x8000 _ b 0 (by omega) hb h, if_pos (le_refl _),
    Nat.sub_self]
  rfl

/-- If the search finds nothing in any of the banks, the loop over the banks
returns the image as it is and asks nothing. -/
theorem clean_banks_all_stop (A : Nat → Nat) (count i : Nat) (M : Nat → Nat) (k : Nat)
    (h : ∀ j, i ≤ j → j < i + count → 0x8000 ≤ find_mdk M (j * 0x8000) 8) :
    clean_banks A count i M k = (M, k) := by
  induction count generalizing i with
  | zero => rfl
  | succ n ih =>
    simp only [clean_banks]
    rw [clean_bank_unfold, if_pos (h i (le_refl _) (by omega))]
    exact ih (i + 1) (fun j h1 h2 => h j (by omega) (by omega))

theorem missed_tag_image_zero (a : Nat) (h : a < 0x80008 ∨ 0x80012 < a) :
    missed_tag_image a = 0 := by
  unfold missed_tag_image
  iterate 11 rw [if_neg (by omega)]

theorem small_tag_image_zero (a : Nat) (h : a < 0x80008 ∨ 0x80013 < a) :
    small_tag_image a = 0 := by
  unfold small_tag_image
  iterate 12 rw [if_neg (by omega)]

/-- On the image `missed_tag_image` the search over bank `0x10` runs to the end
of the bank: the `M` that ends the inverted size is taken for the start of the
marker, and the marker itself is then passed over. -/
theorem missed_tag_find : find_mdk missed_tag_image (0x10 * 0x8000) 8 = 0x8000 := by
  have hz : find_mdk missed_tag_image (0x10 * 0x8000) 19 = 0x8000 :=
    find_mdk_zero_bank _ _ 19 (by norm_num)
      (fun q h1 h2 => missed_tag_image_zero _ (by omega))
  unfold find_mdk at hz ⊢
  calc mdk_scan (fun o => missed_tag_image (0x10 * 0x8000 + o)) (0x8000 - 8) 8 0
      = mdk_scan (fun o => missed_tag_image (0x10 * 0x8000 + o)) 32759 9 0 :=
        mdk_scan_mismatch _ 32759 8 0 (by decide)
    _ = mdk_scan (fun o => missed_tag_image (0x10 * 0x8000 + o)) 32758 10 0 :=
        mdk_scan_mismatch _ 32758 9 0 (by decide)
    _ = mdk_scan (fun o => missed_tag_image (0x10 * 0x8000 + o)) 32757 11 0 :=
        mdk_scan_mismatch _ 32757 10 0 (by decide)
    _ = mdk_scan (fun o => missed_tag_image (0x10 * 0x8000 + o)) 32756 12 0 :=
        mdk_scan_mismatch _ 32756 11 0 (by decide)
    _ = mdk_scan (fun o => missed_tag_image (0x10 * 0x8000 + o)) 32755 13 0 :=
        mdk_scan_mismatch _ 32755 12 0 (by decide)
    _ = mdk_scan (fun o => missed_tag_image (0x10 * 0x8000 + o)) 32754 14 0 :=
        mdk_scan_mismatch _ 32754 13 0 (by decide)
    _ = mdk_scan (fun o => missed_tag_image (0x10 * 0x8000 + o)) 32753 15 0 :=
        mdk_scan_mismatch _ 32753 14 0 (by decide)
    _ = mdk_scan (fun o => missed_tag_image (0x10 * 0x8000 + o)) 32752 16 1 :=
        mdk_scan_match _ 32752 15 0 (by decide) (by decide)
    _ = mdk_scan (fun o => missed_tag_image (0x10 * 0x8000 + o)) 32751 17 0 :=
        mdk_scan_mismatch _ 32751 16 1 (by decide)
    _ = mdk_scan (fun o => missed_tag_image (0x10 * 0x8000 + o)) 32750 18 0 :=
        mdk_scan_mismatch _ 32750 17 0 (by decide)
    _ = mdk_scan (fun o => missed_tag_image (0x10 * 0x8000 + o)) 32749 19 0 :=
        mdk_scan_mismatch _ 32749 18 0 (by decide)
    _ = 0x8000 := hz

/-- C9 (evaluation at the failing input): bank `0x10` of `missed_tag_rom` holds
`STAR` at offsets 8..11, size `0xB2FF` and inverted size `0x4D00` (their sum is
`0xFFFF`) at 12..15 and `MDK` at 16..18, with no other `MDK` in the bank; the
image has no signature; yet the legacy branch returns the image unchanged, so
the guard tag is still there. -/
theorem legacy_tag_missed (answers : Nat → Nat) :
    has_signature missed_tag_rom = false ∧
      has_star missed_tag_rom.real_data (0x10 * 0x8000 + 16 - 8) = true ∧
      (missed_tag_rom.real_data (0x10 * 0x8000 + 16 - 3) <<< 8) +
          missed_tag_rom.real_data (0x10 * 0x8000 + 16 - 4) +
        ((missed_tag_rom.real_data (0x10 * 0x8000 + 16 - 1) <<< 8) +
          missed_tag_rom.real_data (0x10 * 0x8000 + 16 - 2)) = 0xFFFF ∧
      (missed_tag_rom.real_data (0x10 * 0x8000 + 16) = mdk 0 ∧
        missed_tag_rom.real_data (0x10 * 0x8000 + 17) = mdk 1 ∧
        missed_tag_rom.real_data (0x10 * 0x8000 + 18) = mdk 2) ∧
      (∀ q, q < 16 → ¬ (missed_tag_rom.real_data (0x10 * 0x8000 + q) = mdk 0 ∧
        missed_tag_rom.real_data (0x10 * 0x8000 + q + 1) = mdk 1 ∧
        missed_tag_rom.real_data (0x10 * 0x8000 + q + 2) = mdk 2)) ∧
      clean_legacy answers missed_tag_rom = (missed_tag_rom, 0) ∧
      (clean_legacy answers missed_tag_rom).1.real_data (0x10 * 0x8000 + 8) = 0x53 := by
  have hrun : clean_legacy answers missed_tag_rom = (missed_tag_rom, 0) := by
    unfold clean_legacy
    simp only
    rw [clean_banks_all_stop]
    intro j h1 h2
    show 0x8000 ≤ find_mdk missed_tag_image (j * 0x8000) 8
    · by_cases hj : j = 0x10
      · subst hj
        rw [missed_tag_find]
      · rw [find_mdk_zero_bank _ _ 8 (by norm_num)
          (fun q _ _ => missed_tag_image_zero _ (by right; show 0x80012 < j * 0x8000 + q; omega))]
  refine ⟨by decide, by decide, by decide, by decide, ?_, hrun, ?_⟩
  · intro q hq
    interval_cases q <;> decide
  · rw [hrun]
    decide

/-- On the image `small_tag_image` the search over bank `0x10` finds the marker
at offset 16. -/
theorem small_tag_find : find_mdk small_tag_image (0x10 * 0x8000) 8 = 16 := by
  unfold find_mdk
  calc mdk_scan (fun o => small_tag_image (0x10 * 0x8000 + o)) (0x8000 - 8) 8 0
      = mdk_scan (fun o => small_tag_image (0x10 * 0x8000 + o)) 32759 9 0 :=
        mdk_scan_mismatch _ 32759 8 0 (by decide)
    _ = mdk_scan (fun o => small_tag_image (0x10 * 0x8000 + o)) 32758 10 0 :=
        mdk_scan_mismatch _ 32758 9 0 (by decide)
    _ = mdk_scan (fun o => small_tag_image (0x10 * 0x8000 + o)) 32757 11 0 :=
        mdk_scan_mismatch _ 32757 10 0 (by decide)
    _ = mdk_scan (fun o => small_tag_image (0x10 * 0x8000 + o)) 32756 12 0 :=
        mdk_scan_mismatch _ 32756 11 0 (by decide)
    _ = mdk_scan (fun o => small_tag_image (0x10 * 0x8000 + o)) 32755 13 0 :=
        mdk_scan_mismatch _ 32755 12 0 (by decide)
    _ = mdk_scan (fun o => small_tag_image (0x10 * 0x8000 + o)) 32754 14 0 :=
        mdk_scan_mismatch _ 32754 13 0 (by decide)
    _ = mdk_scan (fun o => small_tag_image (0x10 * 0x8000 + o)) 32753 15 0 :=
        mdk_scan_mismatch _ 32753 14 0 (by decide)
    _ = mdk_scan (fun o => small_tag_image (0x10 * 0x8000 + o)) 32752 16 0 :=
        mdk_scan_mismatch _ 32752 15 0 (by decide)
    _ = mdk_scan (fun o => small_tag_image (0x10 * 0x8000 + o)) 32751 17 1 :=
        mdk_scan_match _ 32751 16 0 (by decide) (by decide)
    _ = mdk_scan (fun o => small_tag_image (0x10 * 0x8000 + o)) 32750 18 2 :=
        mdk_scan_match _ 32750 17 1 (by decide) (by decide)
    _ = 16 := mdk_scan_found _ 32749 18 (by decide)

theorem small_tag_cleared_zero (a : Nat) : memset_zero small_tag_image 0x80008 12 a = 0 := by
  unfold memset_zero
  split_ifs with h
  · rfl
  · exact small_tag_image_zero a (by omega)


theorem small_tag_verdict (answers : Nat → Nat) :
    verdict answers (0x10 * 0x8000) small_tag_image 0 16 = .clear 12 0 := by
  unfold verdict
  rw [if_neg (by decide)]
  simp only
  rw [if_pos (by decide)]
  decide

theorem small_tag_bank1 (answers : Nat → Nat) :
    clean_bank answers (0x10 * 0x8000) small_tag_image 0 8 =
      clean_bank answers (0x10 * 0x8000) (memset_zero small_tag_image (0x10 * 0x8000 + 16 - 8) 12) 0
        (16 + 12 - 8) := by
  rw [clean_bank_unfold, small_tag_find, if_neg (by norm_num), small_tag_verdict]

theorem small_tag_bank2 (answers : Nat → Nat) (b : Nat) (hb : b < 0x8000) :
    clean_bank answers (0x10 * 0x8000) (memset_zero small_tag_image 0x80008 12) 0 b =
      (memset_zero small_tag_image 0x80008 12, 0) := by
  rw [clean_bank_unfold, find_mdk_zero_bank _ _ b hb
    (fun q _ _ => small_tag_cleared_zero _), if_pos (le_refl _)]

theorem small_tag_bank (answers : Nat → Nat) :
    clean_bank answers (0x10 * 0x8000) small_tag_image 0 8 =
      (memset_zero small_tag_image 0x80008 12, 0) := by
  have e1 : 0x10 * 0x8000 + 16 - 8 = 0x80008 := by norm_num
  have e2 : 16 + 12 - 8 = 20 := by norm_num
  rw [small_tag_bank1, e1, e2]
  exact small_tag_bank2 answers 20 (by norm_num)

/-- A well-formed tag is recognised: on `small_tag_rom` (size 3, inverted size
`0xFFFC`) the legacy branch zero-fills the `3 + 9` bytes from the guard tag on,
which leaves an all-zero image, and shows no prompt. -/
theorem legacy_tag_cleared (answers : Nat → Nat) :
    clean_legacy answers small_tag_rom =
        (⟨memset_zero small_tag_image 0x80008 12, 0x100000, 0⟩, 0) ∧
      ∀ a, memset_zero small_tag_image 0x80008 12 a = 0 := by
  refine ⟨?_, small_tag_cleared_zero⟩
  have hcount : small_tag_rom.size / 0x8000 - 0x10 = 15 + 1 := by decide
  have hdata : small_tag_rom.real_data = small_tag_image := rfl
  have hrest : clean_banks answers 15 (0x10 + 1) (memset_zero small_tag_image 0x80008 12) 0 =
      (memset_zero small_tag_image 0x80008 12, 0) :=
    clean_banks_all_stop answers 15 (0x10 + 1) _ 0 (fun j _ _ =>
      le_of_eq (find_mdk_zero_bank _ _ 8 (by norm_num)
        (fun q _ _ => small_tag_cleared_zero _)).symm)
  have hall : clean_banks answers (15 + 1) 0x10 small_tag_image 0 =
      (memset_zero small_tag_image 0x80008 12, 0) := by
    rw [clean_banks, small_tag_bank]
    exact hrest
  unfold clean_legacy
  simp only
  rw [hcount, hdata, hall]
  rfl

/-! ### Bad tags and the banks below `0x10` -/

/-- When the search stops before the end of its range it stands on a marker:
the three bytes from the offset it returns are `M`, `D`, `K`. -/
theorem mdk_scan_found_bytes (bank : Nat → Nat) (fuel offset j : Nat) (hj : j ≤ 2)
    (hjo : j ≤ offset) (hprev : ∀ t, t < j → bank (offset - j + t) = mdk t)
    (hlt : mdk_scan bank fuel offset j < offset + fuel) :
    bank (mdk_scan bank fuel offset j) = mdk 0 ∧
      bank (mdk_scan bank fuel offset j + 1) = mdk 1 ∧
      bank (mdk_scan bank fuel offset j + 2) = mdk 2 := by
  induction fuel generalizing offset j with
  | zero => simp [mdk_scan] at hlt
  | succ n ih =>
    simp only [mdk_scan] at hlt ⊢
    by_cases hm : bank offset ≠ mdk j
    · simp only [if_pos hm] at hlt ⊢
      rw [if_neg (by decide)] at hlt ⊢
      exact ih (offset + 1) 0 (by omega) (by omega) (fun t ht => by omega) (by omega)
    · have hm1 : bank offset = mdk j := not_not.mp hm
      simp only [if_neg hm] at hlt ⊢
      by_cases h3 : j + 1 = 3
      · rw [if_pos h3]
        have hj2 : j = 2 := by omega
        subst hj2
        have h0 := hprev 0 (by omega)
        have h1 := hprev 1 (by omega)
        refine ⟨by simpa using h0, ?_, ?_⟩
        · have : offset - 2 + 1 = offset - 2 + 1 := rfl
          exact h1
        · have : offset - 2 + 2 = offset := by omega
          rw [this]
          exact hm1
      · rw [if_neg h3] at hlt ⊢
        refine ih (offset + 1) (j + 1) (by omega) (by omega) ?_ (by omega)
        intro t ht
        by_cases htj : t = j
        · subst htj
          have : offset + 1 - (t + 1) + t = offset := by omega
          rw [this]
          exact hm1
        · have : offset + 1 - (j + 1) + t = offset - j + t := by omega
          rw [this]
          exact hprev t (by omega)

/-- A marker the search finds is in the bank and its three bytes are `MDK`. -/
theorem find_mdk_found (mem : Nat → Nat) (base b : Nat)
    (h : find_mdk mem base b < 0x8000) :
    mem (base + find_mdk mem base b) = mdk 0 ∧ mem (base + find_mdk mem base b + 1) = mdk 1 ∧
      mem (base + find_mdk mem base b + 2) = mdk 2 := by
  have hge := find_mdk_ge mem base b
  have := mdk_scan_found_bytes (fun o => mem (base + o)) (0x8000 - b) b 0 (by omega) (by omega)
    (fun t ht => by omega) (by unfold find_mdk at h; omega)
  exact this

/-- At a tag whose size and inverted size add up to neither `0xFFFF` nor
`0x10000`, a negative answer makes the loop go on after the marker. -/
theorem verdict_bad_no (answers : Nat → Nat) (base : Nat) (mem : Nat → Nat) (asked o : Nat)
    (h1 : tag_size mem base o + tag_inverted mem base o ≠ 0xFFFF)
    (h2 : tag_size mem base o + tag_inverted mem base o ≠ 0x10000)
    (hno : is_yes (answers asked) = false) :
    ∃ a, verdict answers base mem asked o = .skip a := by
  unfold tag_size tag_inverted at h1 h2
  unfold verdict
  by_cases hs : has_star mem (base + o - 8) = false
  · exact ⟨asked, by rw [if_pos hs]⟩
  · refine ⟨asked + 1, ?_⟩
    rw [if_neg hs]
    simp only
    rw [if_neg (by omega), if_pos (by omega), if_pos hno]

/-- In a bank all of whose tag hits are bad, with every prompt answered
negatively, the loop changes nothing. -/
theorem clean_bank_bad_tags_kept (A : Nat → Nat) (hno : ∀ k, is_yes (A k) = false)
    (base : Nat) :
    ∀ mem asked b, 8 ≤ b →
      (∀ o, 8 ≤ o → o < 0x8000 → legacy_hit mem base o →
        tag_size mem base o + tag_inverted mem base o ≠ 0xFFFF ∧
          tag_size mem base o + tag_inverted mem base o ≠ 0x10000) →
      (clean_bank A base mem asked b).1 = mem := by
  apply clean_bank_cases A base
  · intro mem asked b h _ _
    rw [clean_bank_unfold, if_pos h]
  · intro mem asked b a hlt hv ih hb hbad
    have hge := find_mdk_ge mem base b
    rw [clean_bank_unfold, if_neg (by omega), hv]
    exact ih (by omega) hbad
  · intro mem asked b sz a hlt hv ih hb hbad
    exfalso
    have hge := find_mdk_ge mem base b
    obtain ⟨hstar, _⟩ := verdict_clear A base mem asked _ sz a hv
    have hbytes := find_mdk_found mem base b hlt
    obtain ⟨h1, h2⟩ := hbad (find_mdk mem base b) (by omega) hlt ⟨hstar, hbytes⟩
    obtain ⟨a1, ha1⟩ := verdict_bad_no A base mem asked _ h1 h2 (hno asked)
    rw [ha1] at hv
    exact absurd hv (by simp)

/-- C11: in the legacy branch of `clean_hack`, if every tag hit (`STAR` eight
bytes before `MDK`, in a bank from `0x10` on) has size + inverted size different
from `0xFFFF` and from `0x10000`, and the operator answers every prompt
negatively, the image comes back unchanged; and in every run, whatever the
image and the answers, no byte below offset `0x80000` (bank `0x10`) changes. -/
theorem bad_tags_kept (answers : Nat → Nat) (rom : ROM)
    (hbad : ∀ i o, 0x10 ≤ i → i < rom.size / 0x8000 → 8 ≤ o → o < 0x8000 →
      legacy_hit rom.real_data (i * 0x8000) o →
        tag_size rom.real_data (i * 0x8000) o + tag_inverted rom.real_data (i * 0x8000) o ≠ 0xFFFF ∧
          tag_size rom.real_data (i * 0x8000) o + tag_inverted rom.real_data (i * 0x8000) o ≠
            0x10000)
    (hno : ∀ k, is_yes (answers k) = false) :
    (clean_legacy answers rom).1 = rom ∧
      ∀ (answers2 : Nat → Nat) (rom2 : ROM) (q : Nat), q < 0x80000 →
        (clean_legacy answers2 rom2).1.real_data q = rom2.real_data q := by
  constructor
  · unfold clean_legacy
    simp only
    rw [clean_banks_noop answers _ _ _ _ (fun j hj1 hj2 k =>
      clean_bank_bad_tags_kept answers hno (j * 0x8000) _ k 8 (le_refl _)
        (fun o ho1 ho2 hhit => hbad j o hj1 (by omega) ho1 ho2 hhit))]
  · intro answers2 rom2 q hq
    unfold clean_legacy
    simp only
    exact clean_banks_below answers2 _ _ _ _ q (by omega)

theorem bad_tag_image_star (a : Nat) (h : bad_tag_image a = 0x53) : a = 0x80008 := by
  by_contra hne
  unfold bad_tag_image at h
  rw [if_neg hne] at h
  split_ifs at h <;> omega

/-- Witness for C11: the image with one bad tag (size 3, inverted size 0), the
operator answering `n` to everything. -/
theorem bad_tags_kept_witness :
    (clean_legacy (fun _ => 0x6E) bad_tag_rom).1 = bad_tag_rom :=
  (bad_tags_kept (fun _ => 0x6E) bad_tag_rom
    (fun i o _ _ ho1 ho2 hhit => by
      have hS := bad_tag_image_star _ (has_star_first _ _ hhit.1)
      have hi : i = 0x10 := by omega
      have ho : o = 16 := by omega
      subst hi
      subst ho
      decide)
    (fun _ => rfl)).1

/-! ### Level `0x200` written in a manifest -/

/-- C20 (evaluation at the failing input): the line `200:05 foo.cfg` parses to
level `0x200`, which `from_table` takes for "no level"; the line is accepted and
claims slot `0x2005`, the slot of the plain line `05 foo.cfg`; no level-range
error is raised. -/
theorem level_200_accepted :
    from_table 0x200 0x05 = some 0x2005 ∧
      (ManifestLine.leveled 0x200 0x05 Remainder.completes).slot =
        (ManifestLine.plain 0x05 Remainder.completes).slot ∧
      populate_sprite_list [ManifestLine.leveled 0x200 0x05 Remainder.completes] =
        Except.ok (Function.update (fun _ => {}) 0x2005 ⟨1, 0x05, 0x200⟩) ∧
      populate_sprite_list [ManifestLine.leveled 0x200 0x05 Remainder.completes,
          ManifestLine.plain 0x05 Remainder.completes] =
        Except.error (2, Abort.already_used) := by
  refine ⟨by decide, by decide, rfl, rfl⟩

/-- A leveled line is stopped by the level-range error exactly when its level
is above `0x200` and its id is below `0x100`; level `0x200` itself never is. -/
theorem level_range_error_iff (level sprite_id : Int) (rest : Remainder) (n : Nat)
    (s : Int → sprite) :
    claim_slot n s level sprite_id rest = .error (n, .level_out_of_range) ↔
      0x200 < level ∧ sprite_id < 0x100 := by
  unfold claim_slot
  constructor
  · intro h
    split at h
    · rename_i hnone
      simp only [Except.error.injEq, Prod.mk.injEq, true_and] at h
      unfold null_slot_outcome at h
      split_ifs at h
      omega
    · split_ifs at h <;> simp only [Except.error.injEq, Prod.mk.injEq, reduceCtorEq,
        and_false] at h
      cases rest <;> simp [Remainder.abort] at h
  · rintro ⟨h1, h2⟩
    have hnone : from_table level sprite_id = none := by
      unfold from_table
      rw [if_pos (Or.inl h1)]
    rw [hnone]
    simp only
    unfold null_slot_outcome
    rw [if_neg (by omega), if_neg (by omega), if_pos h1]

/-! ### Shared routines -/

/-- A name that does not end in `.asm` is skipped. -/
theorem register_routine_skips (st : SharedPatch) (name : List Char)
    (h : ends_with_asm name = false) : register_routine st name = some st := by
  unfold register_routine
  rw [if_neg (by rw [h]; decide)]

/-- A name ending in `.asm` is registered as long as the count is at most 100. -/
theorem register_routine_takes (st : SharedPatch) (name : List Char)
    (h : ends_with_asm name = true) (hc : st.routine_count ≤ 100) :
    register_routine st name =
      some ⟨st.routine_count + 1,
        st.routines ++ [(name.take (name.length - 4), st.routine_count * 3)]⟩ := by
  unfold register_routine
  rw [if_pos h, if_neg (by omega)]

/-- A name ending in `.asm` is refused once the count exceeds 100. -/
theorem register_routine_stops (st : SharedPatch) (name : List Char)
    (h : ends_with_asm name = true) (hc : 100 < st.routine_count) :
    register_routine st name = none := by
  unfold register_routine
  rw [if_pos h, if_pos hc]

/-- The loop fails exactly when the count would pass 101, and otherwise counts
the names ending in `.asm`. -/
theorem register_routines_spec (listing : List (List Char)) (st : SharedPatch)
    (hc : st.routine_count ≤ 101) :
    (register_routines st listing = none ↔
        101 < st.routine_count + (listing.filter ends_with_asm).length) ∧
      ∀ st1, register_routines st listing = some st1 →
        st1.routine_count = st.routine_count + (listing.filter ends_with_asm).length := by
  induction listing generalizing st with
  | nil =>
    refine ⟨?_, ?_⟩
    · simp only [register_routines, List.filter_nil, List.length_nil, reduceCtorEq, false_iff]
      omega
    · intro st1 h
      simp only [register_routines, Option.some.injEq] at h
      rw [← h]
      rfl
  | cons name names ih =>
    cases hn : ends_with_asm name with
    | false =>
      have e := register_routine_skips st name hn
      have hf : (name :: names).filter ends_with_asm = names.filter ends_with_asm := by
        rw [List.filter_cons, if_neg (by rw [hn]; decide)]
      simp only [register_routines, e, hf]
      exact ih st hc
    | true =>
      have hf : ((name :: names).filter ends_with_asm).length =
          (names.filter ends_with_asm).length + 1 := by
        rw [List.filter_cons, if_pos hn, List.length_cons]
      by_cases h100 : st.routine_count ≤ 100
      · have e := register_routine_takes st name hn h100
        simp only [register_routines, e, hf]
        have := ih ⟨st.routine_count + 1,
          st.routines ++ [(name.take (name.length - 4), st.routine_count * 3)]⟩
          (by simp only; omega)
        simp only at this
        refine ⟨?_, ?_⟩
        · rw [this.1]
          omega
        · intro st1 h
          rw [this.2 st1 h]
          omega
      · have e := register_routine_stops st name hn (by omega)
        simp only [register_routines, e, hf]
        refine ⟨?_, ?_⟩
        · simp only [true_iff]
          omega
        · intro st1 h
          exact absurd h (by simp only [reduceCtorEq, not_false_eq_true])

/-- The offsets handed to `include_once` are `0, 3, 6, ...` in discovery order. -/
theorem register_routines_offsets (listing : List (List Char)) (st st1 : SharedPatch)
    (hinv : st.routines.map Prod.snd = (List.range st.routine_count).map (fun k => k * 3))
    (h : register_routines st listing = some st1) :
    st1.routines.map Prod.snd = (List.range st1.routine_count).map (fun k => k * 3) := by
  induction listing generalizing st with
  | nil =>
    simp only [register_routines, Option.some.injEq] at h
    rw [← h]
    exact hinv
  | cons name names ih =>
    simp only [register_routines] at h
    cases hr : register_routine st name with
    | none =>
      rw [hr] at h
      exact absurd h (by simp only [reduceCtorEq, not_false_eq_true])
    | some st2 =>
      rw [hr] at h
      refine ih st2 ?_ h
      unfold register_routine at hr
      split_ifs at hr with h1 h2
      · simp only [Option.some.injEq] at hr
        rw [← hr]
        simp only [List.map_append, List.map_cons, List.map_nil, List.range_succ, hinv]
      · simp only [Option.some.injEq] at hr
        rw [← hr]
        exact hinv

/-- C16 (what the code does): `create_shared_patch` fails with `More than 100
routines located` if and only if the listing holds more than 101 names ending
in `.asm`.  A listing of exactly 101 such names is accepted: all 101 routines
are registered, and the last one has discovery index 100 (offset argument
`300`), outside the entries `0..99` of the pointer table. -/
theorem cap_admits_101_routines :
    (∀ listing : List (List Char),
        create_shared_patch listing = none ↔ 101 < (listing.filter ends_with_asm).length) ∧
      (List.replicate 101 ['a', '.', 'a', 's', 'm']).filter ends_with_asm =
        List.replicate 101 ['a', '.', 'a', 's', 'm'] ∧
      ∃ st, create_shared_patch (List.replicate 101 ['a', '.', 'a', 's', 'm']) = some st ∧
        st.routine_count = 101 ∧ (st.routines.map Prod.snd)[100]? = some 300 ∧
        ¬ (100 < shared_table_entries) := by
  have hall : ∀ listing : List (List Char),
      create_shared_patch listing = none ↔ 101 < (listing.filter ends_with_asm).length := by
    intro listing
    have h := (register_routines_spec listing {} (by decide)).1
    unfold create_shared_patch
    rw [h]
    show 101 < 0 + _ ↔ _
    rw [Nat.zero_add]
  have hfil : (List.replicate 101 ['a', '.', 'a', 's', 'm']).filter ends_with_asm =
      List.replicate 101 ['a', '.', 'a', 's', 'm'] := by
    rw [List.filter_eq_self]
    intro x hx
    rw [List.eq_of_mem_replicate hx]
    decide
  refine ⟨hall, hfil, ?_⟩
  cases hr : create_shared_patch (List.replicate 101 ['a', '.', 'a', 's', 'm']) with
  | none =>
    rw [hall, hfil, List.length_replicate] at hr
    omega
  | some st =>
    have hcount := (register_routines_spec _ {} (by decide)).2 st hr
    rw [hfil, List.length_replicate] at hcount
    have hcount1 : st.routine_count = 101 := by
      rw [hcount]
    have hoff := register_routines_offsets _ {} st rfl hr
    refine ⟨st, rfl, hcount1, ?_, by decide⟩
    rw [hoff, hcount1]
    simp only [List.getElem?_map]
    rw [List.getElem?_range (by decide)]
    rfl

/-- C17 (what the code does): for the routine discovered as number `k`
(counting from 0) `create_shared_patch` emits the offset argument `3 * k`, so
the emitted `include_once` glue reads and writes `0x03E05C + 9 * k`, which is
entry `3 * k` of the table the cleanup scans; it is entry `k` only for
`k = 0`. -/
theorem routine_slot_address (listing : List (List Char)) (st : SharedPatch)
    (h : create_shared_patch listing = some st) (k : Nat) (hk : k < st.routine_count) :
    (st.routines.map Prod.snd)[k]? = some (k * 3) ∧
      include_once_address (k * 3) = 0x03E05C + 9 * k ∧
      include_once_address (k * 3) = shared_table_entry (3 * k) ∧
      (include_once_address (k * 3) = shared_table_entry k ↔ k = 0) := by
  have hoff := register_routines_offsets listing {} st rfl h
  refine ⟨?_, ?_, ?_, ?_⟩
  · rw [hoff]
    simp only [List.getElem?_map]
    rw [List.getElem?_range hk]
    rfl
  · unfold include_once_address
    omega
  · unfold include_once_address shared_table_entry
    omega
  · unfold include_once_address shared_table_entry
    omega

/-- Witness for C17: the second of two routines gets offset `3` and the glue
address `0x03E05C + 9`, which is not entry 1 of the table. -/
theorem routine_slot_address_witness :
    create_shared_patch [['a', '.', 'a', 's', 'm'], ['b', '.', 'a', 's', 'm']] =
        some ⟨2, [(['a'], 0), (['b'], 3)]⟩ ∧
      include_once_address (1 * 3) = 0x03E05C + 9 * 1 ∧
      ¬ include_once_address (1 * 3) = shared_table_entry 1 :=
  ⟨by decide,
   (routine_slot_address [['a', '.', 'a', 's', 'm'], ['b', '.', 'a', 's', 'm']]
      ⟨2, [(['a'], 0), (['b'], 3)]⟩ (by decide) 1 (by decide)).2.1,
   fun e => absurd ((routine_slot_address [['a', '.', 'a', 's', 'm'], ['b', '.', 'a', 's', 'm']]
      ⟨2, [(['a'], 0), (['b'], 3)]⟩ (by decide) 1 (by decide)).2.2.2.1 e) (by decide)⟩

/-! ### Text handling -/

/-- The front loop of `trim` steps over a run of whitespace that is followed by
the end of the string or by a character that is not whitespace. -/
theorem skip_space_append (ws rest : List Char) (hws : ∀ c ∈ ws, isspace c = true)
    (hrest : ∀ c, rest.head? = some c → isspace c = false) :
    skip_space (ws ++ rest) = ws.length := by
  induction ws with
  | nil =>
    cases rest with
    | nil => rfl
    | cons c cs =>
      show (if isspace c then skip_space cs + 1 else 0) = 0
      rw [hrest c rfl]
      rfl
  | cons w ws ih =>
    show (if isspace w then skip_space (ws ++ rest) + 1 else 0) = (w :: ws).length
    rw [hws w (List.mem_cons_self _ _), if_pos rfl,
      ih (fun c hc => hws c (List.mem_cons_of_mem _ hc)), List.length_cons]

/-- A run of whitespace in front of a string is what `dropWhile` removes. -/
theorem dropWhile_space_append (ws rest : List Char) (hws : ∀ c ∈ ws, isspace c = true)
    (hrest : ∀ c, rest.head? = some c → isspace c = false) :
    (ws ++ rest).dropWhile isspace = rest := by
  induction ws with
  | nil =>
    cases rest with
    | nil => rfl
    | cons c cs =>
      rw [List.nil_append, List.dropWhile_cons, hrest c rfl]
      rfl
  | cons w ws ih =>
    rw [List.cons_append, List.dropWhile_cons, hws w (List.mem_cons_self _ _), if_pos rfl]
    exact ih (fun c hc => hws c (List.mem_cons_of_mem _ hc))

/-- The back loop never lengthens the string. -/
theorem trim_back_length_le (p : Nat) (buf : List Char) :
    (trim_back buf p).length ≤ buf.length := by
  induction p generalizing buf with
  | zero => exact Nat.le_refl _
  | succ p ih =>
    unfold trim_back
    split_ifs
    · have h1 := ih (buf.take (p + 1))
      rw [List.length_take] at h1
      omega
    · exact Nat.le_refl _

/-- The back loop started inside a trailing run of whitespace `ws`, `k`
characters after the text `a` whose last character is not whitespace: it stops
at the end of `a`, and each of its passes cuts the string one character
further right than the character it tested. -/
theorem trim_back_run (a : List Char) (ha : ∀ c, a.getLast? = some c → isspace c = false)
    (k : Nat) (ws : List Char) (hws : ∀ c ∈ ws, isspace c = true) (hk : k ≤ ws.length) :
    trim_back (a ++ ws) (a.length + k) = if k = 0 then a ++ ws else a ++ ws.take 1 := by
  induction k generalizing ws with
  | zero =>
    rw [if_pos rfl, Nat.add_zero]
    rcases List.eq_nil_or_concat a with h | ⟨b, x, h⟩
    · rw [h]
      rfl
    · have hx : isspace x = false := ha x (by rw [h, List.concat_eq_append, List.getLast?_append]; rfl)
      have hl : a.length = b.length + 1 := by rw [h, List.length_concat]
      have hc : char_at (a ++ ws) b.length = x := by
        unfold char_at
        rw [h, List.concat_eq_append, List.append_assoc, List.getD_eq_getElem?_getD,
          List.getElem?_append_right (Nat.le_refl _), Nat.sub_self, List.singleton_append,
          List.getElem?_cons_zero, Option.getD_some]
      rw [hl]
      unfold trim_back
      rw [hc, hx]
      rfl
  | succ k ih =>
    rw [if_neg (Nat.succ_ne_zero k)]
    have hc : isspace (char_at (a ++ ws) (a.length + k)) = true := by
      unfold char_at
      rw [List.getD_eq_getElem?_getD, List.getElem?_append_right (Nat.le_add_right _ _),
        Nat.add_sub_cancel_left, List.getElem?_eq_getElem (by omega)]
      exact hws _ (List.getElem_mem _)
    have ht : (a ++ ws).take (a.length + k + 1) = a ++ ws.take (k + 1) := by
      rw [List.take_append_eq_append_take, List.take_of_length_le (by omega)]
      congr 2
      omega
    show trim_back (a ++ ws) (a.length + k + 1) = _
    unfold trim_back
    rw [hc, if_pos rfl, ht,
      ih (ws.take (k + 1)) (fun c hc => hws c (List.mem_of_mem_take hc))
        (by rw [List.length_take]; omega)]
    by_cases hk0 : k = 0
    · rw [if_pos hk0, hk0]
    · rw [if_neg hk0, List.take_take]
      congr 2
      omega

/-- The back loop of `trim` on a string `a` followed by whitespace `ws`: what
is left is `a` and the first character of `ws`. -/
theorem trim_back_full (a ws : List Char) (ha : ∀ c, a.getLast? = some c → isspace c = false)
    (hws : ∀ c ∈ ws, isspace c = true) :
    trim_back (a ++ ws) (a ++ ws).length = a ++ ws.take 1 := by
  rw [List.length_append, trim_back_run a ha ws.length ws hws (Nat.le_refl _)]
  by_cases h : ws.length = 0
  · rw [if_pos h, List.length_eq_zero.mp h]
    rfl
  · rw [if_neg h]

/-- The last character of `lead ++ core` is the last character of `core`. -/
theorem getLast_lead_core (lead core : List Char) (hcore : core ≠ [])
    (hlast : ∀ c, core.getLast? = some c → isspace c = false) :
    ∀ c, (lead ++ core).getLast? = some c → isspace c = false := by
  intro c hc
  rw [List.getLast?_append_of_ne_nil _ hcore] at hc
  exact hlast c hc
/-- Every string with a character that is not whitespace is leading
whitespace, a core that starts and ends with a character that is not
whitespace, and trailing whitespace. -/
theorem exists_lead_core_trail (s : List Char) (h : ∃ c ∈ s, isspace c = false) :
    ∃ lead core trail : List Char, s = lead ++ core ++ trail ∧
      (∀ c ∈ lead, isspace c = true) ∧ (∀ c ∈ trail, isspace c = true) ∧ core ≠ [] ∧
      (∀ c, core.head? = some c → isspace c = false) ∧
      (∀ c, core.getLast? = some c → isspace c = false) := by
  obtain ⟨x, hx, hxs⟩ := h
  have hs : s = s.takeWhile isspace ++ s.dropWhile isspace :=
    (List.takeWhile_append_dropWhile isspace s).symm
  have hxt : x ∈ s.dropWhile isspace := by
    rw [hs, List.mem_append] at hx
    rcases hx with hx | hx
    · have := List.mem_takeWhile_imp hx
      rw [hxs] at this
      exact absurd this (by decide)
    · exact hx
  have ht : (s.dropWhile isspace).reverse =
      (s.dropWhile isspace).reverse.takeWhile isspace ++
        (s.dropWhile isspace).reverse.dropWhile isspace :=
    (List.takeWhile_append_dropWhile isspace _).symm
  have hxr : x ∈ (s.dropWhile isspace).reverse.dropWhile isspace := by
    have hx1 : x ∈ (s.dropWhile isspace).reverse := List.mem_reverse.mpr hxt
    rw [ht, List.mem_append] at hx1
    rcases hx1 with hx1 | hx1
    · have := List.mem_takeWhile_imp hx1
      rw [hxs] at this
      exact absurd this (by decide)
    · exact hx1
  have ht2 : s.dropWhile isspace =
      ((s.dropWhile isspace).reverse.dropWhile isspace).reverse ++
        ((s.dropWhile isspace).reverse.takeWhile isspace).reverse := by
    rw [← List.reverse_append, ← ht, List.reverse_reverse]
  have hcore : ((s.dropWhile isspace).reverse.dropWhile isspace).reverse ≠ [] := by
    intro h0
    rw [List.reverse_eq_nil_iff] at h0
    rw [h0] at hxr
    exact absurd hxr (List.not_mem_nil x)
  have hdrop : ∀ (l : List Char) (c : Char), (l.dropWhile isspace).head? = some c →
      isspace c = false := by
    intro l c hc
    cases hl : l.dropWhile isspace with
    | nil =>
      rw [hl] at hc
      exact absurd hc (by simp only [List.head?_nil, reduceCtorEq, not_false_eq_true])
    | cons y ys =>
      rw [hl, List.head?_cons, Option.some.injEq] at hc
      have := List.head_dropWhile_not isspace l (by rw [hl]; exact List.cons_ne_nil _ _)
      simp only [hl, List.head_cons, Bool.not_eq_true] at this
      rw [← hc]
      exact this
  refine ⟨s.takeWhile isspace, ((s.dropWhile isspace).reverse.dropWhile isspace).reverse,
    ((s.dropWhile isspace).reverse.takeWhile isspace).reverse, ?_, ?_, ?_, hcore, ?_, ?_⟩
  · rw [List.append_assoc, ← ht2]
    exact hs
  · intro c hc
    exact List.mem_takeWhile_imp hc
  · intro c hc
    exact List.mem_takeWhile_imp (List.mem_reverse.mp hc)
  · intro c hc
    have h1 : (s.dropWhile isspace).head? = some c := by
      rw [ht2, List.head?_append_of_ne_nil _ hcore]
      exact hc
    exact hdrop s c h1
  · intro c hc
    rw [List.getLast?_reverse] at hc
    exact hdrop _ c hc

/-- C19 (what the code does): on a string made of leading whitespace, a core
that starts and ends with a character that is not whitespace, and trailing
whitespace, `trim` returns the core followed by the first character of the
trailing whitespace: all leading whitespace is removed, but of the trailing
whitespace one character is kept.  The string with both ends stripped is the
core. -/
theorem trim_keeps_one_trailing_space (lead core trail : List Char)
    (hlead : ∀ c ∈ lead, isspace c = true) (htrail : ∀ c ∈ trail, isspace c = true)
    (hcore : core ≠ []) (hfirst : ∀ c, core.head? = some c → isspace c = false)
    (hlast : ∀ c, core.getLast? = some c → isspace c = false) :
    trimmed (lead ++ core ++ trail) 0 = core ++ trail.take 1 ∧
      spec_trim (lead ++ core ++ trail) = core ∧
      (trimmed (lead ++ core ++ trail) 0 = spec_trim (lead ++ core ++ trail) ↔ trail = []) := by
  have hfirst2 : ∀ c, (core ++ trail).head? = some c → isspace c = false := by
    intro c hc
    rw [List.head?_append_of_ne_nil _ hcore] at hc
    exact hfirst c hc
  have h1 : trimmed (lead ++ core ++ trail) 0 = core ++ trail.take 1 := by
    unfold trimmed trim
    simp only
    rw [trim_back_full (lead ++ core) trail (getLast_lead_core lead core hcore hlast) htrail,
      List.drop_zero, List.append_assoc lead core trail,
      skip_space_append lead (core ++ trail) hlead hfirst2, Nat.zero_add,
      List.append_assoc lead core, List.drop_left]
  have h2 : spec_trim (lead ++ core ++ trail) = core := by
    unfold spec_trim
    rw [List.append_assoc, dropWhile_space_append lead (core ++ trail) hlead hfirst2,
      List.reverse_append,
      dropWhile_space_append trail.reverse core.reverse
        (fun c hc => htrail c (List.mem_reverse.mp hc))
        (fun c hc => hlast c (by rw [← List.head?_reverse]; exact hc)),
      List.reverse_reverse]
  refine ⟨h1, h2, ?_⟩
  rw [h1, h2]
  constructor
  · intro h
    have h3 : (core ++ trail.take 1).length = core.length := by rw [h]
    rw [List.length_append, List.length_take] at h3
    cases trail with
    | nil => rfl
    | cons t ts =>
      rw [List.length_cons] at h3
      omega
  · intro h
    rw [h, List.take_nil, List.append_nil]

/-- Witness for C19: the file name `foo.cfg` followed by two spaces keeps one
of them. -/
theorem trim_keeps_one_trailing_space_witness :
    trimmed ([] ++ "foo.cfg".toList ++ "  ".toList) 0 = "foo.cfg".toList ++ "  ".toList.take 1 ∧
      trimmed "foo.cfg  ".toList 0 = "foo.cfg ".toList ∧
      spec_trim "foo.cfg  ".toList = "foo.cfg".toList :=
  ⟨(trim_keeps_one_trailing_space [] "foo.cfg".toList "  ".toList (by decide) (by decide)
      (by decide) (by decide) (by decide)).1, by decide, by decide⟩

/-- C15 (what the code does): a manifest line made of a slot prefix `pre`
followed only by whitespace `ws` reaches the file-name check as `pre` and one
whitespace character (the blank test has trimmed it); the file name is then
empty and `cfg_file` is the base directory alone, so `Missing filename` is
reported only when the base directory is the empty string. -/
theorem empty_filename_not_rejected (dir pre ws : List Char)
    (hpre : ∀ c ∈ pre, isspace c = false) (hws0 : ws ≠ [])
    (hws : ∀ c ∈ ws, isspace c = true) :
    (trim (pre ++ ws) 0).1 = pre ++ ws.take 1 ∧
      trimmed (trim (pre ++ ws) 0).1 pre.length = [] ∧
      file_name_check dir (trim (pre ++ ws) 0).1 pre.length =
        (if char_at dir 0 = NUL then .error .missing_filename else .ok dir) ∧
      (char_at dir 0 ≠ NUL → ∀ readable : List Char → Bool,
        scan_remainder readable dir (trim (pre ++ ws) 0).1 pre.length ≠
          Remainder.missing_filename) := by
  have hlast : ∀ c, pre.getLast? = some c → isspace c = false :=
    fun c hc => hpre c (List.mem_of_getLast?_eq_some hc)
  obtain ⟨w, ws1, hw⟩ := List.exists_cons_of_ne_nil hws0
  have hws1 : ∀ c ∈ [w], isspace c = true := by
    intro c hc
    rw [List.mem_singleton] at hc
    rw [hc]
    exact hws w (by rw [hw]; exact List.mem_cons_self _ _)
  have htake : ws.take 1 = [w] := by rw [hw]; rfl
  have h1 : (trim (pre ++ ws) 0).1 = pre ++ ws.take 1 := by
    show trim_back (pre ++ ws) (pre ++ ws).length = _
    exact trim_back_full pre ws hlast hws
  have h2 : trimmed (pre ++ [w]) pre.length = [] := by
    unfold trimmed trim
    simp only
    have e := trim_back_full pre [w] hlast hws1
    rw [e, List.drop_left]
    have e2 := skip_space_append [w] [] hws1
      (fun c hc => absurd hc (by simp only [List.head?_nil, reduceCtorEq, not_false_eq_true]))
    rw [List.append_nil] at e2
    rw [e2]
    show (pre ++ [w]).drop (pre.length + 1) = []
    rw [List.drop_eq_nil_iff, List.length_append]
    exact Nat.le_refl _
  have h3 : isspace (char_at (pre ++ [w]) pre.length) = true := by
    unfold char_at
    rw [List.getD_eq_getElem?_getD, List.getElem?_append_right (Nat.le_refl _), Nat.sub_self]
    exact hws1 w (List.mem_singleton_self w)
  have h4 : file_name_check dir (pre ++ [w]) pre.length =
      (if char_at dir 0 = NUL then .error .missing_filename else .ok dir) := by
    unfold file_name_check
    rw [h3, if_pos rfl, h2, List.append_nil]
  rw [h1, htake]
  refine ⟨rfl, h2, h4, ?_⟩
  intro hdir readable
  unfold scan_remainder
  rw [h4, if_neg hdir]
  simp only
  split_ifs <;> simp only [ne_eq, reduceCtorEq, not_false_eq_true]

/-- Witness for C15: the line `05` followed by three spaces, with the default
base directory `sprites/`, passes the file-name check with `cfg_file` equal to
`sprites/`. -/
theorem empty_filename_not_rejected_witness :
    file_name_check "sprites/".toList (trim ("05".toList ++ "   ".toList) 0).1 "05".toList.length =
      (if char_at "sprites/".toList 0 = NUL then .error .missing_filename
        else .ok "sprites/".toList) :=
  (empty_filename_not_rejected "sprites/".toList "05".toList "   ".toList (by decide)
    (by decide) (by decide)).2.2.1

/-- A line of whitespace only is blank for `read_cfg_file`. -/
theorem trimmed_blank (d : List Char) (hd : ∀ c ∈ d, isspace c = true) : trimmed d 0 = [] := by
  unfold trimmed trim
  simp only
  have e := skip_space_append d [] hd
    (fun c hc => absurd hc (by simp only [List.head?_nil, reduceCtorEq, not_false_eq_true]))
  rw [List.append_nil] at e
  rw [List.drop_zero, e, Nat.zero_add, List.drop_eq_nil_iff]
  exact trim_back_length_le _ _

/-- C14 (what the code does): when everything after `bytes_read` in the
descriptor text is whitespace (the text ends right after the ten fields, or
only blank lines follow them), every pass of the line loop of `read_cfg_file`
leaves `asm_file` null, so the loop is still running after any number of
passes: there is no fatal error. -/
theorem blank_tail_spins (dir cfg : List Char) (bytes_read : Nat)
    (h : ∀ c ∈ cfg.drop bytes_read, isspace c = true) :
    ∀ fuel, cfg_line_loop dir cfg fuel bytes_read = none := by
  intro fuel
  induction fuel generalizing bytes_read with
  | zero => rfl
  | succ fuel ih =>
    have hdata : ∀ c ∈ (get_line cfg bytes_read).2, isspace c = true := by
      intro c hc
      unfold get_line at hc
      split_ifs at hc
      · exact absurd hc (List.not_mem_nil c)
      · exact h c (List.mem_of_mem_take hc)
    have hstep : cfg_line_step dir cfg bytes_read =
        (bytes_read + (get_line cfg bytes_read).1, none) := by
      unfold cfg_line_step
      rw [if_pos (Or.inr (by rw [trimmed_blank _ hdata]; rfl))]
    have hrest : ∀ c ∈ cfg.drop (bytes_read + (get_line cfg bytes_read).1),
        isspace c = true := by
      intro c hc
      rw [← List.drop_drop] at hc
      exact h c (List.mem_of_mem_drop hc)
    show (match cfg_line_step dir cfg bytes_read with
      | (b, none) => cfg_line_loop dir cfg fuel b
      | (_, some asm_file) => some asm_file) = none
    rw [hstep]
    exact ih _ hrest

/-- Witness for C14: a descriptor that ends with the newline after its ten
fields; the loop is still running after 1000 passes, while with a line
`foo.asm` after the fields it leaves in its second pass. -/
theorem blank_tail_spins_witness :
    cfg_line_loop "sprites/".toList "00 00 00 00 00 00 00 00 00 00\n".toList 1000 29 = none ∧
      cfg_line_step "sprites/".toList "00 00 00 00 00 00 00 00 00 00\n".toList 30 = (30, none) ∧
      cfg_line_loop "sprites/".toList "00 00 00 00 00 00 00 00 00 00\nfoo.asm\n".toList 2 29 =
        some "sprites/foo.asm".toList :=
  ⟨blank_tail_spins "sprites/".toList "00 00 00 00 00 00 00 00 00 00\n".toList 29 (by decide) 1000,
    by decide, by decide⟩

/-! ### Print harvesting -/

/-- The function `set_pointer` stores the low three bytes of the address. -/
theorem set_pointer_bytes (v : Int) :
    (((set_pointer v).lowbyte : Nat) : Int) = v % 256 ∧
      (((set_pointer v).highbyte : Nat) : Int) = v / 256 % 256 ∧
      (((set_pointer v).bankbyte : Nat) : Int) = v / 65536 % 256 :=
  pointer_bytes v

/-- The pointer `set_pointer` makes of a number cut to 32 bits has the low
three bytes of the number. -/
theorem set_pointer_to_int32 (n : Nat) : set_pointer (to_int32 n) = spec_pointer n := by
  obtain ⟨h1, h2, h3⟩ := set_pointer_bytes (to_int32 n)
  have hv : to_int32 n = ((n : Int) + 2 ^ 31) % 2 ^ 32 - 2 ^ 31 := rfl
  generalize to_int32 n = v at h1 h2 h3 hv ⊢
  cases hp : set_pointer v with
  | mk a b c =>
    rw [hp] at h1 h2 h3
    simp only at h1 h2 h3
    unfold spec_pointer
    have e1 : a = n % 256 := by omega
    have e2 : b = n / 256 % 256 := by omega
    have e3 : c = n / 65536 % 256 := by omega
    rw [e1, e2, e3]

/-- A string with a word is read by `%4s` as the spec reads it. -/
theorem scan_word_eq (print : List Char) (h : (print_word print).isEmpty = false) :
    scan_word print = some (print_word print, print_rest print) := by
  unfold print_rest
  unfold print_word at h ⊢
  unfold scan_word
  cases hd : print.dropWhile isspace with
  | nil =>
    rw [hd] at h
    exact absurd h (by decide)
  | cons c cs => rfl

/-- A leading digit `0` does not change the number. -/
theorem hex_number_zero_cons (ds : List Nat) : hex_number (0 :: ds) = hex_number ds := by
  unfold hex_number
  rfl

/-- A number below `2^64` that the text starts with is what `%x` stores, cut
to 32 bits. -/
theorem scan_hex_of_spec (s : List Char) (n : Nat) (h : spec_hex_number s = some n)
    (hn : n < 2 ^ 64) : scan_hex s = some (to_int32 n) := by
  unfold spec_hex_number at h
  unfold scan_hex
  simp only
  generalize s.dropWhile isspace = t at h ⊢
  have hval : strtoul_value false n = n := by
    unfold strtoul_value
    rw [if_neg (by omega)]
    rfl
  have hsign : (t.head? == some '-') = false ∧ (t.head? == some '+') = false := by
    cases t with
    | nil => exact ⟨rfl, rfl⟩
    | cons c r =>
      by_cases hm : c = '-'
      · rw [hm] at h
        exact absurd h (by simp [hex_run, hex_digit])
      · by_cases hq : c = '+'
        · rw [hq] at h
          exact absurd h (by simp [hex_run, hex_digit])
        · simp [hm, hq]
  rw [hsign.1, hsign.2]
  simp only [Bool.or_self, Bool.false_eq_true, if_false]
  by_cases hp : (t.take 2 == ['0', 'x'] || t.take 2 == ['0', 'X']) = true
  · rw [hp] at h ⊢
    simp only [if_true, Bool.true_and] at h ⊢
    cases hd : hex_run (t.drop 2) with
    | nil =>
      rw [hd] at h
      simp only [List.isEmpty_nil, Bool.not_true, Bool.false_eq_true, if_false] at h
      have ht : hex_run t = [0] := by
        have e : t = t.take 2 ++ t.drop 2 := (List.take_append_drop 2 t).symm
        rw [e]
        simp only [Bool.or_eq_true, beq_iff_eq] at hp
        rcases hp with hp | hp
        · rw [hp]
          simp [hex_run, hex_digit, hd]
        · rw [hp]
          simp [hex_run, hex_digit, hd]
      rw [ht] at h
      simp only [List.isEmpty_cons, Bool.false_eq_true, if_false, Option.some.injEq] at h
      rw [h, hval]
    | cons d ds =>
      rw [hd] at h
      simp only [List.isEmpty_cons, Bool.not_false, if_true, Option.some.injEq] at h
      rw [hex_number_zero_cons, h, hval]
  · have hp2 : (t.take 2 == ['0', 'x'] || t.take 2 == ['0', 'X']) = false := by
      cases hb : (t.take 2 == ['0', 'x'] || t.take 2 == ['0', 'X'])
      · rfl
      · exact absurd hb hp
    rw [hp2] at h ⊢
    simp only [Bool.false_and, Bool.false_eq_true, if_false] at h ⊢
    cases hd : hex_run t with
    | nil =>
      rw [hd] at h
      exact absurd h (by simp)
    | cons d ds =>
      rw [hd] at h
      simp only [List.isEmpty_cons, Bool.false_eq_true, if_false, Option.some.injEq] at h
      simp only
      rw [h, hval]

/-- What `sscanf` leaves in `buf` and `addr` for a string with a word. -/
theorem scan_print_word (buf : List Char) (addr : Int) (print : List Char)
    (h : (print_word print).isEmpty = false) :
    (scan_print buf addr print).1 = print_word print := by
  unfold scan_print
  rw [scan_word_eq print h]
  simp only
  cases scan_hex (print_rest print) <;> rfl

/-- What `sscanf` leaves in `addr` for a string with a word and a number below
`2^32` after it. -/
theorem scan_print_number (buf : List Char) (addr : Int) (print : List Char) (n : Nat)
    (h : (print_word print).isEmpty = false) (hnum : spec_hex_number (print_rest print) = some n)
    (hn : n < 2 ^ 32) : (scan_print buf addr print).2 = to_int32 n := by
  unfold scan_print
  rw [scan_word_eq print h]
  simp only
  rw [scan_hex_of_spec (print_rest print) n hnum (by omega)]

/-- On a regular string one pass of the print loop does what the string alone
says, whatever `buf` and `addr` held before. -/
theorem harvest_step_regular (h : Harvest) (print : List Char)
    (hreg : regular_print print = true) :
    ((harvest_step h print).init, (harvest_step h print).main,
        (harvest_step h print).description) =
      spec_harvest_step (h.init, h.main, h.description) print := by
  unfold regular_print at hreg
  rw [Bool.and_eq_true] at hreg
  obtain ⟨hw, hnum⟩ := hreg
  have hw1 : (print_word print).isEmpty = false := by
    cases hb : (print_word print).isEmpty
    · rfl
    · rw [hb] at hw
      exact absurd hw (by decide)
  have hword := scan_print_word h.buf h.addr print hw1
  unfold harvest_step spec_harvest_step
  rw [hword]
  by_cases h1 : print_word print = ['I', 'N', 'I', 'T']
  · rw [if_pos (Or.inl h1)] at hnum
    rw [if_pos h1, if_pos h1]
    cases hs : spec_hex_number (print_rest print) with
    | none =>
      rw [hs] at hnum
      exact absurd hnum (by decide)
    | some n =>
      rw [hs] at hnum
      simp only [decide_eq_true_eq] at hnum
      simp only
      rw [scan_print_number h.buf h.addr print n hw1 hs hnum, set_pointer_to_int32]
  · rw [if_neg h1, if_neg h1]
    by_cases h2 : print_word print = ['M', 'A', 'I', 'N']
    · rw [if_pos (Or.inr h2)] at hnum
      rw [if_pos h2, if_pos h2]
      cases hs : spec_hex_number (print_rest print) with
      | none =>
        rw [hs] at hnum
        exact absurd hnum (by decide)
      | some n =>
        rw [hs] at hnum
        simp only [decide_eq_true_eq] at hnum
        simp only
        rw [scan_print_number h.buf h.addr print n hw1 hs hnum, set_pointer_to_int32]
    · rw [if_neg h2, if_neg h2]

/-- The print loop over regular strings, from any state of `buf` and `addr`. -/
theorem foldl_harvest_step_regular (prints : List (List Char)) (h : Harvest)
    (hreg : ∀ p ∈ prints, regular_print p = true) :
    ((prints.foldl harvest_step h).init, (prints.foldl harvest_step h).main,
        (prints.foldl harvest_step h).description) =
      prints.foldl spec_harvest_step (h.init, h.main, h.description) := by
  induction prints generalizing h with
  | nil => rfl
  | cons p ps ih =>
    rw [List.foldl_cons, List.foldl_cons,
      ih (harvest_step h p) (fun q hq => hreg q (List.mem_cons_of_mem _ hq)),
      harvest_step_regular h p (hreg p (List.mem_cons_self _ _))]

/-- A string that starts with four characters that are not whitespace has
these four as its word, and the `%x` conversion reads what follows them. -/
theorem scan_word_prefix (a b c d : Char) (rest : List Char) (ha : isspace a = false)
    (hb : isspace b = false) (hc : isspace c = false) (hd : isspace d = false) :
    scan_word (a :: b :: c :: d :: rest) = some ([a, b, c, d], rest) := by
  unfold scan_word
  rw [List.dropWhile_cons, ha]
  simp only [Bool.false_eq_true, if_false, List.takeWhile_cons, ha, hb, hc, hd, Bool.not_false,
    if_true, List.take_succ_cons, List.take_zero, List.length_cons, List.length_nil,
    List.drop_succ_cons, List.drop_zero]

/-- The pointer `set_pointer` makes of the `int` with all bits set. -/
theorem set_pointer_all_ones : set_pointer (-1) = ⟨0xFF, 0xFF, 0xFF⟩ := by
  obtain ⟨h1, h2, h3⟩ := set_pointer_bytes (-1)
  cases hp : set_pointer (-1) with
  | mk a b c =>
    rw [hp] at h1 h2 h3
    simp only at h1 h2 h3
    have e1 : a = 0xFF := by omega
    have e2 : b = 0xFF := by omega
    have e3 : c = 0xFF := by omega
    rw [e1, e2, e3]

/-- A number of 17 hexadecimal digits does not fit the `unsigned long` of the
conversion: `addr` becomes `0xFFFFFFFF` and the pointer `FF:FF:FF`, where the
low three bytes of the number are `00:00:00`; a number of 10 digits is cut to
its low 32 bits; a bare `0x` converts to 0. -/
theorem harvest_number_out_of_range :
    scan_hex "10000000000000000".toList = some (-1) ∧
      (harvest [] {} {} none ["INIT 10000000000000000".toList]).init = ⟨0xFF, 0xFF, 0xFF⟩ ∧
      spec_hex_number "10000000000000000".toList = some (2 ^ 64) ∧
      spec_pointer (2 ^ 64) = ⟨0, 0, 0⟩ ∧
      regular_print "INIT 10000000000000000".toList = false ∧
      scan_hex "123456789A".toList = some 0x3456789A ∧
      scan_hex "0xZZ".toList = some 0 := by
  refine ⟨by decide, ?_, by decide, by decide, by decide, by decide, by decide⟩
  have e : (harvest [] {} {} none ["INIT 10000000000000000".toList]).init = set_pointer (-1) :=
    rfl
  rw [e]
  exact set_pointer_all_ones

/-- C13 (the claim as stated fails): the string ` INIT 8000`, with a space in
front, starts with neither `INIT` nor `MAIN`, yet the print loop sets the init
pointer to `$008000` and the string does not become the description. -/
theorem leading_space_print_sets_init :
    " INIT 8000".toList.take 4 ≠ "INIT".toList ∧ " INIT 8000".toList.take 4 ≠ "MAIN".toList ∧
      (harvest [] {} {} none [" INIT 8000".toList]).init = ⟨0x00, 0x80, 0x00⟩ ∧
      (harvest [] {} {} none [" INIT 8000".toList]).init ≠ ({} : pointer) ∧
      (harvest [] {} {} none [" INIT 8000".toList]).description = none := by
  decide

/-- C13 (amended): for printed strings that each have a word and, when that
word cut to four characters is `INIT` or `MAIN`, a hexadecimal number below
`2^32` after it, the print loop does to the entry what the strings say one by
one, in order: an `INIT` string sets the init pointer to the low three bytes
of its number, a `MAIN` string does so for the main pointer, and any other
string leaves both pointers and becomes the description, so the last one wins.
The result depends neither on the uninitialised `buf` nor on earlier strings. -/
theorem harvest_regular (junk : List Char) (init main : pointer)
    (description : Option (List Char)) (prints : List (List Char))
    (hreg : ∀ p ∈ prints, regular_print p = true) :
    ((harvest junk init main description prints).init,
        (harvest junk init main description prints).main,
        (harvest junk init main description prints).description) =
      prints.foldl spec_harvest_step (init, main, description) :=
  foldl_harvest_step_regular prints _ hreg

/-- Witness for C13: the strings `INIT 8000`, `MAIN 0x1ABCD`, `My sprite` and
`version 2` give the pointers `$008000` and `$01ABCD` and the description
`version 2`. -/
theorem harvest_regular_witness :
    ((harvest "junk".toList {} {} none
          ["INIT 8000".toList, "MAIN 0x1ABCD".toList, "My sprite".toList,
            "version 2".toList]).init,
        (harvest "junk".toList {} {} none
          ["INIT 8000".toList, "MAIN 0x1ABCD".toList, "My sprite".toList,
            "version 2".toList]).main,
        (harvest "junk".toList {} {} none
          ["INIT 8000".toList, "MAIN 0x1ABCD".toList, "My sprite".toList,
            "version 2".toList]).description) =
      ["INIT 8000".toList, "MAIN 0x1ABCD".toList, "My sprite".toList,
        "version 2".toList].foldl spec_harvest_step ({}, {}, none) ∧
    ["INIT 8000".toList, "MAIN 0x1ABCD".toList, "My sprite".toList,
        "version 2".toList].foldl spec_harvest_step ({}, {}, none) =
      (⟨0x00, 0x80, 0x00⟩, ⟨0xCD, 0xAB, 0x01⟩, some "version 2".toList) :=
  ⟨harvest_regular "junk".toList {} {} none
      ["INIT 8000".toList, "MAIN 0x1ABCD".toList, "My sprite".toList, "version 2".toList]
      (by decide),
    by decide⟩

/-! ### The compile loop -/

/-- The inner loop finds an earlier entry with the same source. -/
theorem find_duplicate_some (asm_file : Nat → Option (List Char)) (file : List Char)
    (i j : Nat) (h : find_duplicate asm_file file i = some j) :
    j < i ∧ asm_file j = some file := by
  induction i with
  | zero => exact absurd h (by simp only [find_duplicate, reduceCtorEq, not_false_eq_true])
  | succ i ih =>
    unfold find_duplicate at h
    split_ifs at h with h1
    · rw [Option.some.injEq] at h
      rw [← h]
      exact ⟨Nat.lt_succ_self i, h1⟩
    · exact ⟨Nat.lt_succ_of_lt (ih h).1, (ih h).2⟩

/-- The inner loop finds nothing only when no earlier entry has the source. -/
theorem find_duplicate_none (asm_file : Nat → Option (List Char)) (file : List Char)
    (i : Nat) (h : find_duplicate asm_file file i = none) :
    ∀ j, j < i → asm_file j ≠ some file := by
  induction i with
  | zero => intro j hj; exact absurd hj (Nat.not_lt_zero j)
  | succ i ih =>
    unfold find_duplicate at h
    split_ifs at h with h1
    intro j hj
    rcases Nat.lt_succ_iff_lt_or_eq.mp hj with hlt | heq
    · exact ih h j hlt
    · rw [heq]
      exact h1

/-- One pass of the outer loop keeps the invariant. -/
theorem patch_entry_invariant (asm_file : Nat → Option (List Char))
    (assemble : List (List Char) → List Char → Option (List (List Char)))
    (junk : Nat → List Char) (i : Nat) (st st1 : PatchState)
    (hinv : PatchInvariant asm_file i st)
    (h : patch_entry asm_file assemble junk i st = some st1) :
    PatchInvariant asm_file (i + 1) st1 := by
  obtain ⟨htab, hone, hzero⟩ := hinv
  unfold patch_entry at h
  cases hf : asm_file i with
  | none =>
    rw [hf] at h
    simp only [Option.some.injEq] at h
    rw [← h]
    have hex : ∀ file, (∃ a, a < i + 1 ∧ asm_file a = some file) ↔
        ∃ a, a < i ∧ asm_file a = some file := by
      intro file
      constructor
      · rintro ⟨a, ha, hfa⟩
        rcases Nat.lt_succ_iff_lt_or_eq.mp ha with hlt | heq
        · exact ⟨a, hlt, hfa⟩
        · rw [heq, hf] at hfa
          exact absurd hfa (by simp only [reduceCtorEq, not_false_eq_true])
      · rintro ⟨a, ha, hfa⟩
        exact ⟨a, Nat.lt_succ_of_lt ha, hfa⟩
    refine ⟨?_, ?_, ?_⟩
    · intro a b file ha hb hfa hfb
      have ha1 : a < i := by
        rcases Nat.lt_succ_iff_lt_or_eq.mp ha with hlt | heq
        · exact hlt
        · rw [heq, hf] at hfa
          exact absurd hfa (by simp only [reduceCtorEq, not_false_eq_true])
      have hb1 : b < i := by
        rcases Nat.lt_succ_iff_lt_or_eq.mp hb with hlt | heq
        · exact hlt
        · rw [heq, hf] at hfb
          exact absurd hfb (by simp only [reduceCtorEq, not_false_eq_true])
      exact htab a b file ha1 hb1 hfa hfb
    · intro file hfile
      exact hone file ((hex file).mp hfile)
    · intro file hfile
      exact hzero file (fun hc => hfile ((hex file).mpr hc))
  | some f =>
    rw [hf] at h
    simp only at h
    have hex : ∀ file, file ≠ f → ((∃ a, a < i + 1 ∧ asm_file a = some file) ↔
        ∃ a, a < i ∧ asm_file a = some file) := by
      intro file hne
      constructor
      · rintro ⟨a, ha, hfa⟩
        rcases Nat.lt_succ_iff_lt_or_eq.mp ha with hlt | heq
        · exact ⟨a, hlt, hfa⟩
        · rw [heq, hf, Option.some.injEq] at hfa
          exact absurd hfa.symm hne
      · rintro ⟨a, ha, hfa⟩
        exact ⟨a, Nat.lt_succ_of_lt ha, hfa⟩
    cases hd : find_duplicate asm_file f i with
    | some j =>
      rw [hd] at h
      simp only [Option.some.injEq] at h
      rw [← h]
      obtain ⟨hj, hfj⟩ := find_duplicate_some asm_file f i j hd
      have hrow : ∀ b file, b < i + 1 → asm_file b = some file → file = f →
          Function.update st.table i (st.table j) b = st.table j := by
        intro b file hb hfb hfile
        rcases Nat.lt_succ_iff_lt_or_eq.mp hb with hlt | heq
        · rw [Function.update_noteq (Nat.ne_of_lt hlt)]
          exact htab b j f hlt hj (by rw [hfb, hfile]) hfj
        · rw [heq, Function.update_same]
      refine ⟨?_, ?_, ?_⟩
      · intro a b file ha hb hfa hfb
        simp only
        by_cases hfile : file = f
        · rw [hrow a file ha hfa hfile, hrow b file hb hfb hfile]
        · have ha1 : a < i := by
            rcases Nat.lt_succ_iff_lt_or_eq.mp ha with hlt | heq
            · exact hlt
            · rw [heq, hf, Option.some.injEq] at hfa
              exact absurd hfa.symm hfile
          have hb1 : b < i := by
            rcases Nat.lt_succ_iff_lt_or_eq.mp hb with hlt | heq
            · exact hlt
            · rw [heq, hf, Option.some.injEq] at hfb
              exact absurd hfb.symm hfile
          rw [Function.update_noteq (Nat.ne_of_lt ha1), Function.update_noteq (Nat.ne_of_lt hb1)]
          exact htab a b file ha1 hb1 hfa hfb
      · intro file hfile
        simp only
        by_cases hne : file = f
        · rw [hne]
          exact hone f ⟨j, hj, hfj⟩
        · exact hone file ((hex file hne).mp hfile)
      · intro file hfile
        simp only
        have hne : file ≠ f := by
          intro he
          exact hfile ⟨i, Nat.lt_succ_self i, by rw [hf, he]⟩
        exact hzero file (fun hc => hfile ((hex file hne).mpr hc))
    | none =>
      rw [hd] at h
      simp only at h
      have hnew := find_duplicate_none asm_file f i hd
      cases ha : assemble st.assembled f with
      | none =>
        rw [ha] at h
        exact absurd h (by simp only [reduceCtorEq, not_false_eq_true])
      | some prints =>
        rw [ha] at h
        simp only [Option.some.injEq] at h
        rw [← h]
        refine ⟨?_, ?_, ?_⟩
        · intro a b file ha hb hfa hfb
          simp only
          by_cases hfile : file = f
          · have ha1 : a = i := by
              rcases Nat.lt_succ_iff_lt_or_eq.mp ha with hlt | heq
              · exact absurd (by rw [hfa, hfile]) (hnew a hlt)
              · exact heq
            have hb1 : b = i := by
              rcases Nat.lt_succ_iff_lt_or_eq.mp hb with hlt | heq
              · exact absurd (by rw [hfb, hfile]) (hnew b hlt)
              · exact heq
            rw [ha1, hb1]
          · have ha1 : a < i := by
              rcases Nat.lt_succ_iff_lt_or_eq.mp ha with hlt | heq
              · exact hlt
              · rw [heq, hf, Option.some.injEq] at hfa
                exact absurd hfa.symm hfile
            have hb1 : b < i := by
              rcases Nat.lt_succ_iff_lt_or_eq.mp hb with hlt | heq
              · exact hlt
              · rw [heq, hf, Option.some.injEq] at hfb
                exact absurd hfb.symm hfile
            rw [Function.update_noteq (Nat.ne_of_lt ha1),
              Function.update_noteq (Nat.ne_of_lt hb1)]
            exact htab a b file ha1 hb1 hfa hfb
        · intro file hfile
          simp only
          rw [List.count_append]
          by_cases hne : file = f
          · rw [hne, hzero f (fun ⟨a, ha1, hfa⟩ => hnew a ha1 hfa)]
            simp only [List.count_singleton_self]
          · have hc0 : List.count file [f] = 0 := by
              rw [List.count_eq_zero, List.mem_singleton]
              exact hne
            rw [hone file ((hex file hne).mp hfile), hc0]
        · intro file hfile
          simp only
          have hne : file ≠ f := by
            intro he
            exact hfile ⟨i, Nat.lt_succ_self i, by rw [hf, he]⟩
          have hc0 : List.count file [f] = 0 := by
            rw [List.count_eq_zero, List.mem_singleton]
            exact hne
          rw [List.count_append, hzero file (fun hc => hfile ((hex file hne).mpr hc)), hc0]

/-- The outer loop keeps the invariant up to the end of the list. -/
theorem patch_from_invariant (asm_file : Nat → Option (List Char))
    (assemble : List (List Char) → List Char → Option (List (List Char)))
    (junk : Nat → List Char) (todo i : Nat) (st st1 : PatchState)
    (hinv : PatchInvariant asm_file i st)
    (h : patch_from asm_file assemble junk todo i st = some st1) :
    PatchInvariant asm_file (i + todo) st1 := by
  induction todo generalizing i st with
  | zero =>
    simp only [patch_from, Option.some.injEq] at h
    rw [← h]
    exact hinv
  | succ todo ih =>
    simp only [patch_from] at h
    cases he : patch_entry asm_file assemble junk i st with
    | none =>
      rw [he] at h
      exact absurd h (by simp only [reduceCtorEq, not_false_eq_true])
    | some st2 =>
      rw [he] at h
      have h2 := ih (i + 1) st2 (patch_entry_invariant asm_file assemble junk i st st2 hinv he) h
      have e : i + (todo + 1) = i + 1 + todo := by omega
      rw [e]
      exact h2

/-- When the assembler never fails `patch_sprites` finishes. -/
theorem patch_from_finishes (asm_file : Nat → Option (List Char))
    (assemble : List (List Char) → List Char → Option (List (List Char)))
    (junk : Nat → List Char) (hok : ∀ done file, (assemble done file).isSome = true)
    (todo i : Nat) (st : PatchState) :
    (patch_from asm_file assemble junk todo i st).isSome = true := by
  induction todo generalizing i st with
  | zero => rfl
  | succ todo ih =>
    have he : (patch_entry asm_file assemble junk i st).isSome = true := by
      unfold patch_entry
      cases asm_file i with
      | none => rfl
      | some f =>
        simp only
        cases find_duplicate asm_file f i with
        | some j => rfl
        | none =>
          simp only
          have := hok st.assembled f
          cases ha : assemble st.assembled f with
          | none =>
            rw [ha] at this
            exact absurd this (by decide)
          | some prints => rfl
    simp only [patch_from]
    cases hp : patch_entry asm_file assemble junk i st with
    | none =>
      rw [hp] at he
      exact absurd he (by decide)
    | some st2 => exact ih (i + 1) st2

/-- C12: when `patch_sprites` finishes, any two entries with the same
`asm_file` have the same init and main pointers in their table records, and
the assembler has been invoked exactly once for the `asm_file` of every
populated entry (and for nothing else), whatever the assembler answers. -/
theorem path_dedup (asm_file : Nat → Option (List Char))
    (assemble : List (List Char) → List Char → Option (List (List Char)))
    (junk : Nat → List Char) (count : Nat) (table : Nat → pointer × pointer)
    (description : Nat → Option (List Char)) (st : PatchState)
    (hrun : patch_sprites asm_file assemble junk count table description = some st) :
    (∀ a b file, a < count → b < count → asm_file a = some file → asm_file b = some file →
        (st.table a).1 = (st.table b).1 ∧ (st.table a).2 = (st.table b).2) ∧
      (∀ a file, a < count → asm_file a = some file → st.assembled.count file = 1) ∧
      (∀ file, file ∈ st.assembled → ∃ a, a < count ∧ asm_file a = some file) := by
  have h0 : PatchInvariant asm_file 0 ⟨table, description, []⟩ := by
    refine ⟨?_, ?_, ?_⟩
    · intro a b file ha
      exact absurd ha (Nat.not_lt_zero a)
    · rintro file ⟨a, ha, _⟩
      exact absurd ha (Nat.not_lt_zero a)
    · intro file _
      rfl
  have h := patch_from_invariant asm_file assemble junk count 0 _ st h0 hrun
  rw [Nat.zero_add] at h
  obtain ⟨htab, hone, hzero⟩ := h
  refine ⟨?_, ?_, ?_⟩
  · intro a b file ha hb hfa hfb
    rw [htab a b file ha hb hfa hfb]
    exact ⟨rfl, rfl⟩
  · intro a file ha hfa
    exact hone file ⟨a, ha, hfa⟩
  · intro file hmem
    by_contra hc
    have := hzero file hc
    rw [List.count_eq_zero] at this
    exact this hmem

/-- Witness for C12: entries 1 and 3 share `a.asm`, entry 2 has `b.asm`; the
assembler is invoked for `a.asm` and `b.asm` once each and entry 3 gets the
pointers of entry 1. -/
theorem path_dedup_witness :
    (∃ st, patch_sprites
        (fun i => if i = 1 ∨ i = 3 then some "a.asm".toList
          else if i = 2 then some "b.asm".toList else none)
        (fun done _ => if done = [] then some ["INIT 8000".toList, "MAIN 8010".toList]
          else some ["INIT 9000".toList])
        (fun _ => []) 4 (fun _ => ({}, {})) (fun _ => none) = some st ∧
      (st.table 1).1 = (st.table 3).1 ∧ (st.table 1).2 = (st.table 3).2 ∧
      st.assembled.count "a.asm".toList = 1) ∧
    (patch_sprites
        (fun i => if i = 1 ∨ i = 3 then some "a.asm".toList
          else if i = 2 then some "b.asm".toList else none)
        (fun done _ => if done = [] then some ["INIT 8000".toList, "MAIN 8010".toList]
          else some ["INIT 9000".toList])
        (fun _ => []) 4 (fun _ => ({}, {})) (fun _ => none)).map
      (fun st => (st.table 1, st.table 2, st.table 3, st.assembled)) =
      some ((⟨0x00, 0x80, 0x00⟩, ⟨0x10, 0x80, 0x00⟩), (⟨0x00, 0x90, 0x00⟩, {}),
        (⟨0x00, 0x80, 0x00⟩, ⟨0x10, 0x80, 0x00⟩), ["a.asm".toList, "b.asm".toList]) := by
  refine ⟨?_, by decide⟩
  obtain ⟨st, hst⟩ := Option.isSome_iff_exists.mp
    (patch_from_finishes
      (fun i => if i = 1 ∨ i = 3 then some "a.asm".toList
        else if i = 2 then some "b.asm".toList else none)
      (fun done _ => if done = [] then some ["INIT 8000".toList, "MAIN 8010".toList]
        else some ["INIT 9000".toList])
      (fun _ => [])
      (fun done _ => by by_cases h : done = [] <;> simp only [h, if_true, if_false] <;> rfl)
      4 0 ⟨fun _ => ({}, {}), fun _ => none, []⟩)
  have h := path_dedup _ _ _ 4 _ _ st hst
  exact ⟨st, hst, (h.1 1 3 "a.asm".toList (by decide) (by decide) rfl rfl).1,
    (h.1 1 3 "a.asm".toList (by decide) (by decide) rfl rfl).2,
    h.2.1 1 "a.asm".toList (by decide) rfl⟩

/-! ### Descriptor fields -/

/-- The conversion with the rest agrees with `scan_hex` on the value. -/
theorem scan_hex_item_value (s : List Char) :
    (scan_hex_item s).map Prod.fst = scan_hex s := by
  unfold scan_hex_item scan_hex
  simp only
  split <;> rfl

/-- A four-byte store leaves the bytes outside its four addresses. -/
theorem store_uint_miss (mem : Nat → Nat) (p v a : Nat) (h : a < p ∨ p + 4 ≤ a) :
    store_uint mem p v a = mem a := by
  unfold store_uint
  rw [if_neg (by omega), if_neg (by omega), if_neg (by omega), if_neg (by omega)]

/-- A four-byte store of a value below `0x100` puts the value at its address. -/
theorem store_uint_low (mem : Nat → Nat) (p v : Nat) (hv : v < 0x100) :
    store_uint mem p v p = v := by
  unfold store_uint
  rw [if_pos rfl]
  omega

/-- A four-byte store of a value below `0x100` zeroes the three bytes after
its address. -/
theorem store_uint_high (mem : Nat → Nat) (p v a : Nat) (hv : v < 0x100) (h1 : p < a)
    (h2 : a < p + 4) : store_uint mem p v a = 0 := by
  unfold store_uint
  rw [if_neg (by omega)]
  split_ifs <;> omega

/-- The ten stores of the descriptor scan at base address `b`, byte by byte:
the sixteen bytes of the record and the first three bytes after it. -/
theorem store_fields_bytes (mem : Nat → Nat) (b v0 v1 v2 v3 v4 v5 v6 v7 v8 v9 : Nat)
    (hval : ∀ v ∈ [v0, v1, v2, v3, v4, v5, v6, v7, v8, v9], v < 0x100) :
    (List.range 19).map
        (fun j => store_fields mem b cfg_field_offsets
          [v0, v1, v2, v3, v4, v5, v6, v7, v8, v9] (b + j)) =
      [v0, v1, v2, v3, v4, v5, v6, v7, 0, 0, 0, mem (b + 11), mem (b + 12), mem (b + 13),
        v8, v9, 0, 0, 0] ∧
    ∀ a, a < b ∨ b + 19 ≤ a →
      store_fields mem b cfg_field_offsets [v0, v1, v2, v3, v4, v5, v6, v7, v8, v9] a =
        mem a := by
  have h0 : v0 < 0x100 := hval v0 (by simp only [List.mem_cons, true_or])
  have h1 : v1 < 0x100 := hval v1 (by simp only [List.mem_cons, true_or, or_true])
  have h2 : v2 < 0x100 := hval v2 (by simp only [List.mem_cons, true_or, or_true])
  have h3 : v3 < 0x100 := hval v3 (by simp only [List.mem_cons, true_or, or_true])
  have h4 : v4 < 0x100 := hval v4 (by simp only [List.mem_cons, true_or, or_true])
  have h5 : v5 < 0x100 := hval v5 (by simp only [List.mem_cons, true_or, or_true])
  have h6 : v6 < 0x100 := hval v6 (by simp only [List.mem_cons, true_or, or_true])
  have h7 : v7 < 0x100 := hval v7 (by simp only [List.mem_cons, true_or, or_true])
  have h8 : v8 < 0x100 := hval v8 (by simp only [List.mem_cons, true_or, or_true])
  have h9 : v9 < 0x100 := hval v9 (by simp only [List.mem_cons, true_or, or_true])
  have e : store_fields mem b cfg_field_offsets [v0, v1, v2, v3, v4, v5, v6, v7, v8, v9] =
      store_uint (store_uint (store_uint (store_uint (store_uint (store_uint (store_uint
        (store_uint (store_uint (store_uint mem (b + 0) v0) (b + 1) v1) (b + 2) v2) (b + 3) v3)
        (b + 4) v4) (b + 5) v5) (b + 6) v6) (b + 7) v7) (b + 14) v8) (b + 15) v9 := rfl
  rw [e]
  refine ⟨?_, ?_⟩
  · have r : List.range 19 =
        [0, 1, 2, 3, 4, 5, 6, 7, 8, 9, 10, 11, 12, 13, 14, 15, 16, 17, 18] := by decide
    rw [r]
    simp only [List.map_cons, List.map_nil, List.cons.injEq, and_true]
    refine ⟨?_, ?_, ?_, ?_, ?_, ?_, ?_, ?_, ?_, ?_, ?_, ?_, ?_, ?_, ?_, ?_, ?_, ?_, ?_⟩
    · iterate 9 rw [store_uint_miss _ _ _ _ (by omega)]
      exact store_uint_low _ _ _ h0
    · iterate 8 rw [store_uint_miss _ _ _ _ (by omega)]
      exact store_uint_low _ _ _ h1
    · iterate 7 rw [store_uint_miss _ _ _ _ (by omega)]
      exact store_uint_low _ _ _ h2
    · iterate 6 rw [store_uint_miss _ _ _ _ (by omega)]
      exact store_uint_low _ _ _ h3
    · iterate 5 rw [store_uint_miss _ _ _ _ (by omega)]
      exact store_uint_low _ _ _ h4
    · iterate 4 rw [store_uint_miss _ _ _ _ (by omega)]
      exact store_uint_low _ _ _ h5
    · iterate 3 rw [store_uint_miss _ _ _ _ (by omega)]
      exact store_uint_low _ _ _ h6
    · iterate 2 rw [store_uint_miss _ _ _ _ (by omega)]
      exact store_uint_low _ _ _ h7
    · iterate 2 rw [store_uint_miss _ _ _ _ (by omega)]
      exact store_uint_high _ _ _ _ h7 (by omega) (by omega)
    · iterate 2 rw [store_uint_miss _ _ _ _ (by omega)]
      exact store_uint_high _ _ _ _ h7 (by omega) (by omega)
    · iterate 2 rw [store_uint_miss _ _ _ _ (by omega)]
      exact store_uint_high _ _ _ _ h7 (by omega) (by omega)
    · iterate 10 rw [store_uint_miss _ _ _ _ (by omega)]
    · iterate 10 rw [store_uint_miss _ _ _ _ (by omega)]
    · iterate 10 rw [store_uint_miss _ _ _ _ (by omega)]
    · rw [store_uint_miss _ _ _ _ (by omega)]
      exact store_uint_low _ _ _ h8
    · exact store_uint_low _ _ _ h9
    · exact store_uint_high _ _ _ _ h9 (by omega) (by omega)
    · exact store_uint_high _ _ _ _ h9 (by omega) (by omega)
    · exact store_uint_high _ _ _ _ h9 (by omega) (by omega)
  · intro a ha
    iterate 10 rw [store_uint_miss _ _ _ _ (by omega)]

/-- C21 (what the code does): when the ten conversions of `read_cfg_file` give
ten values below `0x100` for the record at index `k`, each `%x` stores four
bytes at the address of a one-byte member.  Afterwards the ten members hold
the ten values and the main pointer is untouched, but the three bytes of the
init pointer are zero (the stores to `tweak[3..5]` run over them), so it is no
longer the empty sentinel, and the first three bytes of record `k + 1`
(`type`, `actlike`, `tweak[0]`) are zero (the stores to `extra[0..1]` run over
them).  No other byte changes. -/
theorem descriptor_scan_overwrites (mem : Nat → Nat) (k : Nat) (cfg : List Char)
    (v0 v1 v2 v3 v4 v5 v6 v7 v8 v9 : Nat)
    (hscan : (scan_fields 10 cfg).1.map to_uint32 = [v0, v1, v2, v3, v4, v5, v6, v7, v8, v9])
    (hval : ∀ v ∈ [v0, v1, v2, v3, v4, v5, v6, v7, v8, v9], v < 0x100) :
    cfg_field_offsets.map (fun o => read_cfg_fields mem k cfg (k * sprite_table_size + o)) =
        [v0, v1, v2, v3, v4, v5, v6, v7, v8, v9] ∧
      read_pointer (read_cfg_fields mem k cfg) (k * sprite_table_size + init_offset) =
        ⟨0, 0, 0⟩ ∧
      (read_pointer (read_cfg_fields mem k cfg)
        (k * sprite_table_size + init_offset)).is_empty = false ∧
      read_pointer (read_cfg_fields mem k cfg) (k * sprite_table_size + main_offset) =
        read_pointer mem (k * sprite_table_size + main_offset) ∧
      (cfg_field_offsets.take 3).map
          (fun o => read_cfg_fields mem k cfg ((k + 1) * sprite_table_size + o)) =
        [0, 0, 0] ∧
      ∀ a, a < k * sprite_table_size ∨ (k + 1) * sprite_table_size + 3 ≤ a →
        read_cfg_fields mem k cfg a = mem a := by
  have hs : sprite_table_size = 16 := rfl
  obtain ⟨hb, hframe⟩ := store_fields_bytes mem (k * 16) v0 v1 v2 v3 v4 v5 v6 v7 v8 v9 hval
  have r : List.range 19 =
      [0, 1, 2, 3, 4, 5, 6, 7, 8, 9, 10, 11, 12, 13, 14, 15, 16, 17, 18] := by decide
  rw [r] at hb
  simp only [List.map_cons, List.map_nil, List.cons.injEq, and_true] at hb
  obtain ⟨e0, e1, e2, e3, e4, e5, e6, e7, e8, e9, e10, e11, e12, e13, e14, e15, e16, e17,
    e18⟩ := hb
  have hpos : read_pointer (read_cfg_fields mem k cfg) (k * sprite_table_size + init_offset) =
      ⟨0, 0, 0⟩ := by
    unfold read_pointer read_cfg_fields init_offset
    rw [hscan, hs, e8, Nat.add_assoc, e9, Nat.add_assoc, e10]
  have n0 : (k + 1) * 16 + 0 = k * 16 + 16 := by omega
  have n1 : (k + 1) * 16 + 1 = k * 16 + 17 := by omega
  have n2 : (k + 1) * 16 + 2 = k * 16 + 18 := by omega
  have em : ∀ f : Nat → Nat, cfg_field_offsets.map f =
      [f 0, f 1, f 2, f 3, f 4, f 5, f 6, f 7, f 14, f 15] := fun _ => rfl
  have et : ∀ f : Nat → Nat, (cfg_field_offsets.take 3).map f = [f 0, f 1, f 2] :=
    fun _ => rfl
  refine ⟨?_, hpos, ?_, ?_, ?_, ?_⟩
  · unfold read_cfg_fields
    rw [hscan, hs]
    simp only [em]
    rw [e0, e1, e2, e3, e4, e5, e6, e7, e14, e15]
  · rw [hpos]
    rfl
  · unfold read_pointer read_cfg_fields main_offset
    rw [hscan, hs, e11, Nat.add_assoc, e12, Nat.add_assoc, e13]
  · unfold read_cfg_fields
    rw [hscan, hs]
    simp only [et]
    rw [n0, n1, n2, e16, e17, e18]
  · intro a ha
    unfold read_cfg_fields
    rw [hscan, hs]
    rw [hs] at ha
    exact hframe a (by omega)

/-- Witness for C21: record 6 has been filled from a descriptor with type `01`;
reading the descriptor of record 5 then leaves record 5 with the init pointer
`00:00:00` and sets the type of record 6 to `00`. -/
theorem descriptor_scan_overwrites_witness :
    read_pointer
        (read_cfg_fields
          (read_cfg_fields default_table_memory 6
            "01 36 80 01 00 00 00 00 02 03\nfoo.asm\n".toList)
          5 "03 FF 10 20 30 40 50 60 70 7F\nbar.asm\n".toList)
        (5 * sprite_table_size + init_offset) = ⟨0, 0, 0⟩ ∧
      read_pointer default_table_memory (5 * sprite_table_size + init_offset) =
        ⟨RTL_LOW, RTL_HIGH, RTL_BANK⟩ ∧
      read_cfg_fields default_table_memory 6
          "01 36 80 01 00 00 00 00 02 03\nfoo.asm\n".toList (6 * sprite_table_size) = 1 ∧
      read_cfg_fields
          (read_cfg_fields default_table_memory 6
            "01 36 80 01 00 00 00 00 02 03\nfoo.asm\n".toList)
          5 "03 FF 10 20 30 40 50 60 70 7F\nbar.asm\n".toList (6 * sprite_table_size) = 0 ∧
      cfg_bytes_read "03 FF 10 20 30 40 50 60 70 7F\nbar.asm\n".toList = 29 :=
  ⟨(descriptor_scan_overwrites
      (read_cfg_fields default_table_memory 6
        "01 36 80 01 00 00 00 00 02 03\nfoo.asm\n".toList)
      5 "03 FF 10 20 30 40 50 60 70 7F\nbar.asm\n".toList
      0x03 0xFF 0x10 0x20 0x30 0x40 0x50 0x60 0x70 0x7F (by decide) (by decide)).2.1,
    by decide, by decide, by decide, by decide⟩

/-! ### The serialized windows -/

/-- The stores of a descriptor scan stay within the record and the three bytes
behind it, whatever the values. -/
theorem store_fields_frame (offs vs : List Nat) (mem : Nat → Nat) (b a : Nat)
    (hoffs : ∀ o ∈ offs, o + 4 ≤ 19) (ha : a < b ∨ b + 19 ≤ a) :
    store_fields mem b offs vs a = mem a := by
  induction offs generalizing mem vs with
  | nil => rfl
  | cons o offs ih =>
    cases vs with
    | nil => rfl
    | cons v vs =>
      have ho := hoffs o (List.mem_cons_self _ _)
      show store_fields (store_uint mem (b + o) v) b offs vs a = mem a
      rw [ih vs _ (fun x hx => hoffs x (List.mem_cons_of_mem _ hx)),
        store_uint_miss _ _ _ _ (by omega)]

/-- The descriptor scan for record `k` changes no byte before the record or
from offset 19 of the record on, whatever the descriptor holds. -/
theorem read_cfg_fields_frame (mem : Nat → Nat) (k : Nat) (cfg : List Char) (a : Nat)
    (ha : a < k * sprite_table_size ∨ k * sprite_table_size + 19 ≤ a) :
    read_cfg_fields mem k cfg a = mem a := by
  unfold read_cfg_fields
  exact store_fields_frame _ _ mem _ a (by decide) ha

/-- The descriptor scans of records other than the last one leave the pointer
members of `struct sprite_data`. -/
theorem read_descriptors_frame (entries : List (Nat × List Char)) (mem : Nat → Nat) (a : Nat)
    (hent : ∀ e ∈ entries, e.1 < 0x20EF) (ha : member_offset 0 ≤ a) :
    read_descriptors mem entries a = mem a := by
  have hm : member_offset 0 = 0x20F00 := rfl
  have hs : sprite_table_size = 16 := rfl
  induction entries generalizing mem with
  | nil => rfl
  | cons e es ih =>
    have he := hent e (List.mem_cons_self _ _)
    show read_descriptors (read_cfg_fields mem e.1 e.2) es a = mem a
    rw [ih _ (fun x hx => hent x (List.mem_cons_of_mem _ hx)),
      read_cfg_fields_frame mem e.1 e.2 a (by rw [hs]; omega)]

/-- Eight bytes that are the bytes of an address below `2^64` hold that address. -/
theorem load_pointer_bytes (mem : Nat → Nat) (off p : Nat) (hp : p < 2 ^ 64)
    (h : ∀ j, j < 8 → mem (off + j) = address_byte p j) : load_pointer mem off = p := by
  have h0 := h 0 (by omega)
  have h1 := h 1 (by omega)
  have h2 := h 2 (by omega)
  have h3 := h 3 (by omega)
  have h4 := h 4 (by omega)
  have h5 := h 5 (by omega)
  have h6 := h 6 (by omega)
  have h7 := h 7 (by omega)
  unfold address_byte at h0 h1 h2 h3 h4 h5 h6 h7
  rw [Nat.add_zero] at h0
  norm_num at h0 h1 h2 h3 h4 h5 h6 h7
  unfold load_pointer
  rw [h0, h1, h2, h3, h4, h5, h6, h7]
  omega

/-- The bytes of pointer member `i` in the object as constructed. -/
theorem sprite_data_member (base i j : Nat) (hi : i < 5) (hj : j < 8) :
    sprite_data base (member_offset i + j) =
      address_byte (base + member_index i * sprite_table_size) j := by
  have hm : ∀ n, member_offset n = 0x20F00 + n * 8 := fun _ => rfl
  unfold sprite_data
  rw [hm i, hm 0, hm 5, if_neg (by omega), if_pos (by omega)]
  have e1 : (0x20F00 + i * 8 + j - (0x20F00 + 0 * 8)) / pointer_size = i := by
    unfold pointer_size
    omega
  have e2 : (0x20F00 + i * 8 + j - (0x20F00 + 0 * 8)) % pointer_size = j := by
    unfold pointer_size
    omega
  rw [e1, e2]

/-- The address a pointer member holds at the time of the `write_all` calls,
when the members are as the descriptor scans of records other than the last
one left them. -/
theorem load_member (base : Nat) (entries : List (Nat × List Char)) (mem : Nat → Nat) (i : Nat)
    (hbase : base + member_offset 5 ≤ 2 ^ 64) (hent : ∀ e ∈ entries, e.1 < 0x20EF)
    (hmem : ∀ a, member_offset 0 ≤ a → mem a = read_descriptors (sprite_data base) entries a)
    (hi : i < 5) :
    load_pointer mem (member_offset i) = base + member_index i * sprite_table_size := by
  have hm : ∀ n, member_offset n = 0x20F00 + n * 8 := fun _ => rfl
  have hidx : member_index i * sprite_table_size ≤ 0x20000 := by
    have : i = 0 ∨ i = 1 ∨ i = 2 ∨ i = 3 ∨ i = 4 := by omega
    rcases this with h | h | h | h | h <;> rw [h] <;> decide
  apply load_pointer_bytes
  · rw [hm 5] at hbase
    omega
  · intro j hj
    rw [hmem _ (by rw [hm 0, hm i]; omega),
      read_descriptors_frame entries _ _ hent (by rw [hm 0, hm i]; omega),
      sprite_data_member base i j hi hj]

/-- C18 (the claim as stated fails): the default blob is `0xF00` bytes long,
which is `0xF0` records and not `0xF00`; and five windows of `0xF00`, `0x800`,
`0x800`, `0x800`, `0x800` records would hold `0x2F00` records, not `0x20F0`. -/
theorem default_window_not_F00_records :
    ((serialized_windows (sprite_data 0x10000000)).head?.map Window.records) = some 0xF0 ∧
      (0xF0 : Nat) ≠ 0xF00 ∧
      0xF00 + 0x800 + 0x800 + 0x800 + 0x800 ≠ MAX_SPRITE_COUNT.toNat := by
  decide

/-- The descriptor scan of the last record (`0x20EF`, global sprite `FF`)
stores over the three low bytes of the member `default_table`, which lies
behind it: with `full_table` at `0x12345670` the default blob is then written
from `0x12000000` and not from `full_table + 0x2000`. -/
theorem last_record_moves_default_window :
    from_table 0x200 0xFF = some 0x20EF ∧
      load_pointer (sprite_data 0x12345670) (member_offset 0) = 0x12345670 + 0x2000 * 16 ∧
      load_pointer
          (read_descriptors (sprite_data 0x12345670)
            [(0x20EF, "03 FF 10 20 30 40 50 60 70 7F\nbar.asm\n".toList)])
          (member_offset 0) = 0x12000000 := by
  decide

/-- C18 (amended): in a run whose manifest has no line for the last record of
the table (`0x20EF`, global sprite `FF`), so that the pointer members of `data`
still hold their initial values when `main` writes the blobs, the five blobs
are a default window of `0xF0` records (`0xF00` bytes from `full_table +
0x2000`) and four per-level windows of `0x800` records (`0x8000` bytes from
`full_table`, `+ 0x800`, `+ 0x1000`, `+ 0x1800`), 16 bytes per record; their
sizes add up to `0x20F0` records, and every record of the table lies in
exactly one of them. -/
theorem windows_partition_table (base : Nat) (entries : List (Nat × List Char))
    (mem : Nat → Nat) (k : Nat) (hbase : base + member_offset 5 ≤ 2 ^ 64)
    (hent : ∀ e ∈ entries, e.1 < 0x20EF)
    (hmem : ∀ a, member_offset 0 ≤ a → mem a = read_descriptors (sprite_data base) entries a)
    (hk : k < MAX_SPRITE_COUNT.toNat) :
    serialized_windows mem =
        [⟨base + 0x2000 * sprite_table_size, 0xF00⟩, ⟨base, 0x8000⟩,
          ⟨base + 0x800 * sprite_table_size, 0x8000⟩,
          ⟨base + 0x1000 * sprite_table_size, 0x8000⟩,
          ⟨base + 0x1800 * sprite_table_size, 0x8000⟩] ∧
      (serialized_windows mem).map Window.records = [0xF0, 0x800, 0x800, 0x800, 0x800] ∧
      ((serialized_windows mem).map Window.records).sum = MAX_SPRITE_COUNT.toNat ∧
      ((serialized_windows mem).filter (fun w => w.holds base k)).length = 1 := by
  have hw : serialized_windows mem =
      [⟨base + 0x2000 * sprite_table_size, 0xF00⟩, ⟨base, 0x8000⟩,
        ⟨base + 0x800 * sprite_table_size, 0x8000⟩,
        ⟨base + 0x1000 * sprite_table_size, 0x8000⟩,
        ⟨base + 0x1800 * sprite_table_size, 0x8000⟩] := by
    unfold serialized_windows
    rw [load_member base entries mem 0 hbase hent hmem (by omega),
      load_member base entries mem 1 hbase hent hmem (by omega),
      load_member base entries mem 2 hbase hent hmem (by omega),
      load_member base entries mem 3 hbase hent hmem (by omega),
      load_member base entries mem 4 hbase hent hmem (by omega)]
    have e1 : base + member_index 1 * sprite_table_size = base := rfl
    rw [e1]
    rfl
  rw [hw]
  have hrec : List.map Window.records
      [⟨base + 0x2000 * sprite_table_size, 0xF00⟩, ⟨base, 0x8000⟩,
        ⟨base + 0x800 * sprite_table_size, 0x8000⟩,
        ⟨base + 0x1000 * sprite_table_size, 0x8000⟩,
        ⟨base + 0x1800 * sprite_table_size, 0x8000⟩] = [0xF0, 0x800, 0x800, 0x800, 0x800] := by
    simp only [List.map_cons, List.map_nil, Window.records]
    decide
  refine ⟨rfl, hrec, by rw [hrec]; decide, ?_⟩
  have hk1 : k < 0x20F0 := hk
  clear hk hw hmem hent
  have e : ∀ a b : Nat, (⟨a, b⟩ : Window).holds base k =
      decide (a ≤ base + k * 16 ∧ base + (k + 1) * 16 ≤ a + b ∧ (base + k * 16 - a) % 16 = 0) :=
    fun _ _ => rfl
  have hs : sprite_table_size = 16 := rfl
  simp only [List.filter, e, hs]
  by_cases h1 : k < 0x800
  · rw [decide_eq_false (by omega), decide_eq_true (by omega), decide_eq_false (by omega),
      decide_eq_false (by omega), decide_eq_false (by omega)]
    rfl
  · by_cases h2 : k < 0x1000
    · rw [decide_eq_false (by omega), decide_eq_false (by omega), decide_eq_true (by omega),
        decide_eq_false (by omega), decide_eq_false (by omega)]
      rfl
    · by_cases h3 : k < 0x1800
      · rw [decide_eq_false (by omega), decide_eq_false (by omega),
          decide_eq_false (by omega), decide_eq_true (by omega), decide_eq_false (by omega)]
        rfl
      · by_cases h4 : k < 0x2000
        · rw [decide_eq_false (by omega), decide_eq_false (by omega),
            decide_eq_false (by omega), decide_eq_false (by omega), decide_eq_true (by omega)]
          rfl
        · rw [decide_eq_true (by omega), decide_eq_false (by omega),
            decide_eq_false (by omega), decide_eq_false (by omega), decide_eq_false (by omega)]
          rfl

/-- Witness for C18: with `full_table` at `0x12345670` and one manifest line,
for record `0x2005` (global sprite `05`), that record lies in exactly one of
the five blobs, the default one. -/
theorem windows_partition_table_witness :
    serialized_windows
        (read_descriptors (sprite_data 0x12345670)
          [(0x2005, "01 36 80 01 00 00 00 00 02 03\nfoo.asm\n".toList)]) =
        [⟨0x12345670 + 0x2000 * sprite_table_size, 0xF00⟩, ⟨0x12345670, 0x8000⟩,
          ⟨0x12345670 + 0x800 * sprite_table_size, 0x8000⟩,
          ⟨0x12345670 + 0x1000 * sprite_table_size, 0x8000⟩,
          ⟨0x12345670 + 0x1800 * sprite_table_size, 0x8000⟩] ∧
      ((serialized_windows
          (read_descriptors (sprite_data 0x12345670)
            [(0x2005, "01 36 80 01 00 00 00 00 02 03\nfoo.asm\n".toList)])).filter
        (fun w => w.holds 0x12345670 0x2005)).length = 1 :=
  ⟨(windows_partition_table 0x12345670
      [(0x2005, "01 36 80 01 00 00 00 00 02 03\nfoo.asm\n".toList)]
      (read_descriptors (sprite_data 0x12345670)
        [(0x2005, "01 36 80 01 00 00 00 00 02 03\nfoo.asm\n".toList)])
      0x2005 (by decide) (by decide) (fun _ _ => rfl) (by decide)).1,
    (windows_partition_table 0x12345670
      [(0x2005, "01 36 80 01 00 00 00 00 02 03\nfoo.asm\n".toList)]
      (read_descriptors (sprite_data 0x12345670)
        [(0x2005, "01 36 80 01 00 00 00 00 02 03\nfoo.asm\n".toList)])
      0x2005 (by decide) (by decide) (fun _ _ => rfl) (by decide)).2.2.2⟩

end SpriteTool
